import Mathlib

/-!
Verification of the nostr-wot-extension core: the in-memory graph store
(`src/lib/storage.js`), the BFS query engine (`src/lib/graph.js` and the
later revision in `src/unnamed/part_003`), the crawler entry checks
(`src/lib/sync.js`, `src/unnamed/part_000`) and the per-connection adaptive
backoff (`src/lib/sync.js`).

JavaScript `Map`s are modelled as association lists with JS `Map.set`
semantics (replace the existing entry in place, else append); JS `Set`s as
lists with membership guards (the code only ever adds after a `!has` check,
so insertion order is kept).  Numeric ids are `Nat` (the code allocates
small dense integers); `Uint32Array` contents are `List Nat` with explicit
`% 2^32` where a value is stored into a typed array.  Timers, IndexedDB
transactions and the network are outside the model: the in-memory state the
spec calls authoritative between flushes is what is embedded.
-/

namespace NostrWot

/-! ## Association-list primitives (JS `Map` model) -/

/-- `Map.get`: value of the first entry with the given key. -/
def lookupA {κ ν : Type} [DecidableEq κ] (l : List (κ × ν)) (k : κ) : Option ν :=
  match l with
  | [] => none
  | (k', v) :: t => if k' = k then some v else lookupA t k

/-- `Map.set`: replace the entry in place if the key exists, else append. -/
def setA {κ ν : Type} [DecidableEq κ] (l : List (κ × ν)) (k : κ) (v : ν) : List (κ × ν) :=
  match l with
  | [] => [(k, v)]
  | (k', v') :: t => if k' = k then (k, v) :: t else (k', v') :: setA t k v

/-- `Map.delete`: remove the entry with the given key. -/
def eraseA {κ ν : Type} [DecidableEq κ] (l : List (κ × ν)) (k : κ) : List (κ × ν) :=
  match l with
  | [] => []
  | (k', v') :: t => if k' = k then t else (k', v') :: eraseA t k

theorem lookupA_setA_self {κ ν : Type} [DecidableEq κ] (l : List (κ × ν)) (k : κ) (v : ν) :
    lookupA (setA l k v) k = some v := by
  induction l with
  | nil => simp [setA, lookupA]
  | cons p t ih =>
    obtain ⟨k', v'⟩ := p
    by_cases h : k' = k
    · simp [setA, h, lookupA]
    · simp [setA, h, lookupA, ih]

theorem lookupA_setA_ne {κ ν : Type} [DecidableEq κ] (l : List (κ × ν)) (k k' : κ) (v : ν)
    (h : k' ≠ k) : lookupA (setA l k v) k' = lookupA l k' := by
  induction l with
  | nil =>
    simp only [setA, lookupA]
    rw [if_neg (fun hh => h hh.symm)]
  | cons p t ih =>
    obtain ⟨k₀, v₀⟩ := p
    by_cases h0 : k₀ = k
    · subst h0
      simp only [setA, if_pos rfl, lookupA]
      rw [if_neg (fun hh => h hh.symm), if_neg (fun hh => h hh.symm)]
    · by_cases h1 : k₀ = k'
      · subst h1
        simp [setA, if_neg h0, lookupA]
      · simp [setA, lookupA, h0, h1, ih]

theorem setA_setA_same {κ ν : Type} [DecidableEq κ] (l : List (κ × ν)) (k : κ) (v : ν) :
    setA (setA l k v) k v = setA l k v := by
  induction l with
  | nil => simp [setA]
  | cons p t ih =>
    obtain ⟨k₀, v₀⟩ := p
    by_cases h : k₀ = k
    · simp [setA, h]
    · simp [setA, h, ih]

theorem lookupA_mem {κ ν : Type} [DecidableEq κ] {l : List (κ × ν)} {k : κ} {v : ν}
    (h : lookupA l k = some v) : (k, v) ∈ l := by
  induction l with
  | nil => simp [lookupA] at h
  | cons p t ih =>
    obtain ⟨k₀, v₀⟩ := p
    by_cases h0 : k₀ = k
    · subst h0
      simp [lookupA] at h
      simp [h]
    · simp [lookupA, h0] at h
      exact List.mem_cons_of_mem _ (ih h)

theorem lookupA_append_of_some {κ ν : Type} [DecidableEq κ] {l : List (κ × ν)}
    (l' : List (κ × ν)) {k : κ} {v : ν} (h : lookupA l k = some v) :
    lookupA (l ++ l') k = some v := by
  induction l with
  | nil => simp [lookupA] at h
  | cons p t ih =>
    obtain ⟨k₀, v₀⟩ := p
    by_cases h0 : k₀ = k
    · simp [lookupA, h0] at h ⊢; exact h
    · simp [lookupA, h0] at h ⊢; exact ih h

theorem lookupA_append_of_none {κ ν : Type} [DecidableEq κ] {l : List (κ × ν)}
    (l' : List (κ × ν)) {k : κ} (h : lookupA l k = none) :
    lookupA (l ++ l') k = lookupA l' k := by
  induction l with
  | nil => simp
  | cons p t ih =>
    obtain ⟨k₀, v₀⟩ := p
    by_cases h0 : k₀ = k
    · simp [lookupA, h0] at h
    · simp [lookupA, h0] at h ⊢; exact ih h

/-! ## Graph store (`src/lib/storage.js`)

The module-level mutable state of `storage.js`: the bidirectional
pubkey↔id maps, the allocation counter `nextId`, the in-memory adjacency
cache `graphCache`, and the two write buffers.  IndexedDB itself is not
modelled; the in-memory cache is the authority the BFS engine reads. -/

structure Store where
  pubkeyToId : List (String × Nat)
  idToPubkey : List (Nat × String)
  nextId : Nat
  graphCache : List (Nat × List Nat)
  writeBuffer : List (Nat × List Nat)
  pubkeyWriteBuffer : List (Nat × String)
  deriving Repr, DecidableEq

/-- The state right after `initDB` on an empty database (`nextId = 1`). -/
def emptyStore : Store := ⟨[], [], 1, [], [], []⟩

/-- `getId(pubkey)`: `pubkeyToId.get(pubkey) ?? null`. -/
def getId (st : Store) (pubkey : String) : Option Nat :=
  lookupA st.pubkeyToId pubkey

/-- `getPubkey(id)`: `idToPubkey.get(id) ?? null`. -/
def getPubkey (st : Store) (id : Nat) : Option String :=
  lookupA st.idToPubkey id

/-- `getFollowIdsSync(id)`: `graphCache.get(id) || new Uint32Array(0)`. -/
def getFollowIdsSync (st : Store) (id : Nat) : List Nat :=
  (lookupA st.graphCache id).getD []

/-- `getOrCreateId(pubkey)`: return the existing mapping, or allocate
`nextId`, update both map directions and push the new mapping onto the
pubkey write buffer. -/
def getOrCreateId (pubkey : String) (st : Store) : Nat × Store :=
  match lookupA st.pubkeyToId pubkey with
  | some id => (id, st)
  | none =>
    let id := st.nextId
    (id, { st with
      pubkeyToId := setA st.pubkeyToId pubkey id
      idToPubkey := setA st.idToPubkey id pubkey
      nextId := id + 1
      pubkeyWriteBuffer := st.pubkeyWriteBuffer ++ [(id, pubkey)] })

/-- `getOrCreateIds(pubkeys)`: the in-place loop of `storage.js`, one
`getOrCreateId`-equivalent step per element. -/
def getOrCreateIds (pubkeys : List String) (st : Store) : List Nat × Store :=
  match pubkeys with
  | [] => ([], st)
  | pk :: rest =>
    let (id, st') := getOrCreateId pk st
    let (ids, st'') := getOrCreateIds rest st'
    (id :: ids, st'')

/-- `saveFollows(pubkey, follows)`: resolve ids, overwrite the in-memory
adjacency immediately, push the record onto the write buffer. -/
def saveFollows (pubkey : String) (follows : List String) (st : Store) : Store :=
  let (id, st1) := getOrCreateId pubkey st
  let (followIds, st2) := getOrCreateIds follows st1
  { st2 with
    graphCache := setA st2.graphCache id followIds
    writeBuffer := st2.writeBuffer ++ [(id, followIds)] }

/-- `saveFollowsBatch(records)`: per record the same conversion and cache
update as `saveFollows`, records appended to the write buffer in order. -/
def saveFollowsBatch (records : List (String × List String)) (st : Store) : Store :=
  match records with
  | [] => st
  | (pk, fs) :: rest => saveFollowsBatch rest (saveFollows pk fs st)

/-- `clearAll()`: empty every in-memory structure and buffer; ids restart
at 1. -/
def clearAll (_st : Store) : Store := emptyStore

/-- The graph the BFS engine sees: adjacency out of the in-memory cache. -/
def storeG (st : Store) : Nat → List Nat :=
  fun id => getFollowIdsSync st id

/-! ## Delta encoding (`encodeFollows` / `decodeFollows`)

`encodeFollows` sorts ascending (`.sort((a, b) => a - b)`, modelled as
`List.insertionSort`), stores the first id then successive differences into
a `Uint32Array`; `decodeFollows` rebuilds the running sums.  Each store
into the typed array is an explicit `% 2^32`. -/

def U32 : Nat := 4294967296

/-- The delta loop of `encodeFollows`: `deltas[i] = sorted[i] - sorted[i-1]`. -/
def deltaEnc (prev : Nat) : List Nat → List Nat
  | [] => []
  | x :: xs => ((x - prev) % U32) :: deltaEnc x xs

def encodeFollows (followIds : List Nat) : List Nat :=
  match List.insertionSort (· ≤ ·) followIds with
  | [] => []
  | x :: xs => (x % U32) :: deltaEnc x xs

/-- The running-sum loop of `decodeFollows`: `result[i] = result[i-1] + deltas[i]`. -/
def deltaDec (prev : Nat) : List Nat → List Nat
  | [] => []
  | d :: ds => ((prev + d) % U32) :: deltaDec ((prev + d) % U32) ds

def decodeFollows (buffer : List Nat) : List Nat :=
  match buffer with
  | [] => []
  | d :: ds => d :: deltaDec d ds

theorem deltaDec_deltaEnc (xs : List Nat) (x : Nat) (hx : ∀ y ∈ xs, x ≤ y)
    (hs : xs.Pairwise (· ≤ ·)) (hb : ∀ y ∈ xs, y < U32) :
    deltaDec x (deltaEnc x xs) = xs := by
  induction xs generalizing x with
  | nil => rfl
  | cons y ys ih =>
    have hxy : x ≤ y := hx y (List.mem_cons_self _ _)
    have hyb : y < U32 := hb y (List.mem_cons_self _ _)
    have h1 : (y - x) % U32 = y - x := Nat.mod_eq_of_lt (lt_of_le_of_lt (Nat.sub_le y x) hyb)
    have h2 : (x + (y - x)) % U32 = y := by
      rw [Nat.add_sub_cancel' hxy, Nat.mod_eq_of_lt hyb]
    simp only [deltaEnc, deltaDec, h1, h2]
    refine congrArg (y :: ·) (ih y ?_ hs.of_cons ?_)
    · exact fun z hz => (List.pairwise_cons.mp hs).1 z hz
    · exact fun z hz => hb z (List.mem_cons_of_mem _ hz)

/-- C4: `decodeFollows(encodeFollows(l))` is the ascending sort of `l`
(for ids representable in 32 bits), hence the identity on sorted input and
the empty sequence on empty input. -/
theorem encodeFollows_roundtrip (l : List Nat) (hb : ∀ x ∈ l, x < U32) :
    decodeFollows (encodeFollows l) = List.insertionSort (· ≤ ·) l ∧
    (List.insertionSort (· ≤ ·) l).Sorted (· ≤ ·) ∧
    (List.insertionSort (· ≤ ·) l).Perm l ∧
    (l.Sorted (· ≤ ·) → decodeFollows (encodeFollows l) = l) ∧
    encodeFollows [] = [] := by
  have hsorted : (List.insertionSort (· ≤ ·) l).Sorted (· ≤ ·) :=
    List.sorted_insertionSort (· ≤ ·) l
  have hperm : (List.insertionSort (· ≤ ·) l).Perm l := List.perm_insertionSort (· ≤ ·) l
  have hmain : decodeFollows (encodeFollows l) = List.insertionSort (· ≤ ·) l := by
    unfold encodeFollows
    cases hs : List.insertionSort (· ≤ ·) l with
    | nil => rfl
    | cons x xs =>
      have hbs : ∀ y ∈ x :: xs, y < U32 := by
        intro y hy
        exact hb y (hperm.mem_iff.mp (hs ▸ hy))
      have hxb : x < U32 := hbs x (List.mem_cons_self _ _)
      have hchain : (x :: xs).Pairwise (· ≤ ·) := hs ▸ hsorted
      simp only [decodeFollows, Nat.mod_eq_of_lt hxb]
      refine congrArg (x :: ·) (deltaDec_deltaEnc xs x ?_ hchain.of_cons ?_)
      · exact fun z hz => (List.pairwise_cons.mp hchain).1 z hz
      · exact fun z hz => hbs z (List.mem_cons_of_mem _ hz)
  refine ⟨hmain, hsorted, hperm, fun hsl => ?_, rfl⟩
  rw [hmain, List.Sorted.insertionSort_eq hsl]

/-- Witness for C4 at a concrete unsorted list with a duplicate. -/
theorem encodeFollows_roundtrip_witness :
    decodeFollows (encodeFollows [7, 3, 3, 12]) = List.insertionSort (· ≤ ·) [7, 3, 3, 12] ∧
    (List.insertionSort (· ≤ ·) [7, 3, 3, 12]).Sorted (· ≤ ·) ∧
    (List.insertionSort (· ≤ ·) [7, 3, 3, 12]).Perm [7, 3, 3, 12] ∧
    ([7, 3, 3, 12].Sorted (· ≤ ·) → decodeFollows (encodeFollows [7, 3, 3, 12]) = [7, 3, 3, 12]) ∧
    encodeFollows [] = [] :=
  encodeFollows_roundtrip [7, 3, 3, 12] (by decide)

/-! ## Id-map lemmas -/

theorem getOrCreateId_of_some {st : Store} {pk : String} {i : Nat}
    (h : lookupA st.pubkeyToId pk = some i) : getOrCreateId pk st = (i, st) := by
  unfold getOrCreateId
  rw [h]

theorem getOrCreateId_lookup_self (pk : String) (st : Store) :
    lookupA (getOrCreateId pk st).2.pubkeyToId pk = some (getOrCreateId pk st).1 := by
  unfold getOrCreateId
  cases h : lookupA st.pubkeyToId pk with
  | some i => simpa using h
  | none => simpa using lookupA_setA_self st.pubkeyToId pk st.nextId

theorem getOrCreateId_preserves {st : Store} {q : String} {i : Nat}
    (pk : String) (h : lookupA st.pubkeyToId q = some i) :
    lookupA (getOrCreateId pk st).2.pubkeyToId q = some i := by
  unfold getOrCreateId
  cases hpk : lookupA st.pubkeyToId pk with
  | some j => simpa using h
  | none =>
    have hne : q ≠ pk := fun he => by rw [he, hpk] at h; exact Option.noConfusion h
    simpa [lookupA_setA_ne _ _ _ _ hne] using h

theorem getOrCreateIds_preserves {q : String} {i : Nat} :
    ∀ (fs : List String) (st : Store), lookupA st.pubkeyToId q = some i →
      lookupA (getOrCreateIds fs st).2.pubkeyToId q = some i := by
  intro fs
  induction fs with
  | nil => intro st h; exact h
  | cons pk rest ih =>
    intro st h
    simp only [getOrCreateIds]
    exact ih _ (getOrCreateId_preserves pk h)

theorem getOrCreateIds_ids_eq :
    ∀ (fs : List String) (st : Store),
      (getOrCreateIds fs st).1 =
        fs.map (fun q => (lookupA (getOrCreateIds fs st).2.pubkeyToId q).getD 0) := by
  intro fs
  induction fs with
  | nil => intro st; rfl
  | cons pk rest ih =>
    intro st
    simp only [getOrCreateIds, List.map_cons]
    refine congrArg₂ (· :: ·) ?_ (ih _)
    rw [getOrCreateIds_preserves rest _ (getOrCreateId_lookup_self pk st)]
    rfl

theorem getOrCreateIds_isSome :
    ∀ (fs : List String) (st : Store) (q : String), q ∈ fs →
      (lookupA (getOrCreateIds fs st).2.pubkeyToId q).isSome := by
  intro fs
  induction fs with
  | nil => intro st q h; exact absurd h (List.not_mem_nil q)
  | cons pk rest ih =>
    intro st q hq
    simp only [getOrCreateIds]
    rcases List.mem_cons.mp hq with he | hm
    · subst he
      rw [getOrCreateIds_preserves rest _ (getOrCreateId_lookup_self q st)]
      rfl
    · exact ih _ q hm

theorem getOrCreateIds_all_some :
    ∀ (fs : List String) (st : Store),
      (∀ q ∈ fs, (lookupA st.pubkeyToId q).isSome) →
      getOrCreateIds fs st =
        (fs.map (fun q => (lookupA st.pubkeyToId q).getD 0), st) := by
  intro fs
  induction fs with
  | nil => intro st _; rfl
  | cons pk rest ih =>
    intro st h
    obtain ⟨i, hi⟩ := Option.isSome_iff_exists.mp (h pk (List.mem_cons_self _ _))
    simp only [getOrCreateIds, getOrCreateId_of_some hi, List.map_cons]
    rw [ih st (fun q hq => h q (List.mem_cons_of_mem _ hq))]
    simp [hi]

theorem getOrCreateId_graphCache (pk : String) (st : Store) :
    (getOrCreateId pk st).2.graphCache = st.graphCache := by
  unfold getOrCreateId
  cases lookupA st.pubkeyToId pk <;> rfl

theorem getOrCreateIds_graphCache :
    ∀ (fs : List String) (st : Store), (getOrCreateIds fs st).2.graphCache = st.graphCache := by
  intro fs
  induction fs with
  | nil => intro st; rfl
  | cons pk rest ih =>
    intro st
    simp only [getOrCreateIds]
    rw [ih, getOrCreateId_graphCache]

/-- The adjacency record written by `saveFollows` is exactly the id list of
the argument: `graphCache.set(id, ...)` consults no timestamp and keeps
nothing of a previous record. -/
theorem saveFollows_getFollowIdsSync (pk : String) (fs : List String) (st : Store) :
    getFollowIdsSync (saveFollows pk fs st) (getOrCreateId pk st).1 =
      (getOrCreateIds fs (getOrCreateId pk st).2).1 := by
  unfold saveFollows getFollowIdsSync
  simp only [lookupA_setA_self, Option.getD_some]

theorem saveFollows_eq (pk : String) (fs : List String) (st : Store) :
    saveFollows pk fs st =
      { (getOrCreateIds fs (getOrCreateId pk st).2).2 with
        graphCache := setA (getOrCreateIds fs (getOrCreateId pk st).2).2.graphCache
          (getOrCreateId pk st).1 (getOrCreateIds fs (getOrCreateId pk st).2).1
        writeBuffer := (getOrCreateIds fs (getOrCreateId pk st).2).2.writeBuffer ++
          [((getOrCreateId pk st).1, (getOrCreateIds fs (getOrCreateId pk st).2).1)] } := rfl

/-- C7: saving the same edge list twice for the same identity is idempotent —
the second `saveFollows` changes neither the adjacency cache, the two id
maps, nor the id counter, and `getOrCreateId` on an already-seen identity
returns the existing id without touching the store. -/
theorem saveFollows_idempotent (st : Store) (pk : String) (fs : List String) :
    (saveFollows pk fs (saveFollows pk fs st)).graphCache = (saveFollows pk fs st).graphCache ∧
    (saveFollows pk fs (saveFollows pk fs st)).pubkeyToId = (saveFollows pk fs st).pubkeyToId ∧
    (saveFollows pk fs (saveFollows pk fs st)).idToPubkey = (saveFollows pk fs st).idToPubkey ∧
    (saveFollows pk fs (saveFollows pk fs st)).nextId = (saveFollows pk fs st).nextId ∧
    (∀ i, getFollowIdsSync (saveFollows pk fs (saveFollows pk fs st)) i =
      getFollowIdsSync (saveFollows pk fs st) i) ∧
    (∀ q j, lookupA st.pubkeyToId q = some j → getOrCreateId q st = (j, st)) := by
  set i := (getOrCreateId pk st).1 with hi
  set stA := (getOrCreateId pk st).2 with hstA
  set ids := (getOrCreateIds fs stA).1 with hids
  set stB := (getOrCreateIds fs stA).2 with hstB
  have hsave1 : saveFollows pk fs st =
      { stB with graphCache := setA stB.graphCache i ids
                 writeBuffer := stB.writeBuffer ++ [(i, ids)] } := saveFollows_eq pk fs st
  set st1 := saveFollows pk fs st with hst1
  have hpk1 : lookupA st1.pubkeyToId pk = some i := by
    rw [hsave1]
    exact getOrCreateIds_preserves fs stA (getOrCreateId_lookup_self pk st)
  have hg1 : getOrCreateId pk st1 = (i, st1) := getOrCreateId_of_some hpk1
  have hall : ∀ q ∈ fs, (lookupA st1.pubkeyToId q).isSome := by
    intro q hq
    rw [hsave1]
    exact getOrCreateIds_isSome fs stA q hq
  have hmap : fs.map (fun q => (lookupA st1.pubkeyToId q).getD 0) = ids := by
    rw [hsave1]
    exact (getOrCreateIds_ids_eq fs stA).symm
  have hg2 : getOrCreateIds fs st1 = (ids, st1) := by
    rw [getOrCreateIds_all_some fs st1 hall, hmap]
  have hsave2 : saveFollows pk fs st1 =
      { st1 with graphCache := setA st1.graphCache i ids
                 writeBuffer := st1.writeBuffer ++ [(i, ids)] } := by
    rw [saveFollows_eq pk fs st1, hg1, hg2]
  have hgc : (saveFollows pk fs st1).graphCache = st1.graphCache := by
    rw [hsave2, hsave1]
    exact setA_setA_same stB.graphCache i ids
  refine ⟨hgc, by rw [hsave2], by rw [hsave2], by rw [hsave2], ?_, ?_⟩
  · intro j
    unfold getFollowIdsSync
    rw [hgc]
  · intro q j hq
    exact getOrCreateId_of_some hq

/-! ## Store invariant (C10) -/

/-- The id-map invariant: both directions of the pubkey↔id map agree entry
by entry, every assigned id lies in `1 .. nextId - 1`, and the counter is
at least 1. -/
def StoreInv (st : Store) : Prop :=
  (∀ p ∈ st.pubkeyToId, lookupA st.idToPubkey p.2 = some p.1) ∧
  (∀ q ∈ st.idToPubkey, lookupA st.pubkeyToId q.2 = some q.1) ∧
  (∀ p ∈ st.pubkeyToId, 1 ≤ p.2 ∧ p.2 < st.nextId) ∧
  1 ≤ st.nextId

instance (st : Store) : Decidable (StoreInv st) := by
  unfold StoreInv
  exact inferInstance

theorem lookupA_eq_none {κ ν : Type} [DecidableEq κ] {l : List (κ × ν)} {k : κ}
    (h : ∀ p ∈ l, p.1 ≠ k) : lookupA l k = none := by
  induction l with
  | nil => rfl
  | cons p t ih =>
    obtain ⟨k₀, v₀⟩ := p
    have := h (k₀, v₀) (List.mem_cons_self _ _)
    simp only [lookupA, if_neg this]
    exact ih fun q hq => h q (List.mem_cons_of_mem _ hq)

theorem setA_eq_append {κ ν : Type} [DecidableEq κ] {l : List (κ × ν)} {k : κ} (v : ν)
    (h : lookupA l k = none) : setA l k v = l ++ [(k, v)] := by
  induction l with
  | nil => rfl
  | cons p t ih =>
    obtain ⟨k₀, v₀⟩ := p
    by_cases h0 : k₀ = k
    · simp [lookupA, h0] at h
    · simp only [lookupA, if_neg h0] at h
      simp [setA, h0, ih h]

theorem storeInv_getOrCreateId {st : Store} (hinv : StoreInv st) (pk : String) :
    StoreInv (getOrCreateId pk st).2 := by
  obtain ⟨h1, h2, h3, h4⟩ := hinv
  unfold getOrCreateId
  cases hpk : lookupA st.pubkeyToId pk with
  | some i => exact ⟨h1, h2, h3, h4⟩
  | none =>
    have hid : lookupA st.idToPubkey st.nextId = none := by
      refine lookupA_eq_none fun q hq hk => ?_
      have hj := h2 q hq
      have hb := h3 (q.2, q.1) (lookupA_mem hj)
      exact absurd (hk ▸ hb.2) (lt_irrefl st.nextId)
    have hset1 : setA st.pubkeyToId pk st.nextId = st.pubkeyToId ++ [(pk, st.nextId)] :=
      setA_eq_append _ hpk
    have hset2 : setA st.idToPubkey st.nextId pk = st.idToPubkey ++ [(st.nextId, pk)] :=
      setA_eq_append _ hid
    refine ⟨?_, ?_, ?_, ?_⟩
    · intro p hp
      simp only [hset1, List.mem_append, List.mem_singleton] at hp
      rcases hp with hp | hp
      · have hb := h3 p hp
        rw [lookupA_setA_ne _ _ _ _ (Nat.ne_of_lt hb.2)]
        exact h1 p hp
      · subst hp
        simpa using lookupA_setA_self st.idToPubkey st.nextId pk
    · intro q hq
      simp only [hset2, List.mem_append, List.mem_singleton] at hq
      rcases hq with hq | hq
      · have hqp := h2 q hq
        have hne : q.2 ≠ pk := fun he => by
          rw [he, hpk] at hqp; exact Option.noConfusion hqp
        rw [lookupA_setA_ne _ _ _ _ hne]
        exact hqp
      · subst hq
        simpa using lookupA_setA_self st.pubkeyToId pk st.nextId
    · intro p hp
      simp only [hset1, List.mem_append, List.mem_singleton] at hp
      rcases hp with hp | hp
      · exact ⟨(h3 p hp).1, Nat.lt_succ_of_lt (h3 p hp).2⟩
      · subst hp
        exact ⟨h4, Nat.lt_succ_self _⟩
    · exact Nat.le_succ_of_le h4

theorem storeInv_getOrCreateIds {st : Store} (hinv : StoreInv st) (fs : List String) :
    StoreInv (getOrCreateIds fs st).2 := by
  induction fs generalizing st with
  | nil => exact hinv
  | cons pk rest ih => exact ih (storeInv_getOrCreateId hinv pk)

theorem storeInv_saveFollows {st : Store} (hinv : StoreInv st) (pk : String)
    (fs : List String) : StoreInv (saveFollows pk fs st) := by
  rw [saveFollows_eq]
  exact storeInv_getOrCreateIds (storeInv_getOrCreateId hinv pk) fs

theorem storeInv_saveFollowsBatch {st : Store} (hinv : StoreInv st)
    (records : List (String × List String)) : StoreInv (saveFollowsBatch records st) := by
  induction records generalizing st with
  | nil => exact hinv
  | cons r rest ih => exact ih (storeInv_saveFollows hinv r.1 r.2)

/-- Under the invariant, distinct identities hold distinct numeric ids. -/
theorem getId_injective {st : Store} (hinv : StoreInv st) {a b : String} {i : Nat}
    (ha : getId st a = some i) (hb : getId st b = some i) : a = b := by
  have h1 := hinv.1 (a, i) (lookupA_mem ha)
  have h2 := hinv.1 (b, i) (lookupA_mem hb)
  rw [h1] at h2
  exact (Option.some.injEq _ _).mp h2

/-- C10: the mutual-inverse/dense-range invariant of the id maps is
preserved by every store operation, distinct identities get distinct ids,
and `clearAll` resets the store so the next allocated id is 1. -/
theorem storeInv_preserved :
    (∀ st pk, StoreInv st → StoreInv (getOrCreateId pk st).2) ∧
    (∀ st fs, StoreInv st → StoreInv (getOrCreateIds fs st).2) ∧
    (∀ st pk fs, StoreInv st → StoreInv (saveFollows pk fs st)) ∧
    (∀ st records, StoreInv st → StoreInv (saveFollowsBatch records st)) ∧
    (∀ st, StoreInv (clearAll st) ∧ (clearAll st).nextId = 1) ∧
    (∀ st a b i, StoreInv st → getId st a = some i → getId st b = some i → a = b) :=
  ⟨fun _ pk h => storeInv_getOrCreateId h pk,
   fun _ fs h => storeInv_getOrCreateIds h fs,
   fun _ pk fs h => storeInv_saveFollows h pk fs,
   fun _ records h => storeInv_saveFollowsBatch h records,
   fun _ => ⟨⟨by simp [clearAll, emptyStore, lookupA], by simp [clearAll, emptyStore, lookupA],
     by simp [clearAll, emptyStore], le_refl 1⟩, rfl⟩,
   fun _ _ _ _ h ha hb => getId_injective h ha hb⟩

/-! ## Per-connection adaptive delay (`RelayConnection`, `src/lib/sync.js`)

`delay` starts at `BASE_DELAY = 50` ms; `recordError` multiplies by 1.5 and
clamps at `MAX_DELAY = 2000`; every tenth `recordSuccess` multiplies by 0.8
and clamps at `BASE_DELAY`.  The JS numbers are modelled as exact rationals
(the claimed ordering/clamping facts are insensitive to rounding since both
clamps are explicit `Math.min`/`Math.max`). -/

def BASE_DELAY : ℚ := 50

def MAX_DELAY : ℚ := 2000

structure RelayConn where
  delay : ℚ
  successCount : ℕ
  errorCount : ℕ

/-- A fresh connection: `this.delay = BASE_DELAY`. -/
def RelayConn.init : RelayConn := ⟨BASE_DELAY, 0, 0⟩

/-- `recordSuccess()`: on every tenth success with `delay > BASE_DELAY`,
`delay = Math.max(BASE_DELAY, delay * 0.8)`. -/
def recordSuccess (c : RelayConn) : RelayConn :=
  let sc := c.successCount + 1
  { c with
    successCount := sc
    delay := if sc % 10 = 0 ∧ BASE_DELAY < c.delay
      then max BASE_DELAY (c.delay * (8 / 10)) else c.delay }

/-- `recordError()`: `delay = Math.min(MAX_DELAY, delay * 1.5)`. -/
def recordError (c : RelayConn) : RelayConn :=
  { c with
    errorCount := c.errorCount + 1
    delay := min MAX_DELAY (c.delay * (15 / 10)) }

/-- A run of signals against one connection (`true` = error/throttle,
`false` = success). -/
def runSignals (signals : List Bool) (c : RelayConn) : RelayConn :=
  match signals with
  | [] => c
  | s :: rest => runSignals rest (if s then recordError c else recordSuccess c)

theorem recordError_delay_bounds {c : RelayConn}
    (hlo : BASE_DELAY ≤ c.delay) (hhi : c.delay ≤ MAX_DELAY) :
    c.delay ≤ (recordError c).delay ∧ (recordError c).delay ≤ MAX_DELAY := by
  have h50 : (0 : ℚ) ≤ c.delay := le_trans (by norm_num [BASE_DELAY]) hlo
  constructor
  · refine le_min hhi ?_
    nlinarith
  · exact min_le_left _ _

theorem recordSuccess_delay_bounds {c : RelayConn}
    (hlo : BASE_DELAY ≤ c.delay) (_hhi : c.delay ≤ MAX_DELAY) :
    BASE_DELAY ≤ (recordSuccess c).delay ∧ (recordSuccess c).delay ≤ c.delay := by
  unfold recordSuccess
  by_cases h : (c.successCount + 1) % 10 = 0 ∧ BASE_DELAY < c.delay
  · simp only [if_pos h]
    refine ⟨le_max_left _ _, max_le (le_of_lt h.2) ?_⟩
    nlinarith [le_trans (by norm_num [BASE_DELAY] : (0:ℚ) ≤ 50) hlo]
  · simp only [if_neg h]
    exact ⟨hlo, le_refl _⟩

theorem runSignals_delay_bounds (signals : List Bool) :
    ∀ c : RelayConn, BASE_DELAY ≤ c.delay → c.delay ≤ MAX_DELAY →
      BASE_DELAY ≤ (runSignals signals c).delay ∧ (runSignals signals c).delay ≤ MAX_DELAY := by
  induction signals with
  | nil => exact fun c hlo hhi => ⟨hlo, hhi⟩
  | cons s rest ih =>
    intro c hlo hhi
    simp only [runSignals]
    cases s with
    | true =>
      obtain ⟨h1, h2⟩ := recordError_delay_bounds hlo hhi
      exact ih _ (le_trans hlo h1) h2
    | false =>
      obtain ⟨h1, h2⟩ := recordSuccess_delay_bounds hlo hhi
      exact ih _ h1 (le_trans h2 hhi)

/-- C9: starting from the base delay, every signal sequence keeps the delay
in `[BASE_DELAY, MAX_DELAY]`; each `recordError` never lowers the delay and
never pushes it above `MAX_DELAY` (so consecutive errors are monotonically
non-decreasing, clamped); `recordSuccess` never drops below `BASE_DELAY`. -/
theorem relay_backoff_bounds (signals : List Bool) (c : RelayConn)
    (hlo : BASE_DELAY ≤ c.delay) (hhi : c.delay ≤ MAX_DELAY) :
    (BASE_DELAY ≤ (runSignals signals RelayConn.init).delay ∧
      (runSignals signals RelayConn.init).delay ≤ MAX_DELAY) ∧
    (c.delay ≤ (recordError c).delay ∧ (recordError c).delay ≤ MAX_DELAY) ∧
    (BASE_DELAY ≤ (recordSuccess c).delay ∧ (recordSuccess c).delay ≤ c.delay) :=
  ⟨runSignals_delay_bounds signals RelayConn.init (le_refl _)
      (by norm_num [RelayConn.init, BASE_DELAY, MAX_DELAY]),
   recordError_delay_bounds hlo hhi,
   recordSuccess_delay_bounds hlo hhi⟩

/-- Witness for C9 at a concrete connection state and signal run. -/
theorem relay_backoff_bounds_witness :
    (BASE_DELAY ≤ (runSignals [true, true, false] RelayConn.init).delay ∧
      (runSignals [true, true, false] RelayConn.init).delay ≤ MAX_DELAY) ∧
    ((⟨100, 3, 1⟩ : RelayConn).delay ≤ (recordError ⟨100, 3, 1⟩).delay ∧
      (recordError ⟨100, 3, 1⟩).delay ≤ MAX_DELAY) ∧
    (BASE_DELAY ≤ (recordSuccess ⟨100, 3, 1⟩).delay ∧
      (recordSuccess ⟨100, 3, 1⟩).delay ≤ (⟨100, 3, 1⟩ : RelayConn).delay) :=
  relay_backoff_bounds [true, true, false] ⟨100, 3, 1⟩
    (by norm_num [BASE_DELAY]) (by norm_num [MAX_DELAY])

/-! ## Crawl entry checks (`syncGraph` in the background script and
`GraphSync.syncFromPubkey` in `src/lib/sync.js`)

`syncGraph(depth)` throws when `config.myPubkey` is unset or
`config.relays` is empty; `syncFromPubkey` then throws when a sync is
already in progress.  No check inspects `depth`. -/

def syncEntryCheck (syncInProgress : Bool) (myPubkey : Option String)
    (relays : List String) (depth : Int) : Except String Unit :=
  if myPubkey.isNone then .error "My pubkey not configured"
  else if relays.isEmpty then .error "No relays configured"
  else if syncInProgress then .error "Sync already in progress"
  else .ok ()

/-- Counterexample for C6: a non-positive depth (0 or −1) passes every
entry check and starts the crawl, while a configured-but-empty relay list
is rejected at entry; both contradict the claimed entry condition set. -/
theorem syncEntryCheck_cex :
    syncEntryCheck false (some "pk") ["wss://relay.example"] 0 = .ok () ∧
    syncEntryCheck false (some "pk") ["wss://relay.example"] (-1) = .ok () ∧
    syncEntryCheck false (some "pk") [] 1 = .error "No relays configured" := by
  refine ⟨rfl, rfl, rfl⟩

/-- C6 amended: starting a crawl fails at entry exactly when a crawl is
already running, no root identity is configured, or no relay endpoint is
configured; the maximum depth is never validated, so the outcome is
independent of `depth`. -/
theorem syncEntryCheck_amended (ip : Bool) (mp : Option String) (rl : List String) (d : Int) :
    (syncEntryCheck ip mp rl d = .ok () ↔ mp.isSome ∧ rl ≠ [] ∧ ip = false) ∧
    syncEntryCheck ip mp rl d = syncEntryCheck ip mp rl 2 := by
  constructor
  · unfold syncEntryCheck
    cases mp with
    | none => simp
    | some pk =>
      cases rl with
      | nil => simp
      | cons r rs =>
        cases ip <;> simp
  · rfl

/-! ## Keeping the newest contact-list event (`RelayConnection.handleMessage`)

Per subscription, an incoming `EVENT` replaces the retained one when
`!req.createdAt || event.created_at > req.createdAt` (the request starts
with `createdAt: 0`, `follows: null`); the retained follows are the second
elements of the event's well-formed `p` tags. -/

/-- `(event.tags || []).filter(tag => tag[0] === 'p' && tag[1]).map(tag => tag[1])`. -/
def extractFollows (tags : List (List String)) : List String :=
  (tags.filter (fun tag => tag.getD 0 "" == "p" && !(tag.getD 1 "" == ""))).map
    (fun tag => tag.getD 1 "")

/-- One `EVENT` message against the pending request's
`(createdAt, follows)` state. -/
def keepNewestStep (st : Nat × Option (List String)) (e : Nat × List (List String)) :
    Nat × Option (List String) :=
  if st.1 = 0 ∨ st.1 < e.1 then (e.1, some (extractFollows e.2)) else st

/-- The `(createdAt, follows)` state after a fetch that received the given
events in order. -/
def keepNewest (events : List (Nat × List (List String))) : Nat × Option (List String) :=
  events.foldl keepNewestStep (0, none)

theorem keepNewest_fold (events : List (Nat × List (List String))) :
    ∀ t fw,
      (events.foldl keepNewestStep (t, fw) = (t, fw) ∧
        ∀ e ∈ events, ¬(t = 0 ∨ t < e.1)) ∨
      (∃ e ∈ events, events.foldl keepNewestStep (t, fw) = (e.1, some (extractFollows e.2)) ∧
        t ≤ e.1 ∧ ∀ e' ∈ events, e'.1 ≤ e.1) := by
  induction events with
  | nil => exact fun t fw => Or.inl ⟨rfl, by simp⟩
  | cons e es ih =>
    intro t fw
    by_cases hrep : t = 0 ∨ t < e.1
    · have hstep : keepNewestStep (t, fw) e = (e.1, some (extractFollows e.2)) := by
        simp [keepNewestStep, hrep]
      have hte : t ≤ e.1 := by
        rcases hrep with h0 | hlt
        · exact h0 ▸ Nat.zero_le _
        · exact le_of_lt hlt
      rcases ih e.1 (some (extractFollows e.2)) with ⟨heq, hall⟩ | ⟨e'', hmem, heq, hle, hall⟩
      · refine Or.inr ⟨e, List.mem_cons_self _ _, ?_, hte, ?_⟩
        · simp only [List.foldl_cons, hstep, heq]
        · intro e' he'
          rcases List.mem_cons.mp he' with h | h
          · exact h ▸ le_refl _
          · have := hall e' h
            push_neg at this
            exact this.2
      · refine Or.inr ⟨e'', List.mem_cons_of_mem _ hmem, ?_, le_trans hte hle, ?_⟩
        · simp only [List.foldl_cons, hstep, heq]
        · intro e' he'
          rcases List.mem_cons.mp he' with h | h
          · exact h ▸ hle
          · exact hall e' h
    · have hstep : keepNewestStep (t, fw) e = (t, fw) := by
        simp only [keepNewestStep, if_neg hrep]
      push_neg at hrep
      rcases ih t fw with ⟨heq, hall⟩ | ⟨e'', hmem, heq, hle, hall⟩
      · refine Or.inl ⟨?_, ?_⟩
        · simp only [List.foldl_cons, hstep, heq]
        · intro e' he'
          rcases List.mem_cons.mp he' with h | h
          · subst h; push_neg; exact hrep
          · exact hall e' h
      · refine Or.inr ⟨e'', List.mem_cons_of_mem _ hmem, ?_, hle, ?_⟩
        · simp only [List.foldl_cons, hstep, heq]
        · intro e' he'
          rcases List.mem_cons.mp he' with h | h
          · exact h ▸ le_trans hrep.2 hle
          · exact hall e' h

/-- C5 amended: within one fetch the retained contact list always comes
from an event of maximal author-claimed `created_at`; but `saveFollows`
itself compares no timestamps — the adjacency record after any save is
exactly the id list of that save's argument, so a later-completing save
derived from an older event overwrites a newer record. -/
theorem keepNewest_max_and_overwrite (events : List (Nat × List (List String)))
    (hne : events ≠ []) :
    (∃ e ∈ events, keepNewest events = (e.1, some (extractFollows e.2)) ∧
      ∀ e' ∈ events, e'.1 ≤ e.1) ∧
    (∀ (st : Store) (pk : String) (fs : List String),
      getFollowIdsSync (saveFollows pk fs st) (getOrCreateId pk st).1 =
        (getOrCreateIds fs (getOrCreateId pk st).2).1) := by
  constructor
  · rcases keepNewest_fold events 0 none with ⟨_, hall⟩ | ⟨e, hmem, heq, _, hall⟩
    · cases events with
      | nil => exact absurd rfl hne
      | cons e es => exact absurd (Or.inl rfl) (hall e (List.mem_cons_self _ _))
    · exact ⟨e, hmem, heq, hall⟩
  · exact fun st pk fs => saveFollows_getFollowIdsSync pk fs st

/-- Witness for C5's amended theorem at a two-event fetch. -/
theorem keepNewest_max_and_overwrite_witness :
    (∃ e ∈ [(200, [["p", "N"]]), (100, [["p", "O"]])],
      keepNewest [(200, [["p", "N"]]), (100, [["p", "O"]])] =
        (e.1, some (extractFollows e.2)) ∧
      ∀ e' ∈ [(200, [["p", "N"]]), (100, [["p", "O"]])], e'.1 ≤ e.1) ∧
    (∀ (st : Store) (pk : String) (fs : List String),
      getFollowIdsSync (saveFollows pk fs st) (getOrCreateId pk st).1 =
        (getOrCreateIds fs (getOrCreateId pk st).2).1) :=
  keepNewest_max_and_overwrite [(200, [["p", "N"]]), (100, [["p", "O"]])] (by simp)

/-- Counterexample for C5: two fetches for identity `X`, the first carrying
the newer event (`created_at = 200`, follows `N`), the second the older
(`created_at = 100`, follows `O`).  Each fetch correctly retains its newest
event, but applying the saves in completion order `N`-then-`O` leaves the
record derived from the older event (`O`, id 3), not the newer one. -/
theorem saveFollows_overwrite_cex :
    keepNewest [(200, [["p", "N"]])] = (200, some ["N"]) ∧
    keepNewest [(100, [["p", "O"]])] = (100, some ["O"]) ∧
    getFollowIdsSync (saveFollows "X" ["N"] emptyStore) 1 = [2] ∧
    getPubkey (saveFollows "X" ["N"] emptyStore) 2 = some "N" ∧
    getFollowIdsSync (saveFollows "X" ["O"] (saveFollows "X" ["N"] emptyStore)) 1 = [3] ∧
    getPubkey (saveFollows "X" ["O"] (saveFollows "X" ["N"] emptyStore)) 3 = some "O" ∧
    ([3] : List Nat) ≠ [2] := by
  refine ⟨rfl, rfl, rfl, rfl, rfl, rfl, by decide⟩

/-! ## Shortest-distance specification

`ball g a n` lists every node reachable from `a` in at most `n` hops
(with repetitions, only membership matters); `sphereMem` picks out the
nodes at exact distance `n`; `specMinDist` is the least `d ≤ maxHops` with
`b` inside the `d`-ball — the "true shortest hop distance" bounded by the
hop horizon. -/

def ball (g : Nat → List Nat) (a : Nat) : Nat → List Nat
  | 0 => [a]
  | n + 1 => ball g a n ++ (ball g a n).flatMap g

theorem mem_ball_self (g : Nat → List Nat) (a : Nat) (n : Nat) : a ∈ ball g a n := by
  induction n with
  | zero => simp [ball]
  | succ n ih => simp only [ball, List.mem_append]; exact Or.inl ih

theorem mem_ball_succ {g : Nat → List Nat} {a v : Nat} {n : Nat} :
    v ∈ ball g a (n + 1) ↔ v ∈ ball g a n ∨ ∃ u ∈ ball g a n, v ∈ g u := by
  simp [ball, List.mem_flatMap]

theorem ball_mono_succ {g : Nat → List Nat} {a v : Nat} {n : Nat}
    (h : v ∈ ball g a n) : v ∈ ball g a (n + 1) :=
  mem_ball_succ.mpr (Or.inl h)

theorem ball_mono {g : Nat → List Nat} {a v : Nat} {m n : Nat} (hmn : m ≤ n)
    (h : v ∈ ball g a m) : v ∈ ball g a n := by
  induction n with
  | zero => exact Nat.le_zero.mp hmn ▸ h
  | succ n ih =>
    rcases Nat.le_succ_iff.mp hmn with h' | h'
    · exact ball_mono_succ (ih h')
    · subst h'; exact h

theorem mem_g_ball {g : Nat → List Nat} {a u v : Nat} {n : Nat}
    (hu : u ∈ ball g a n) (hv : v ∈ g u) : v ∈ ball g a (n + 1) :=
  mem_ball_succ.mpr (Or.inr ⟨u, hu, hv⟩)

/-- Node at exact distance `n`: in the `n`-ball and (for `n ≥ 1`) not in
the `(n-1)`-ball. -/
def sphereMem (g : Nat → List Nat) (a : Nat) (n v : Nat) : Prop :=
  v ∈ ball g a n ∧ ∀ j, j + 1 = n → v ∉ ball g a j

theorem sphereMem_zero {g : Nat → List Nat} {a v : Nat} :
    sphereMem g a 0 v ↔ v = a := by
  constructor
  · intro h
    simpa [ball] using h.1
  · intro h
    exact ⟨h ▸ mem_ball_self g a 0, fun j hj => absurd hj (by simp)⟩

theorem sphereMem_succ {g : Nat → List Nat} {a v : Nat} {n : Nat} :
    sphereMem g a (n + 1) v ↔ v ∈ ball g a (n + 1) ∧ v ∉ ball g a n := by
  constructor
  · intro h
    exact ⟨h.1, h.2 n rfl⟩
  · intro h
    exact ⟨h.1, fun j hj => (Nat.succ_injective hj) ▸ h.2⟩

/-- The next ball is the current one plus the neighbors of the current
sphere (neighbors of interior nodes are already inside). -/
theorem ball_succ_eq_sphere_step {g : Nat → List Nat} {a v : Nat} {n : Nat} :
    v ∈ ball g a (n + 1) ↔ v ∈ ball g a n ∨ ∃ u, sphereMem g a n u ∧ v ∈ g u := by
  constructor
  · intro h
    rcases mem_ball_succ.mp h with h' | ⟨u, hu, hv⟩
    · exact Or.inl h'
    · cases n with
      | zero =>
        refine Or.inr ⟨u, sphereMem_zero.mpr ?_, hv⟩
        simpa [ball] using hu
      | succ m =>
        by_cases hum : u ∈ ball g a m
        · exact Or.inl (mem_g_ball hum hv)
        · exact Or.inr ⟨u, sphereMem_succ.mpr ⟨hu, hum⟩, hv⟩
  · intro h
    rcases h with h' | ⟨u, hu, hv⟩
    · exact ball_mono_succ h'
    · exact mem_g_ball hu.1 hv

/-- If the `n`-sphere is empty the balls stabilize at `n`. -/
theorem ball_stabilizes {g : Nat → List Nat} {a : Nat} {n : Nat}
    (h : ∀ v, ¬ sphereMem g a n v) :
    ∀ m, ∀ v, v ∈ ball g a m → v ∈ ball g a n := by
  intro m
  induction m with
  | zero => exact fun v hv => ball_mono (Nat.zero_le n) hv
  | succ m ih =>
    intro v hv
    rcases mem_ball_succ.mp hv with h' | ⟨u, hu, hvg⟩
    · exact ih v h'
    · have hun : u ∈ ball g a n := ih u hu
      have hv1 : v ∈ ball g a (n + 1) := mem_g_ball hun hvg
      rcases ball_succ_eq_sphere_step.mp hv1 with h'' | ⟨w, hw, _⟩
      · exact h''
      · exact absurd hw (h w)

/-- Linear search for the least `n ≥ start` with `p n`, trying `fuel`
values. -/
def findLeast (p : Nat → Bool) : Nat → Nat → Option Nat
  | _, 0 => none
  | start, fuel + 1 => if p start then some start else findLeast p (start + 1) fuel

theorem findLeast_eq_some {p : Nat → Bool} :
    ∀ {fuel start d}, findLeast p start fuel = some d ↔
      start ≤ d ∧ d < start + fuel ∧ p d = true ∧ ∀ j, start ≤ j → j < d → p j = false := by
  intro fuel
  induction fuel with
  | zero =>
    intro start d
    simp only [findLeast, Nat.add_zero]
    constructor
    · intro h; exact Option.noConfusion h
    · rintro ⟨h1, h2, _, _⟩; exact absurd h2 (Nat.not_lt.mpr h1)
  | succ fuel ih =>
    intro start d
    simp only [findLeast]
    by_cases hp : p start = true
    · simp only [if_pos hp, Option.some.injEq]
      constructor
      · rintro rfl
        exact ⟨le_refl _, Nat.lt_add_of_pos_right (Nat.succ_pos _), hp,
          fun j h1 h2 => absurd h2 (Nat.not_lt.mpr h1)⟩
      · rintro ⟨h1, _, _, h4⟩
        rcases Nat.eq_or_lt_of_le h1 with h | h
        · exact h
        · exact absurd hp (by rw [h4 start (le_refl _) h]; exact Bool.noConfusion)
    · simp only [if_neg hp, ih]
      constructor
      · rintro ⟨h1, h2, h3, h4⟩
        refine ⟨le_trans (Nat.le_succ _) h1, by omega, h3, ?_⟩
        intro j hj1 hj2
        rcases Nat.eq_or_lt_of_le hj1 with h | h
        · exact h ▸ Bool.eq_false_iff.mpr hp
        · exact h4 j h hj2
      · rintro ⟨h1, h2, h3, h4⟩
        have hd : start ≠ d := by
          rintro rfl
          exact hp h3
        refine ⟨by omega, by omega, h3, fun j hj1 hj2 => h4 j (by omega) hj2⟩

theorem findLeast_eq_none {p : Nat → Bool} :
    ∀ {fuel start}, findLeast p start fuel = none ↔
      ∀ j, start ≤ j → j < start + fuel → p j = false := by
  intro fuel
  induction fuel with
  | zero =>
    intro start
    simp only [findLeast, Nat.add_zero]
    exact ⟨fun _ j h1 h2 => absurd h2 (Nat.not_lt.mpr h1), fun _ => trivial⟩
  | succ fuel ih =>
    intro start
    simp only [findLeast]
    by_cases hp : p start = true
    · simp only [if_pos hp]
      constructor
      · intro h; exact Option.noConfusion h
      · intro h
        exact absurd hp (by rw [h start (le_refl _) (by omega)]; exact Bool.noConfusion)
    · simp only [if_neg hp, ih]
      constructor
      · intro h j hj1 hj2
        rcases Nat.eq_or_lt_of_le hj1 with he | he
        · exact he ▸ Bool.eq_false_iff.mpr hp
        · exact h j he (by omega)
      · intro h j hj1 hj2
        exact h j (by omega) (by omega)

/-- Least `d ≤ maxHops` with `b` in the `d`-ball, else `none`: the true
shortest hop distance, cut off at the hop horizon. -/
def specMinDist (g : Nat → List Nat) (a b : Nat) (maxHops : Nat) : Option Nat :=
  findLeast (fun n => b ∈ ball g a n) 0 (maxHops + 1)

theorem specMinDist_eq_some {g : Nat → List Nat} {a b : Nat} {maxHops d : Nat} :
    specMinDist g a b maxHops = some d ↔
      d ≤ maxHops ∧ b ∈ ball g a d ∧ ∀ j < d, b ∉ ball g a j := by
  unfold specMinDist
  rw [findLeast_eq_some]
  constructor
  · rintro ⟨_, h2, h3, h4⟩
    refine ⟨by omega, by simpa using h3, fun j hj => ?_⟩
    have := h4 j (Nat.zero_le _) hj
    simpa using this
  · rintro ⟨h1, h2, h3⟩
    refine ⟨Nat.zero_le _, by omega, by simpa using h2, fun j _ hj => ?_⟩
    simpa using h3 j hj

theorem specMinDist_eq_none {g : Nat → List Nat} {a b : Nat} {maxHops : Nat} :
    specMinDist g a b maxHops = none ↔ ∀ j ≤ maxHops, b ∉ ball g a j := by
  unfold specMinDist
  rw [findLeast_eq_none]
  constructor
  · intro h j hj
    have := h j (Nat.zero_le _) (by omega)
    simpa using this
  · intro h j _ hj
    simpa using h j (by omega)

/-! ## `getDistanceInfo` (`LocalGraph`, `src/lib/graph.js` /
`src/unnamed/part_003`, identical in both revisions)

Level-synchronous BFS with path counting.  The per-level loop body is one
fold over the frontier, and per frontier node one fold over its follow
list; `foundAtHop !== null` is the `found` flag (the loop returns at the
end of the level in which the target was seen). -/

/-- `pathCount.get(nodeId) || 1` (0 is falsy in JS). -/
def jsOr1 : Option Nat → Nat
  | none => 1
  | some 0 => 1
  | some (k + 1) => k + 1

structure DistLevelSt where
  visited : List Nat
  nextFrontier : List Nat
  nextPathCount : List (Nat × Nat)
  targetPaths : Nat
  found : Bool
  deriving Repr, DecidableEq

/-- One followed id: count a hit on the target, else expand when unvisited
and the target has not been found at this level. -/
def distEdgeStep (toId : Nat) (c : Nat) (s : DistLevelSt) (v : Nat) : DistLevelSt :=
  if v = toId then { s with targetPaths := s.targetPaths + c, found := true }
  else if v ∉ s.visited ∧ s.found = false then
    { s with
      visited := s.visited ++ [v]
      nextFrontier := s.nextFrontier ++ [v]
      nextPathCount := setA s.nextPathCount v ((lookupA s.nextPathCount v).getD 0 + c) }
  else s

/-- One frontier node: its follow list folded with its carried path count. -/
def distNodeStep (g : Nat → List Nat) (toId : Nat) (pathCount : List (Nat × Nat))
    (s : DistLevelSt) (u : Nat) : DistLevelSt :=
  (g u).foldl (distEdgeStep toId (jsOr1 (lookupA pathCount u))) s

/-- One whole BFS level. -/
def distLevel (g : Nat → List Nat) (toId : Nat) (pathCount : List (Nat × Nat))
    (visited frontier : List Nat) : DistLevelSt :=
  frontier.foldl (distNodeStep g toId pathCount) ⟨visited, [], [], 0, false⟩

/-- `for (const [nodeId, count] of nextPathCount) pathCount.set(...)`. -/
def mergeCounts (pathCount nextPathCount : List (Nat × Nat)) : List (Nat × Nat) :=
  nextPathCount.foldl (fun acc p => setA acc p.1 p.2) pathCount

/-- The `while (frontier.length > 0 && hops < maxHops)` loop;
`fuel = maxHops - hops` makes the guard `hops < maxHops` structural. -/
def distLoop (g : Nat → List Nat) (toId : Nat) :
    Nat → List (Nat × Nat) → List Nat → List Nat → Nat → Option (Nat × Nat)
  | 0, _, _, _, _ => none
  | fuel + 1, pathCount, visited, frontier, hops =>
    if frontier.isEmpty then none
    else
      let s := distLevel g toId pathCount visited frontier
      if s.found then some (hops + 1, s.targetPaths)
      else distLoop g toId fuel (mergeCounts pathCount s.nextPathCount)
        s.visited s.nextFrontier (hops + 1)

/-- `getDistanceInfo(from, to, maxHops)`: `{hops, paths}` or null. -/
def getDistanceInfo (st : Store) (f t : String) (maxHops : Nat) : Option (Nat × Nat) :=
  if f = t then some (0, 1)
  else
    match getId st f, getId st t with
    | some fromId, some toId =>
      distLoop (storeG st) toId maxHops [(fromId, 1)] [fromId] [fromId] 0
    | _, _ => none

/-- `getDistance(from, to, maxHops)`: the `hops` field or null. -/
def getDistance (st : Store) (f t : String) (maxHops : Nat) : Option Nat :=
  (getDistanceInfo st f t maxHops).map Prod.fst

/-- Number of walks of length exactly `n` from `a` to `b` (= number of
distinct `n`-hop paths when adjacency lists are duplicate-free). -/
def countPathsN (g : Nat → List Nat) : Nat → Nat → Nat → Nat
  | a, b, 0 => if a = b then 1 else 0
  | a, b, n + 1 => ((g a).map (fun v => countPathsN g v b n)).sum

/-! ### Level-fold characterizations -/

theorem distEdgeStep_target {toId c : Nat} (s : DistLevelSt) {v : Nat} (hv : v = toId) :
    distEdgeStep toId c s v = { s with targetPaths := s.targetPaths + c, found := true } := by
  unfold distEdgeStep
  rw [if_pos hv]

theorem distEdgeStep_expand {toId c : Nat} (s : DistLevelSt) {v : Nat} (hv : v ≠ toId)
    (hg : v ∉ s.visited ∧ s.found = false) :
    distEdgeStep toId c s v =
      { s with
        visited := s.visited ++ [v]
        nextFrontier := s.nextFrontier ++ [v]
        nextPathCount := setA s.nextPathCount v ((lookupA s.nextPathCount v).getD 0 + c) } := by
  unfold distEdgeStep
  rw [if_neg hv, if_pos hg]

theorem distEdgeStep_skip {toId c : Nat} (s : DistLevelSt) {v : Nat} (hv : v ≠ toId)
    (hg : ¬(v ∉ s.visited ∧ s.found = false)) : distEdgeStep toId c s v = s := by
  unfold distEdgeStep
  rw [if_neg hv, if_neg hg]

theorem distEdgeStep_found_mono {toId c : Nat} {s : DistLevelSt} {v : Nat}
    (h : s.found = true) : (distEdgeStep toId c s v).found = true := by
  by_cases hv : v = toId
  · rw [distEdgeStep_target s hv]
  · rw [distEdgeStep_skip s hv (fun hg => by rw [h] at hg; exact Bool.noConfusion hg.2)]
    exact h

theorem distEdgeStep_found_keep {toId c : Nat} {s : DistLevelSt} {v : Nat}
    (hv : v ≠ toId) : (distEdgeStep toId c s v).found = s.found := by
  by_cases hg : v ∉ s.visited ∧ s.found = false
  · rw [distEdgeStep_expand s hv hg]
  · rw [distEdgeStep_skip s hv hg]

theorem edgeFold_found_mono {toId c : Nat} :
    ∀ (l : List Nat) (s : DistLevelSt), s.found = true →
      (l.foldl (distEdgeStep toId c) s).found = true := by
  intro l
  induction l with
  | nil => exact fun s h => h
  | cons v t ih => exact fun s h => ih _ (distEdgeStep_found_mono h)

theorem edgeFold_found_of_mem {toId c : Nat} :
    ∀ (l : List Nat) (s : DistLevelSt), toId ∈ l →
      (l.foldl (distEdgeStep toId c) s).found = true := by
  intro l
  induction l with
  | nil => intro s h; exact absurd h (List.not_mem_nil toId)
  | cons v t ih =>
    intro s h
    rcases List.mem_cons.mp h with he | hm
    · have : (distEdgeStep toId c s v).found = true := by
        rw [distEdgeStep_target s he.symm]
      exact edgeFold_found_mono t _ this
    · exact ih _ hm

theorem edgeFold_notFound_keep {toId c : Nat} :
    ∀ (l : List Nat) (s : DistLevelSt), s.found = false → toId ∉ l →
      (l.foldl (distEdgeStep toId c) s).found = false := by
  intro l
  induction l with
  | nil => exact fun s h _ => h
  | cons v t ih =>
    intro s h hm
    simp only [List.mem_cons, not_or] at hm
    have hkeep : (distEdgeStep toId c s v).found = s.found :=
      distEdgeStep_found_keep (fun he => hm.1 he.symm)
    exact ih _ (hkeep.trans h) hm.2

theorem edgeFold_found_iff {toId c : Nat} (l : List Nat) (s : DistLevelSt) :
    (l.foldl (distEdgeStep toId c) s).found = true ↔ s.found = true ∨ toId ∈ l := by
  constructor
  · intro h
    by_cases hs : s.found = true
    · exact Or.inl hs
    · by_cases hm : toId ∈ l
      · exact Or.inr hm
      · rw [edgeFold_notFound_keep l s (Bool.not_eq_true _ ▸ hs) hm] at h
        exact Bool.noConfusion h
  · rintro (h | h)
    · exact edgeFold_found_mono l s h
    · exact edgeFold_found_of_mem l s h

theorem edgeFold_targetPaths {toId c : Nat} :
    ∀ (l : List Nat) (s : DistLevelSt),
      (l.foldl (distEdgeStep toId c) s).targetPaths =
        s.targetPaths + c * l.count toId := by
  intro l
  induction l with
  | nil => simp
  | cons v t ih =>
    intro s
    simp only [List.foldl_cons, ih]
    by_cases hv : v = toId
    · rw [distEdgeStep_target s hv]
      simp only [List.count_cons, hv, beq_self_eq_true, if_true]
      ring
    · have hcount : (v :: t).count toId = t.count toId := by
        simp [List.count_cons, Ne.symm hv]
      rw [hcount]
      by_cases hg : v ∉ s.visited ∧ s.found = false
      · rw [distEdgeStep_expand s hv hg]
      · rw [distEdgeStep_skip s hv hg]

theorem edgeFold_notFound_char {toId c : Nat} :
    ∀ (l : List Nat) (s : DistLevelSt),
      (l.foldl (distEdgeStep toId c) s).found = false →
      s.found = false ∧ toId ∉ l ∧
      (∀ w, w ∈ (l.foldl (distEdgeStep toId c) s).visited ↔ w ∈ s.visited ∨ w ∈ l) ∧
      (∀ w, w ∈ (l.foldl (distEdgeStep toId c) s).nextFrontier ↔
        w ∈ s.nextFrontier ∨ (w ∈ l ∧ w ∉ s.visited)) := by
  intro l
  induction l with
  | nil => exact fun s h => ⟨h, by simp, by simp, by simp⟩
  | cons v t ih =>
    intro s hnf
    simp only [List.foldl_cons] at hnf ⊢
    have hsf : s.found = false := by
      by_contra hc
      rw [edgeFold_found_mono t _ (distEdgeStep_found_mono (Bool.not_eq_false _ |>.mp hc))]
        at hnf
      exact Bool.noConfusion hnf
    have hvt : v ≠ toId := by
      rintro rfl
      have hone : (distEdgeStep v c s v).found = true := by
        rw [distEdgeStep_target s rfl]
      rw [edgeFold_found_mono t _ hone] at hnf
      exact Bool.noConfusion hnf
    by_cases hg : v ∉ s.visited ∧ s.found = false
    · rw [distEdgeStep_expand s hvt hg] at hnf ⊢
      obtain ⟨-, htoid, hvis, hnext⟩ := ih _ hnf
      refine ⟨hsf, ?_, ?_, ?_⟩
      · simp only [List.mem_cons, not_or]
        exact ⟨fun h => hvt h.symm, htoid⟩
      · intro w
        rw [hvis w]
        simp only [List.mem_append, List.mem_singleton, List.mem_cons]
        tauto
      · intro w
        rw [hnext w]
        simp only [List.mem_append, List.mem_singleton, List.mem_cons, List.not_mem_nil,
          or_false, not_or]
        have hv1 : v ∉ s.visited := hg.1
        constructor
        · rintro ((h | h) | ⟨h1, h2, h3⟩)
          · exact Or.inl h
          · exact Or.inr ⟨Or.inl h, h.symm ▸ hv1⟩
          · exact Or.inr ⟨Or.inr h1, h2⟩
        · rintro (h | ⟨h1 | h1, h2⟩)
          · exact Or.inl (Or.inl h)
          · exact Or.inl (Or.inr h1)
          · by_cases hwv : w = v
            · exact Or.inl (Or.inr hwv)
            · exact Or.inr ⟨h1, h2, hwv⟩
    · rw [distEdgeStep_skip s hvt hg] at hnf ⊢
      obtain ⟨-, htoid, hvis, hnext⟩ := ih _ hnf
      have hvvis : v ∈ s.visited := by
        rcases not_and_or.mp hg with h | h
        · exact not_not.mp h
        · exact absurd hsf h
      refine ⟨hsf, ?_, ?_, ?_⟩
      · simp only [List.mem_cons, not_or]
        exact ⟨fun h => hvt h.symm, htoid⟩
      · intro w
        rw [hvis w]
        simp only [List.mem_cons]
        constructor
        · rintro (h | h)
          · exact Or.inl h
          · exact Or.inr (Or.inr h)
        · rintro (h | h | h)
          · exact Or.inl h
          · exact Or.inl (h ▸ hvvis)
          · exact Or.inr h
      · intro w
        rw [hnext w]
        simp only [List.mem_cons]
        constructor
        · rintro (h | ⟨h1, h2⟩)
          · exact Or.inl h
          · exact Or.inr ⟨Or.inr h1, h2⟩
        · rintro (h | ⟨h1 | h1, h2⟩)
          · exact Or.inl h
          · exact absurd (h1 ▸ hvvis) h2
          · exact Or.inr ⟨h1, h2⟩

theorem nodeFold_found_mono {g : Nat → List Nat} {toId : Nat} {pc : List (Nat × Nat)} :
    ∀ (l : List Nat) (s : DistLevelSt), s.found = true →
      (l.foldl (distNodeStep g toId pc) s).found = true := by
  intro l
  induction l with
  | nil => exact fun s h => h
  | cons u t ih =>
    intro s h
    exact ih _ (edgeFold_found_mono _ _ h)

theorem nodeFold_found_iff {g : Nat → List Nat} {toId : Nat} {pc : List (Nat × Nat)} :
    ∀ (l : List Nat) (s : DistLevelSt),
      (l.foldl (distNodeStep g toId pc) s).found = true ↔
        s.found = true ∨ ∃ u ∈ l, toId ∈ g u := by
  intro l
  induction l with
  | nil => simp
  | cons u t ih =>
    intro s
    simp only [List.foldl_cons, ih, List.exists_mem_cons_iff]
    unfold distNodeStep
    rw [edgeFold_found_iff]
    tauto

theorem nodeFold_notFound_char {g : Nat → List Nat} {toId : Nat} {pc : List (Nat × Nat)} :
    ∀ (l : List Nat) (s : DistLevelSt),
      (l.foldl (distNodeStep g toId pc) s).found = false →
      s.found = false ∧ (∀ u ∈ l, toId ∉ g u) ∧
      (∀ w, w ∈ (l.foldl (distNodeStep g toId pc) s).visited ↔
        w ∈ s.visited ∨ ∃ u ∈ l, w ∈ g u) ∧
      (∀ w, w ∈ (l.foldl (distNodeStep g toId pc) s).nextFrontier ↔
        w ∈ s.nextFrontier ∨ ((∃ u ∈ l, w ∈ g u) ∧ w ∉ s.visited)) := by
  intro l
  induction l with
  | nil => exact fun s h => ⟨h, by simp, by simp, by simp⟩
  | cons u t ih =>
    intro s hnf
    simp only [List.foldl_cons] at hnf ⊢
    obtain ⟨hs', htoid', hvis', hnext'⟩ := ih _ hnf
    obtain ⟨hsf, htoid, hvis, hnext⟩ := edgeFold_notFound_char (g u) s hs'
    refine ⟨hsf, ?_, ?_, ?_⟩
    · intro u' hu'
      rcases List.mem_cons.mp hu' with he | hm
      · exact he ▸ htoid
      · exact htoid' u' hm
    · intro w
      rw [hvis' w]
      unfold distNodeStep
      rw [hvis w]
      simp only [List.exists_mem_cons_iff]
      tauto
    · intro w
      rw [hnext' w]
      unfold distNodeStep
      rw [hnext w, hvis w]
      simp only [List.exists_mem_cons_iff, not_or]
      tauto

theorem distLevel_found_iff (g : Nat → List Nat) (toId : Nat) (pc : List (Nat × Nat))
    (visited frontier : List Nat) :
    (distLevel g toId pc visited frontier).found = true ↔ ∃ u ∈ frontier, toId ∈ g u := by
  unfold distLevel
  rw [nodeFold_found_iff]
  simp

theorem distLevel_notFound_char {g : Nat → List Nat} {toId : Nat} {pc : List (Nat × Nat)}
    {visited frontier : List Nat}
    (h : (distLevel g toId pc visited frontier).found = false) :
    (∀ u ∈ frontier, toId ∉ g u) ∧
    (∀ w, w ∈ (distLevel g toId pc visited frontier).visited ↔
      w ∈ visited ∨ ∃ u ∈ frontier, w ∈ g u) ∧
    (∀ w, w ∈ (distLevel g toId pc visited frontier).nextFrontier ↔
      (∃ u ∈ frontier, w ∈ g u) ∧ w ∉ visited) := by
  obtain ⟨-, htoid, hvis, hnext⟩ := nodeFold_notFound_char frontier _ h
  unfold distLevel
  refine ⟨htoid, fun w => hvis w, fun w => ?_⟩
  rw [hnext w]
  simp

theorem distLoop_succ (g : Nat → List Nat) (toId fuel : Nat) (pc : List (Nat × Nat))
    (visited frontier : List Nat) (hops : Nat) :
    distLoop g toId (fuel + 1) pc visited frontier hops =
      if frontier.isEmpty then none
      else
        if (distLevel g toId pc visited frontier).found
        then some (hops + 1, (distLevel g toId pc visited frontier).targetPaths)
        else distLoop g toId fuel
          (mergeCounts pc (distLevel g toId pc visited frontier).nextPathCount)
          (distLevel g toId pc visited frontier).visited
          (distLevel g toId pc visited frontier).nextFrontier (hops + 1) := rfl

/-- BFS loop invariant: when entering a level with `visited` the
`hops`-ball, `frontier` the `hops`-sphere and the target outside the ball,
the loop returns exactly the bounded shortest distance (the `paths`
component is not constrained here). -/
theorem distLoop_correct (g : Nat → List Nat) (a toId : Nat) :
    ∀ (fuel hops : Nat) (pc : List (Nat × Nat)) (visited frontier : List Nat),
      (∀ v, v ∈ visited ↔ v ∈ ball g a hops) →
      (∀ v, v ∈ frontier ↔ sphereMem g a hops v) →
      toId ∉ ball g a hops →
      (∀ h p, distLoop g toId fuel pc visited frontier hops = some (h, p) →
        h ≤ hops + fuel ∧ toId ∈ ball g a h ∧ ∀ j < h, toId ∉ ball g a j) ∧
      (distLoop g toId fuel pc visited frontier hops = none →
        ∀ j, j ≤ hops + fuel → toId ∉ ball g a j) := by
  intro fuel
  induction fuel with
  | zero =>
    intro hops pc visited frontier _ _ hto
    constructor
    · intro h p hEq
      exact Option.noConfusion hEq
    · intro _ j hj
      exact fun hb => hto (ball_mono (Nat.add_zero hops ▸ hj) hb)
  | succ fuel ih =>
    intro hops pc visited frontier hv hf hto
    rw [distLoop_succ]
    by_cases hemp : frontier.isEmpty
    · rw [if_pos hemp]
      have hfr : frontier = [] := List.isEmpty_iff.mp hemp
      have hsph : ∀ v, ¬ sphereMem g a hops v := by
        intro v hs
        exact absurd ((hf v).mpr hs) (by simp [hfr])
      refine ⟨fun h p hEq => Option.noConfusion hEq, fun _ j _ hb => ?_⟩
      exact hto (ball_stabilizes hsph j toId hb)
    · rw [if_neg hemp]
      by_cases hfound : (distLevel g toId pc visited frontier).found
      · rw [if_pos hfound]
        refine ⟨fun h p hEq => ?_, fun hEq => Option.noConfusion hEq⟩
        obtain ⟨hh, -⟩ := Prod.mk.injEq .. ▸ Option.some.injEq _ _ ▸ hEq
        have hh' : h = hops + 1 := by
          injection hEq with hEq'
          exact (Prod.mk.injEq _ _ _ _ |>.mp hEq').1.symm
        subst hh'
        obtain ⟨u, hu, hug⟩ := (distLevel_found_iff g toId pc visited frontier).mp hfound
        refine ⟨by omega, mem_g_ball ((hf u).mp hu).1 hug, fun j hj hb => ?_⟩
        exact hto (ball_mono (by omega) hb)
      · rw [if_neg hfound]
        have hfound' : (distLevel g toId pc visited frontier).found = false :=
          Bool.not_eq_true _ ▸ hfound
        obtain ⟨htoid, hvis, hnext⟩ := distLevel_notFound_char hfound'
        have hexiff : ∀ v, (∃ u ∈ frontier, v ∈ g u) ↔
            ∃ u, sphereMem g a hops u ∧ v ∈ g u := by
          intro v
          constructor
          · rintro ⟨u, hu, hvg⟩
            exact ⟨u, (hf u).mp hu, hvg⟩
          · rintro ⟨u, hu, hvg⟩
            exact ⟨u, (hf u).mpr hu, hvg⟩
        have hv' : ∀ v, v ∈ (distLevel g toId pc visited frontier).visited ↔
            v ∈ ball g a (hops + 1) := by
          intro v
          rw [hvis v, ball_succ_eq_sphere_step, hv v, hexiff v]
        have hf' : ∀ v, v ∈ (distLevel g toId pc visited frontier).nextFrontier ↔
            sphereMem g a (hops + 1) v := by
          intro v
          rw [hnext v, sphereMem_succ]
          constructor
          · rintro ⟨hex, hnv⟩
            have hnb : v ∉ ball g a hops := fun hb => hnv ((hv v).mpr hb)
            exact ⟨ball_succ_eq_sphere_step.mpr (Or.inr ((hexiff v).mp hex)), hnb⟩
          · rintro ⟨hb1, hnb⟩
            rcases ball_succ_eq_sphere_step.mp hb1 with hb | hex
            · exact absurd hb hnb
            · exact ⟨(hexiff v).mpr hex, fun hvv => hnb ((hv v).mp hvv)⟩
        have hto' : toId ∉ ball g a (hops + 1) := by
          intro hb
          rcases ball_succ_eq_sphere_step.mp hb with hb' | ⟨u, hu, hug⟩
          · exact hto hb'
          · exact htoid u ((hf u).mpr hu) hug
        obtain ⟨ihs, ihn⟩ := ih (hops + 1) _ _ _ hv' hf' hto'
        refine ⟨fun h p hEq => ?_, fun hEq j hj => ?_⟩
        · obtain ⟨hb, hmem, hmin⟩ := ihs h p hEq
          exact ⟨by omega, hmem, hmin⟩
        · exact ihn hEq j (by omega)

/-- The spec's worked example: `R` follows `{A,B}`, `A` follows `{T}`,
`B` follows `{T}` (ids: R=1, A=2, B=3, T=4). -/
def exampleStore : Store :=
  saveFollows "B" ["T"] (saveFollows "A" ["T"] (saveFollows "R" ["A", "B"] emptyStore))

/-- Diamond with a tail: `R` follows `{A,B}`, both follow `M`, `M` follows
`T` (ids: R=1, A=2, B=3, M=4, T=5) — the intermediate node `M` is reached
by two predecessors at the same BFS level. -/
def diamondStore : Store :=
  saveFollows "M" ["T"]
    (saveFollows "B" ["M"] (saveFollows "A" ["M"] (saveFollows "R" ["A", "B"] emptyStore)))

/-- For distinct mapped identities, `getDistance` computes the bounded
least-distance specification (shared between the single and the batch
distance analyses). -/
theorem getDistance_eq_specMinDist (st : Store) (A B : String) (maxHops : Nat)
    (hinv : StoreInv st) (a b : Nat) (hAB : A ≠ B) (hA : getId st A = some a)
    (hB : getId st B = some b) :
    getDistance st A B maxHops = specMinDist (storeG st) a b maxHops := by
  have hab : a ≠ b := fun he => hAB (getId_injective hinv hA (he ▸ hB))
  unfold getDistance getDistanceInfo
  rw [if_neg hAB, hA, hB]
  show Option.map Prod.fst (distLoop (storeG st) b maxHops [(a, 1)] [a] [a] 0) =
    specMinDist (storeG st) a b maxHops
  have hv : ∀ v, v ∈ [a] ↔ v ∈ ball (storeG st) a 0 := by
    intro v; simp [ball]
  have hf : ∀ v, v ∈ [a] ↔ sphereMem (storeG st) a 0 v := by
    intro v; rw [sphereMem_zero]; simp
  have hto : b ∉ ball (storeG st) a 0 := by
    simp [ball]
    exact fun he => hab he.symm
  obtain ⟨hsome, hnone⟩ :=
    distLoop_correct (storeG st) a b maxHops 0 [(a, 1)] [a] [a] hv hf hto
  cases hres : distLoop (storeG st) b maxHops [(a, 1)] [a] [a] 0 with
  | none =>
    have := hnone hres
    rw [specMinDist_eq_none.mpr (fun j hj => this j (by omega))]
    rfl
  | some hp =>
    obtain ⟨h, p⟩ := hp
    obtain ⟨hb, hmem, hmin⟩ := hsome h p hres
    rw [specMinDist_eq_some.mpr ⟨by omega, hmem, hmin⟩]
    rfl

/-- C3: `getDistance` returns 0 exactly on `from = to` (even for unknown
identities); for distinct mapped identities it returns the true shortest
hop distance when that is within `maxHops` and null otherwise (this is
`specMinDist`); and it returns null when either identity is unknown. -/
theorem getDistance_correct (st : Store) (A B : String) (maxHops : Nat)
    (hinv : StoreInv st) (_hmax : 1 ≤ maxHops) :
    (A = B → getDistance st A B maxHops = some 0) ∧
    (∀ a b, A ≠ B → getId st A = some a → getId st B = some b →
      getDistance st A B maxHops = specMinDist (storeG st) a b maxHops) ∧
    ((getId st A = none ∨ getId st B = none) → A ≠ B →
      getDistance st A B maxHops = none) := by
  refine ⟨?_, ?_, ?_⟩
  · intro hAB
    unfold getDistance getDistanceInfo
    rw [if_pos hAB]
    rfl
  · intro a b hAB hA hB
    exact getDistance_eq_specMinDist st A B maxHops hinv a b hAB hA hB
  · intro hnone hAB
    unfold getDistance getDistanceInfo
    rw [if_neg hAB]
    rcases hnone with h | h
    · rw [h]
      cases getId st B <;> rfl
    · rw [h]
      cases getId st A <;> rfl

/-- Witness for C3 on the spec's example store with `R`, `T`, `maxHops = 3`. -/
theorem getDistance_correct_witness :
    ("R" = "T" → getDistance exampleStore "R" "T" 3 = some 0) ∧
    (∀ a b, "R" ≠ "T" → getId exampleStore "R" = some a → getId exampleStore "T" = some b →
      getDistance exampleStore "R" "T" 3 = specMinDist (storeG exampleStore) a b 3) ∧
    ((getId exampleStore "R" = none ∨ getId exampleStore "T" = none) → "R" ≠ "T" →
      getDistance exampleStore "R" "T" 3 = none) :=
  getDistance_correct exampleStore "R" "T" 3 (by decide) (by decide)

/-! ### Exact path counts for distances ≤ 2 -/

theorem sum_map_ite_count (b : Nat) :
    ∀ l : List Nat, (l.map (fun v => if v = b then 1 else 0)).sum = l.count b := by
  intro l
  induction l with
  | nil => rfl
  | cons v t ih =>
    simp only [List.map_cons, List.sum_cons, ih, List.count_cons]
    by_cases hv : v = b
    · simp [hv]
      omega
    · simp [hv, Ne.symm hv]

theorem countPathsN_one (g : Nat → List Nat) (a b : Nat) :
    countPathsN g a b 1 = (g a).count b := by
  show ((g a).map (fun v => countPathsN g v b 0)).sum = (g a).count b
  rw [← sum_map_ite_count b (g a)]
  congr 1

theorem nodeFold_targetPaths {g : Nat → List Nat} {toId : Nat} {pc : List (Nat × Nat)} :
    ∀ (l : List Nat) (s : DistLevelSt),
      (l.foldl (distNodeStep g toId pc) s).targetPaths =
        s.targetPaths + (l.map (fun u => jsOr1 (lookupA pc u) * (g u).count toId)).sum := by
  intro l
  induction l with
  | nil => simp
  | cons u t ih =>
    intro s
    simp only [List.foldl_cons, ih, List.map_cons, List.sum_cons]
    show (List.foldl (distEdgeStep toId (jsOr1 (lookupA pc u))) s (g u)).targetPaths + _ = _
    rw [edgeFold_targetPaths]
    ring

theorem lookupA_map_pair_none {c : Nat} {l : List Nat} {v : Nat} (h : v ∉ l) :
    lookupA (l.map (fun x => (x, c))) v = none := by
  induction l with
  | nil => rfl
  | cons x t ih =>
    simp only [List.mem_cons, not_or] at h
    simp only [List.map_cons, lookupA]
    rw [if_neg (fun he => h.1 he.symm)]
    exact ih h.2

theorem lookupA_mergeCounts_notkey {pc npc : List (Nat × Nat)} {k : Nat}
    (h : k ∉ npc.map Prod.fst) : lookupA (mergeCounts pc npc) k = lookupA pc k := by
  induction npc generalizing pc with
  | nil => rfl
  | cons p t ih =>
    simp only [List.map_cons, List.mem_cons, not_or] at h
    show lookupA (mergeCounts (setA pc p.1 p.2) t) k = _
    rw [ih h.2, lookupA_setA_ne _ _ _ _ h.1]

theorem lookupA_mergeCounts_mem {npc : List (Nat × Nat)} {k v : Nat}
    (hnd : (npc.map Prod.fst).Nodup) (hmem : (k, v) ∈ npc) :
    ∀ pc, lookupA (mergeCounts pc npc) k = some v := by
  induction npc with
  | nil => exact absurd hmem (List.not_mem_nil _)
  | cons p t ih =>
    intro pc
    simp only [List.map_cons, List.nodup_cons] at hnd
    rcases List.mem_cons.mp hmem with he | hm
    · subst he
      show lookupA (mergeCounts (setA pc k v) t) k = some v
      rw [lookupA_mergeCounts_notkey hnd.1, lookupA_setA_self]
    · show lookupA (mergeCounts (setA pc p.1 p.2) t) k = some v
      exact ih hnd.2 hm _

theorem sum_map_filter_of_zero {p : Nat → Bool} {f : Nat → Nat} :
    ∀ l : List Nat, (∀ x ∈ l, p x = false → f x = 0) →
      ((l.filter p).map f).sum = (l.map f).sum := by
  intro l
  induction l with
  | nil => intro _; rfl
  | cons x t ih =>
    intro h
    by_cases hx : p x = true
    · rw [List.filter_cons_of_pos hx]
      simp only [List.map_cons, List.sum_cons]
      rw [ih (fun y hy hpy => h y (List.mem_cons_of_mem _ hy) hpy)]
    · rw [List.filter_cons_of_neg (by simpa using hx)]
      simp only [List.map_cons, List.sum_cons]
      rw [ih (fun y hy hpy => h y (List.mem_cons_of_mem _ hy) hpy),
        h x (List.mem_cons_self _ _) (Bool.not_eq_true _ ▸ hx)]
      omega

/-- Exact state after the first BFS level of `getDistanceInfo` (path count
1 carried from the root): with a duplicate-free adjacency list and the
target not adjacent to the root, the next frontier is the root's follow
list minus the root itself, every entry carrying count 1. -/
theorem edgeFold_level1 {toId a : Nat} :
    ∀ (l pre : List Nat), (pre ++ l).Nodup → toId ∉ l →
      l.foldl (distEdgeStep toId 1)
        ⟨a :: pre.filter (· ≠ a), pre.filter (· ≠ a),
          (pre.filter (· ≠ a)).map (fun v => (v, 1)), 0, false⟩ =
      ⟨a :: (pre ++ l).filter (· ≠ a), (pre ++ l).filter (· ≠ a),
        ((pre ++ l).filter (· ≠ a)).map (fun v => (v, 1)), 0, false⟩ := by
  intro l
  induction l with
  | nil =>
    intro pre _ _
    rw [List.append_nil]
    rfl
  | cons v t ih =>
    intro pre hnd htoid
    simp only [List.mem_cons, not_or] at htoid
    have hvt : v ≠ toId := fun he => htoid.1 he.symm
    have happ : pre ++ v :: t = (pre ++ [v]) ++ t := by simp
    have hvpre : v ∉ pre := by
      have hdisj := (List.nodup_append.mp hnd).2.2
      intro hv
      exact hdisj hv (List.mem_cons_self _ _)
    simp only [List.foldl_cons]
    by_cases hva : v = a
    · have hskip : distEdgeStep toId 1
          (⟨a :: pre.filter (· ≠ a), pre.filter (· ≠ a),
            (pre.filter (· ≠ a)).map (fun v => (v, 1)), 0, false⟩ : DistLevelSt) v =
          ⟨a :: pre.filter (· ≠ a), pre.filter (· ≠ a),
            (pre.filter (· ≠ a)).map (fun v => (v, 1)), 0, false⟩ := by
        refine distEdgeStep_skip _ hvt ?_
        rw [not_and_or]
        exact Or.inl (not_not.mpr (by simp [hva]))
      rw [hskip]
      have hfeq : (pre ++ [v]).filter (· ≠ a) = pre.filter (· ≠ a) := by
        rw [List.filter_append]
        simp [hva]
      have := ih (pre ++ [v]) (happ ▸ hnd) htoid.2
      rw [hfeq] at this
      rw [this, happ]
    · have hguard : v ∉ (⟨a :: pre.filter (· ≠ a), pre.filter (· ≠ a),
          (pre.filter (· ≠ a)).map (fun v => (v, 1)), 0, false⟩ : DistLevelSt).visited ∧
          (⟨a :: pre.filter (· ≠ a), pre.filter (· ≠ a),
            (pre.filter (· ≠ a)).map (fun v => (v, 1)), 0, false⟩ : DistLevelSt).found = false := by
        refine ⟨?_, rfl⟩
        simp only [List.mem_cons, List.mem_filter, not_or, not_and]
        exact ⟨hva, fun hv _ => absurd hv hvpre⟩
      rw [distEdgeStep_expand _ hvt hguard]
      have hfeq : (pre ++ [v]).filter (· ≠ a) = pre.filter (· ≠ a) ++ [v] := by
        rw [List.filter_append]
        simp [hva]
      have hlk : lookupA ((pre.filter (· ≠ a)).map (fun v => (v, 1))) v = none := by
        refine lookupA_map_pair_none ?_
        simp only [List.mem_filter, not_and]
        exact fun hv _ => absurd hv hvpre
      have := ih (pre ++ [v]) (happ ▸ hnd) htoid.2
      rw [hfeq] at this
      rw [happ, ← this]
      congr 1
      rw [hlk, setA_eq_append _ hlk]
      simp

theorem lookupA_root_one (a : Nat) : lookupA [(a, 1)] a = some 1 := by
  simp [lookupA]

theorem distLevel_level1 (g : Nat → List Nat) (toId a : Nat)
    (hnd : (g a).Nodup) (htoid : toId ∉ g a) :
    distLevel g toId [(a, 1)] [a] [a] =
      ⟨a :: (g a).filter (· ≠ a), (g a).filter (· ≠ a),
        ((g a).filter (· ≠ a)).map (fun v => (v, 1)), 0, false⟩ := by
  show (g a).foldl (distEdgeStep toId (jsOr1 (lookupA [(a, 1)] a))) ⟨[a], [], [], 0, false⟩ = _
  rw [lookupA_root_one]
  exact (by simpa using @edgeFold_level1 toId a (g a) [] (by simpa using hnd) htoid)

theorem distLoop_d1 (g : Nat → List Nat) (a b fuel : Nat) (hbga : b ∈ g a) :
    distLoop g b (fuel + 1) [(a, 1)] [a] [a] 0 = some (1, (g a).count b) := by
  rw [distLoop_succ, if_neg (by simp),
    if_pos ((distLevel_found_iff g b [(a, 1)] [a] [a]).mpr ⟨a, by simp, hbga⟩)]
  have ht : (distLevel g b [(a, 1)] [a] [a]).targetPaths = (g a).count b := by
    show ([a].foldl (distNodeStep g b [(a, 1)]) ⟨[a], [], [], 0, false⟩).targetPaths = _
    rw [nodeFold_targetPaths]
    simp [lookupA_root_one, jsOr1]
  rw [ht]

theorem distLoop_d2 (g : Nat → List Nat) (a b fuel : Nat) (hnd : (g a).Nodup)
    (hbga : b ∉ g a) (hex : ∃ u ∈ (g a).filter (· ≠ a), b ∈ g u) :
    distLoop g b (fuel + 2) [(a, 1)] [a] [a] 0 =
      some (2, (((g a).filter (· ≠ a)).map
        (fun u => jsOr1 (lookupA (mergeCounts [(a, 1)]
          (((g a).filter (· ≠ a)).map (fun v => (v, 1)))) u) * (g u).count b)).sum) := by
  have hL1 := distLevel_level1 g b a hnd hbga
  show distLoop g b (fuel + 1 + 1) [(a, 1)] [a] [a] 0 = _
  rw [distLoop_succ, if_neg (by simp), hL1]
  rw [if_neg (by simp)]
  obtain ⟨u, hu, hbu⟩ := hex
  have hne : ¬((g a).filter (· ≠ a)).isEmpty = true := by
    intro h
    rw [List.isEmpty_iff.mp h] at hu
    exact absurd hu (List.not_mem_nil u)
  rw [distLoop_succ, if_neg hne]
  rw [if_pos ((distLevel_found_iff g b _ _ _).mpr ⟨u, hu, hbu⟩)]
  congr 1
  refine congrArg (Prod.mk 2) ?_
  show (((g a).filter (· ≠ a)).foldl (distNodeStep g b _)
    ⟨a :: (g a).filter (· ≠ a), [], [], 0, false⟩).targetPaths = _
  rw [nodeFold_targetPaths]
  simp

theorem level2_sum_eq (g : Nat → List Nat) (a b : Nat) (hnd : (g a).Nodup)
    (hbga : b ∉ g a) :
    (((g a).filter (· ≠ a)).map
      (fun u => jsOr1 (lookupA (mergeCounts [(a, 1)]
        (((g a).filter (· ≠ a)).map (fun v => (v, 1)))) u) * (g u).count b)).sum =
      countPathsN g a b 2 := by
  have hkeys : ((((g a).filter (· ≠ a)).map (fun v => (v, 1))).map Prod.fst).Nodup := by
    have hmm : (((g a).filter (· ≠ a)).map (fun v => (v, 1))).map Prod.fst =
        (g a).filter (· ≠ a) := by
      rw [List.map_map]
      exact (List.map_congr_left (fun x _ => rfl)).trans (List.map_id _)
    rw [hmm]
    exact hnd.filter _
  have hmapeq : (((g a).filter (· ≠ a)).map
      (fun u => jsOr1 (lookupA (mergeCounts [(a, 1)]
        (((g a).filter (· ≠ a)).map (fun v => (v, 1)))) u) * (g u).count b)) =
      ((g a).filter (· ≠ a)).map (fun u => (g u).count b) := by
    refine List.map_congr_left ?_
    intro u hu
    rw [lookupA_mergeCounts_mem hkeys (List.mem_map_of_mem _ hu)]
    simp [jsOr1]
  rw [hmapeq, sum_map_filter_of_zero (g a) ?zero]
  · show _ = ((g a).map (fun v => countPathsN g v b 1)).sum
    congr 1
    exact List.map_congr_left (fun v _ => (countPathsN_one g v b).symm)
  case zero =>
    intro x hx hpx
    have hxa : x = a := by simpa using hpx
    subst hxa
    exact List.count_eq_zero_of_not_mem hbga

theorem getDistanceInfo_unfold (st : Store) {A B : String} {a b : Nat} (maxHops : Nat)
    (hAB : A ≠ B) (hA : getId st A = some a) (hB : getId st B = some b) :
    getDistanceInfo st A B maxHops = distLoop (storeG st) b maxHops [(a, 1)] [a] [a] 0 := by
  unfold getDistanceInfo
  rw [if_neg hAB, hA, hB]

/-- C1 amended: for distinct mapped identities with bounded shortest
distance `d`, `getDistanceInfo` always returns `hops = d`; the `paths`
field is the exact shortest-path count whenever `d ≤ 2` (in particular on
the spec's quoted example), but for `d ≥ 3` an intermediate node reached by
several predecessors at the same BFS level keeps only its first
predecessor's count, so `paths` can undercount. -/
theorem getDistanceInfo_amended (st : Store) (A B : String) (a b maxHops d : Nat)
    (hinv : StoreInv st) (hAB : A ≠ B)
    (hA : getId st A = some a) (hB : getId st B = some b)
    (hnd : ∀ e ∈ st.graphCache, e.2.Nodup)
    (hd : specMinDist (storeG st) a b maxHops = some d) :
    (∃ p, getDistanceInfo st A B maxHops = some (d, p)) ∧
    (d ≤ 2 → getDistanceInfo st A B maxHops =
      some (d, countPathsN (storeG st) a b d)) := by
  have hgnd : ∀ u, ((storeG st) u).Nodup := by
    intro u
    unfold storeG getFollowIdsSync
    cases h : lookupA st.graphCache u with
    | none => simp
    | some ids => simpa using hnd (u, ids) (lookupA_mem h)
  obtain ⟨hdm, hbd, hmin⟩ := specMinDist_eq_some.mp hd
  have hba : b ≠ a := fun he =>
    hAB (getId_injective hinv hA (he ▸ hB))
  rw [getDistanceInfo_unfold st maxHops hAB hA hB]
  have hv : ∀ v, v ∈ [a] ↔ v ∈ ball (storeG st) a 0 := by
    intro v; simp [ball]
  have hf : ∀ v, v ∈ [a] ↔ sphereMem (storeG st) a 0 v := by
    intro v; rw [sphereMem_zero]; simp
  have hto : b ∉ ball (storeG st) a 0 := by
    simp [ball]
    exact fun he => hba he
  obtain ⟨hsome, hnone⟩ :=
    distLoop_correct (storeG st) a b maxHops 0 [(a, 1)] [a] [a] hv hf hto
  constructor
  · cases hres : distLoop (storeG st) b maxHops [(a, 1)] [a] [a] 0 with
    | none => exact absurd hbd (hnone hres d (by omega))
    | some hp =>
      obtain ⟨h, p⟩ := hp
      obtain ⟨-, hmem, hminh⟩ := hsome h p hres
      have hhd : h = d := by
        rcases Nat.lt_trichotomy h d with hlt | he | hgt
        · exact absurd hmem (hmin h hlt)
        · exact he
        · exact absurd hbd (hminh d hgt)
      exact ⟨p, by rw [hhd]⟩
  · intro hd2
    have hd0 : d ≠ 0 := by
      rintro rfl
      have : b = a := by simpa [ball] using hbd
      exact hba this
    rcases Nat.lt_or_ge d 2 with hdlt | hdge
    · -- d = 1
      have hd1 : d = 1 := by omega
      subst hd1
      have hbga : b ∈ storeG st a := by
        rcases mem_ball_succ.mp hbd with h0 | ⟨u, hu, hbu⟩
        · exact absurd h0 (hmin 0 (by omega))
        · have hua : u = a := by simpa [ball] using hu
          exact hua ▸ hbu
      obtain ⟨fuel, rfl⟩ : ∃ f, maxHops = f + 1 := ⟨maxHops - 1, by omega⟩
      rw [distLoop_d1 (storeG st) a b fuel hbga, countPathsN_one]
    · -- d = 2
      have hd2' : d = 2 := by omega
      subst hd2'
      have hnb1 : b ∉ ball (storeG st) a 1 := hmin 1 (by omega)
      have hbga : b ∉ storeG st a := fun h =>
        hnb1 (mem_g_ball (mem_ball_self _ _ 0) h)
      have hex : ∃ u ∈ (storeG st a).filter (· ≠ a), b ∈ storeG st u := by
        rcases mem_ball_succ.mp hbd with h1 | ⟨u, hu, hbu⟩
        · exact absurd h1 hnb1
        · have hua : u ≠ a := fun he => hbga (he ▸ hbu)
          have huga : u ∈ storeG st a := by
            rcases mem_ball_succ.mp hu with h0 | ⟨w, hw, huw⟩
            · exact absurd (by simpa [ball] using h0) hua
            · have hwa : w = a := by simpa [ball] using hw
              exact hwa ▸ huw
          exact ⟨u, List.mem_filter.mpr ⟨huga, by simpa using hua⟩, hbu⟩
      obtain ⟨fuel, rfl⟩ : ∃ f, maxHops = f + 2 := ⟨maxHops - 2, by omega⟩
      rw [distLoop_d2 (storeG st) a b fuel (hgnd a) hbga hex,
        level2_sum_eq (storeG st) a b (hgnd a) hbga]

/-- Counterexample for C1: in the diamond graph `R→{A,B}`, `A→M`, `B→M`,
`M→T` the true shortest distance from `R` (id 1) to `T` (id 5) is 3 with
two distinct 3-hop paths, yet `getDistanceInfo` reports `paths = 1`: the
intermediate node `M` is reached by both `A` and `B` at the same BFS level
but only the first predecessor's count survives. -/
theorem getDistanceInfo_undercount_cex :
    getDistanceInfo diamondStore "R" "T" 6 = some (3, 1) ∧
    specMinDist (storeG diamondStore) 1 5 6 = some 3 ∧
    countPathsN (storeG diamondStore) 1 5 3 = 2 ∧
    getId diamondStore "R" = some 1 ∧
    getId diamondStore "T" = some 5 ∧
    (∀ e ∈ diamondStore.graphCache, e.2.Nodup) ∧
    (1 : Nat) ≠ 2 := by
  refine ⟨by decide, by decide, by decide, by decide, by decide, by decide, by decide⟩

/-- Witness for C1's amended theorem on the spec's example (`R` to `T`,
distance 2, two shortest paths). -/
theorem getDistanceInfo_amended_witness :
    (∃ p, getDistanceInfo exampleStore "R" "T" 3 = some (2, p)) ∧
    (2 ≤ 2 → getDistanceInfo exampleStore "R" "T" 3 =
      some (2, countPathsN (storeG exampleStore) 1 4 2)) :=
  getDistanceInfo_amended exampleStore "R" "T" 1 4 3 2 (by decide) (by decide)
    (by decide) (by decide) (by decide) (by decide)

/-! ## `getDistancesBatch` (`LocalGraph`, `src/unnamed/part_003`)

One BFS resolves all targets.  Without `includePaths` a target is recorded
the moment it is first seen (`paths: null`); with `includePaths` hits are
accumulated in `targetPaths`/`foundAtHop` during the level and finalized
after it.  Unlike `getDistanceInfo`, every newly seen node — targets
included — joins `visited` and the next frontier, and the loop also stops
once `targetIds` is empty. -/

structure BatchSt where
  visited : List Nat
  nextFrontier : List Nat
  nextPathCount : List (Nat × Nat)
  targetIds : List (Nat × String)
  results : List (String × Option (Nat × Option Nat))
  targetPaths : List (Nat × Nat)
  foundAtHop : List (Nat × Nat)
  deriving Repr, DecidableEq

/-- One followed id inside the batch BFS level. -/
def batchEdgeStep (includePaths : Bool) (hops c : Nat) (s : BatchSt) (v : Nat) : BatchSt :=
  let s1 :=
    match lookupA s.targetIds v with
    | some target =>
      if includePaths then
        { s with
          targetPaths := setA s.targetPaths v ((lookupA s.targetPaths v).getD 0 + c)
          foundAtHop := if (lookupA s.foundAtHop v).isSome then s.foundAtHop
            else setA s.foundAtHop v hops }
      else
        { s with
          results := setA s.results target (some (hops, none))
          targetIds := eraseA s.targetIds v }
    | none => s
  if v ∉ s1.visited then
    { s1 with
      visited := s1.visited ++ [v]
      nextFrontier := s1.nextFrontier ++ [v]
      nextPathCount := if includePaths then
        setA s1.nextPathCount v ((lookupA s1.nextPathCount v).getD 0 + c)
        else s1.nextPathCount }
  else if includePaths ∧ (lookupA s1.nextPathCount v).isSome then
    { s1 with nextPathCount := setA s1.nextPathCount v ((lookupA s1.nextPathCount v).getD 0 + c) }
  else s1

/-- One frontier node of the batch BFS level. -/
def batchNodeStep (g : Nat → List Nat) (includePaths : Bool) (hops : Nat)
    (pathCount : List (Nat × Nat)) (s : BatchSt) (u : Nat) : BatchSt :=
  (g u).foldl
    (batchEdgeStep includePaths hops (if includePaths then jsOr1 (lookupA pathCount u) else 0)) s

/-- End-of-level finalization under `includePaths`: each target first seen
at this hop level is resolved with its accumulated path count. -/
def batchFinStep (hops : Nat) (acc : BatchSt) (p : Nat × Nat) : BatchSt :=
  if p.2 = hops then
    match lookupA acc.targetIds p.1 with
    | some target =>
      { acc with
        results := setA acc.results target (some (hops, lookupA acc.targetPaths p.1))
        targetIds := eraseA acc.targetIds p.1 }
    | none => acc
  else acc

def batchFinalize (hops : Nat) (s : BatchSt) : BatchSt :=
  s.foundAtHop.foldl (batchFinStep hops) s

/-- The batch BFS loop (`while (frontier.length > 0 && hops < maxHops &&
targetIds.size > 0)`); returns the results map and the unresolved targets. -/
def batchLoop (g : Nat → List Nat) (includePaths : Bool) :
    Nat → List (Nat × Nat) → List Nat → List Nat → List (Nat × String) →
    List (String × Option (Nat × Option Nat)) → List (Nat × Nat) → List (Nat × Nat) →
    Nat → List (String × Option (Nat × Option Nat)) × List (Nat × String)
  | 0, _, _, _, targetIds, results, _, _, _ => (results, targetIds)
  | fuel + 1, pathCount, visited, frontier, targetIds, results, targetPaths, foundAtHop, hops =>
    if frontier.isEmpty ∨ targetIds.isEmpty then (results, targetIds)
    else
      let s1 := frontier.foldl (batchNodeStep g includePaths (hops + 1) pathCount)
        ⟨visited, [], [], targetIds, results, targetPaths, foundAtHop⟩
      let s2 := if includePaths then batchFinalize (hops + 1) s1 else s1
      batchLoop g includePaths fuel (mergeCounts pathCount s2.nextPathCount)
        s2.visited s2.nextFrontier s2.targetIds s2.results s2.targetPaths s2.foundAtHop
        (hops + 1)

/-- The prologue loop over `targets`: self targets resolve to hop 0,
unknown targets to null, the rest enter `targetIds`. -/
def batchInit (st : Store) (f : String) (includePaths : Bool) (targets : List String) :
    List (Nat × String) × List (String × Option (Nat × Option Nat)) :=
  targets.foldl
    (fun (acc : List (Nat × String) × List (String × Option (Nat × Option Nat))) t =>
      if f = t then
        (acc.1, setA acc.2 t (some (0, if includePaths then some 1 else none)))
      else
        match getId st t with
        | some tid => (setA acc.1 tid t, acc.2)
        | none => (acc.1, setA acc.2 t none))
    ([], [])

/-- `getDistancesBatch(from, targets, maxHops, includePaths)`. -/
def getDistancesBatch (st : Store) (f : String) (targets : List String)
    (maxHops : Nat) (includePaths : Bool) : List (String × Option (Nat × Option Nat)) :=
  match getId st f with
  | none => targets.foldl (fun acc t => setA acc t none) []
  | some fromId =>
    let init := batchInit st f includePaths targets
    if init.1.isEmpty then init.2
    else
      let out := batchLoop (storeG st) includePaths maxHops
        (if includePaths then [(fromId, 1)] else []) [fromId] [fromId]
        init.1 init.2 [] [] 0
      out.2.foldl (fun acc p => setA acc p.2 none) out.1

/-! ### Batch level analysis

`batchEdgeStep` factors into a target-bookkeeping stage (touching only
`targetIds`/`results`/`targetPaths`/`foundAtHop`) followed by an expansion
stage (touching only `visited`/`nextFrontier`/`nextPathCount`); the two
stages read disjoint state, so the level fold is analyzed field-group by
field-group. -/

def batchBkStep (includePaths : Bool) (hops c : Nat) (s : BatchSt) (v : Nat) : BatchSt :=
  match lookupA s.targetIds v with
  | some target =>
    if includePaths then
      { s with
        targetPaths := setA s.targetPaths v ((lookupA s.targetPaths v).getD 0 + c)
        foundAtHop := if (lookupA s.foundAtHop v).isSome then s.foundAtHop
          else setA s.foundAtHop v hops }
    else
      { s with
        results := setA s.results target (some (hops, none))
        targetIds := eraseA s.targetIds v }
  | none => s

def batchExpStep (includePaths : Bool) (c : Nat) (s : BatchSt) (v : Nat) : BatchSt :=
  if v ∉ s.visited then
    { s with
      visited := s.visited ++ [v]
      nextFrontier := s.nextFrontier ++ [v]
      nextPathCount := if includePaths then
        setA s.nextPathCount v ((lookupA s.nextPathCount v).getD 0 + c)
        else s.nextPathCount }
  else if includePaths ∧ (lookupA s.nextPathCount v).isSome then
    { s with nextPathCount := setA s.nextPathCount v ((lookupA s.nextPathCount v).getD 0 + c) }
  else s

theorem batchEdgeStep_split (includePaths : Bool) (hops c : Nat) (s : BatchSt) (v : Nat) :
    batchEdgeStep includePaths hops c s v =
      batchExpStep includePaths c (batchBkStep includePaths hops c s v) v := rfl

theorem batchBkStep_exp_fields (includePaths : Bool) (hops c : Nat) (s : BatchSt) (v : Nat) :
    (batchBkStep includePaths hops c s v).visited = s.visited ∧
    (batchBkStep includePaths hops c s v).nextFrontier = s.nextFrontier ∧
    (batchBkStep includePaths hops c s v).nextPathCount = s.nextPathCount := by
  unfold batchBkStep
  cases lookupA s.targetIds v with
  | none => exact ⟨rfl, rfl, rfl⟩
  | some t => cases includePaths <;> exact ⟨rfl, rfl, rfl⟩

theorem batchExpStep_bk_fields (includePaths : Bool) (c : Nat) (s : BatchSt) (v : Nat) :
    (batchExpStep includePaths c s v).targetIds = s.targetIds ∧
    (batchExpStep includePaths c s v).results = s.results ∧
    (batchExpStep includePaths c s v).targetPaths = s.targetPaths ∧
    (batchExpStep includePaths c s v).foundAtHop = s.foundAtHop := by
  unfold batchExpStep
  by_cases h : v ∉ s.visited
  · rw [if_pos h]
    exact ⟨rfl, rfl, rfl, rfl⟩
  · rw [if_neg h]
    by_cases h2 : includePaths = true ∧ (lookupA s.nextPathCount v).isSome = true
    · rw [if_pos h2]
      exact ⟨rfl, rfl, rfl, rfl⟩
    · rw [if_neg h2]
      exact ⟨rfl, rfl, rfl, rfl⟩

theorem batchExpStep_visited (includePaths : Bool) (c : Nat) (s : BatchSt) (v : Nat) :
    (batchExpStep includePaths c s v).visited =
      (if v ∈ s.visited then s.visited else s.visited ++ [v]) ∧
    (batchExpStep includePaths c s v).nextFrontier =
      (if v ∈ s.visited then s.nextFrontier else s.nextFrontier ++ [v]) := by
  unfold batchExpStep
  by_cases h : v ∈ s.visited
  · rw [if_neg (not_not.mpr h), if_pos h, if_pos h]
    by_cases h2 : includePaths = true ∧ (lookupA s.nextPathCount v).isSome = true
    · rw [if_pos h2]
      exact ⟨rfl, rfl⟩
    · rw [if_neg h2]
      exact ⟨rfl, rfl⟩
  · rw [if_pos h, if_neg h, if_neg h]
    exact ⟨rfl, rfl⟩

theorem batchEdgeStep_visited (includePaths : Bool) (hops c : Nat) (s : BatchSt) (v : Nat) :
    (batchEdgeStep includePaths hops c s v).visited =
      (if v ∈ s.visited then s.visited else s.visited ++ [v]) ∧
    (batchEdgeStep includePaths hops c s v).nextFrontier =
      (if v ∈ s.visited then s.nextFrontier else s.nextFrontier ++ [v]) := by
  rw [batchEdgeStep_split]
  obtain ⟨e1, e2⟩ := batchExpStep_visited includePaths c (batchBkStep includePaths hops c s v) v
  obtain ⟨h1, h2, -⟩ := batchBkStep_exp_fields includePaths hops c s v
  rw [e1, e2, h1, h2]
  exact ⟨rfl, rfl⟩

theorem batchEdgeStep_bk (includePaths : Bool) (hops c : Nat) (s : BatchSt) (v : Nat) :
    (batchEdgeStep includePaths hops c s v).targetIds =
      (batchBkStep includePaths hops c s v).targetIds ∧
    (batchEdgeStep includePaths hops c s v).results =
      (batchBkStep includePaths hops c s v).results ∧
    (batchEdgeStep includePaths hops c s v).foundAtHop =
      (batchBkStep includePaths hops c s v).foundAtHop := by
  rw [batchEdgeStep_split]
  obtain ⟨h1, h2, h3, h4⟩ :=
    batchExpStep_bk_fields includePaths c (batchBkStep includePaths hops c s v) v
  exact ⟨h1, h2, h4⟩

/-! ### eraseA lemmas -/

theorem eraseA_sublist {κ ν : Type} [DecidableEq κ] (l : List (κ × ν)) (k : κ) :
    (eraseA l k).Sublist l := by
  induction l with
  | nil => exact List.Sublist.refl _
  | cons p t ih =>
    simp only [eraseA]
    by_cases h : p.1 = k
    · rw [if_pos h]
      exact List.sublist_cons_self p t
    · rw [if_neg h]
      exact List.Sublist.cons₂ _ ih

theorem mem_of_mem_eraseA {κ ν : Type} [DecidableEq κ] {l : List (κ × ν)} {k : κ}
    {p : κ × ν} (h : p ∈ eraseA l k) : p ∈ l :=
  (eraseA_sublist l k).mem h

theorem lookupA_eraseA_ne {κ ν : Type} [DecidableEq κ] (l : List (κ × ν)) (k k' : κ)
    (h : k' ≠ k) : lookupA (eraseA l k) k' = lookupA l k' := by
  induction l with
  | nil => rfl
  | cons p t ih =>
    obtain ⟨k₀, v₀⟩ := p
    show lookupA (if k₀ = k then t else (k₀, v₀) :: eraseA t k) k' = lookupA ((k₀, v₀) :: t) k'
    by_cases h0 : k₀ = k
    · rw [if_pos h0]
      show lookupA t k' = if k₀ = k' then some v₀ else lookupA t k'
      rw [if_neg (fun he : k₀ = k' => h (he ▸ h0))]
    · rw [if_neg h0]
      show (if k₀ = k' then some v₀ else lookupA (eraseA t k) k') =
        (if k₀ = k' then some v₀ else lookupA t k')
      by_cases h1 : k₀ = k'
      · rw [if_pos h1, if_pos h1]
      · rw [if_neg h1, if_neg h1, ih]

theorem lookupA_eraseA_self {κ ν : Type} [DecidableEq κ] {l : List (κ × ν)} {k : κ}
    (hnd : (l.map Prod.fst).Nodup) : lookupA (eraseA l k) k = none := by
  induction l with
  | nil => rfl
  | cons p t ih =>
    obtain ⟨k₀, v₀⟩ := p
    simp only [List.map_cons, List.nodup_cons] at hnd
    by_cases h0 : k₀ = k
    · subst h0
      simp only [eraseA, if_pos rfl]
      refine lookupA_eq_none fun q hq hk => ?_
      exact hnd.1 (hk ▸ List.mem_map_of_mem Prod.fst hq)
    · simp only [eraseA, if_neg h0, lookupA, if_neg h0]
      exact ih hnd.2

theorem lookupA_none_not_mem {κ ν : Type} [DecidableEq κ] {l : List (κ × ν)} {k : κ}
    (h : lookupA l k = none) : ∀ p ∈ l, p.1 ≠ k := by
  induction l with
  | nil => intro p hp; exact absurd hp (List.not_mem_nil p)
  | cons q t ih =>
    intro p hp
    obtain ⟨k₀, v₀⟩ := q
    by_cases h0 : k₀ = k
    · simp [lookupA, h0] at h
    · simp only [lookupA, if_neg h0] at h
      rcases List.mem_cons.mp hp with he | hm
      · subst he; exact h0
      · exact ih h p hm

/-! ### Batch level: expansion fields -/

theorem batchEdgeFold_visited {includePaths : Bool} {hops c : Nat} :
    ∀ (l : List Nat) (s : BatchSt),
      (∀ w, w ∈ (l.foldl (batchEdgeStep includePaths hops c) s).visited ↔
        w ∈ s.visited ∨ w ∈ l) ∧
      (∀ w, w ∈ (l.foldl (batchEdgeStep includePaths hops c) s).nextFrontier ↔
        w ∈ s.nextFrontier ∨ (w ∈ l ∧ w ∉ s.visited)) := by
  intro l
  induction l with
  | nil => simp
  | cons v t ih =>
    intro s
    obtain ⟨hv, hn⟩ := batchEdgeStep_visited includePaths hops c s v
    obtain ⟨ihv, ihn⟩ := ih (batchEdgeStep includePaths hops c s v)
    constructor
    · intro w
      rw [List.foldl_cons, ihv w, hv]
      by_cases hc : v ∈ s.visited
      · rw [if_pos hc]
        simp only [List.mem_cons]
        by_cases hw : w = v
        · subst hw; tauto
        · tauto
      · rw [if_neg hc]
        simp only [List.mem_append, List.mem_singleton, List.mem_cons]
        tauto
    · intro w
      rw [List.foldl_cons, ihn w, hn, hv]
      by_cases hc : v ∈ s.visited
      · rw [if_pos hc, if_pos hc]
        simp only [List.mem_cons]
        by_cases hw : w = v
        · subst hw; tauto
        · tauto
      · rw [if_neg hc, if_neg hc]
        simp only [List.mem_append, List.mem_singleton, List.mem_cons, not_or]
        by_cases hw : w = v
        · subst hw; tauto
        · tauto

theorem batchNodeFold_visited {g : Nat → List Nat} {includePaths : Bool} {hops : Nat}
    {pc : List (Nat × Nat)} :
    ∀ (frontier : List Nat) (s : BatchSt),
      (∀ w, w ∈ (frontier.foldl (batchNodeStep g includePaths hops pc) s).visited ↔
        w ∈ s.visited ∨ ∃ u ∈ frontier, w ∈ g u) ∧
      (∀ w, w ∈ (frontier.foldl (batchNodeStep g includePaths hops pc) s).nextFrontier ↔
        w ∈ s.nextFrontier ∨ ((∃ u ∈ frontier, w ∈ g u) ∧ w ∉ s.visited)) := by
  intro frontier
  induction frontier with
  | nil => simp
  | cons u t ih =>
    intro s
    obtain ⟨hv, hn⟩ := batchEdgeFold_visited (g u) s
    obtain ⟨ihv, ihn⟩ := ih (batchNodeStep g includePaths hops pc s u)
    constructor
    · intro w
      rw [List.foldl_cons, ihv w]
      show (w ∈ (List.foldl _ s (g u)).visited ∨ _) ↔ _
      rw [hv w]
      simp only [List.exists_mem_cons_iff]
      tauto
    · intro w
      rw [List.foldl_cons, ihn w]
      show (w ∈ (List.foldl _ s (g u)).nextFrontier ∨
        ((∃ u' ∈ t, w ∈ g u') ∧ w ∉ (List.foldl _ s (g u)).visited)) ↔ _
      rw [hn w, hv w]
      simp only [List.exists_mem_cons_iff, not_or]
      tauto

theorem batchFinStep_exp_fields (hops : Nat) (acc : BatchSt) (p : Nat × Nat) :
    (batchFinStep hops acc p).visited = acc.visited ∧
    (batchFinStep hops acc p).nextFrontier = acc.nextFrontier ∧
    (batchFinStep hops acc p).nextPathCount = acc.nextPathCount ∧
    (batchFinStep hops acc p).foundAtHop = acc.foundAtHop := by
  unfold batchFinStep
  by_cases h : p.2 = hops
  · rw [if_pos h]
    cases lookupA acc.targetIds p.1 with
    | none => exact ⟨rfl, rfl, rfl, rfl⟩
    | some t => exact ⟨rfl, rfl, rfl, rfl⟩
  · rw [if_neg h]
    exact ⟨rfl, rfl, rfl, rfl⟩

theorem batchFinFold_exp_fields (hops : Nat) :
    ∀ (l : List (Nat × Nat)) (s : BatchSt),
      (l.foldl (batchFinStep hops) s).visited = s.visited ∧
      (l.foldl (batchFinStep hops) s).nextFrontier = s.nextFrontier ∧
      (l.foldl (batchFinStep hops) s).nextPathCount = s.nextPathCount ∧
      (l.foldl (batchFinStep hops) s).foundAtHop = s.foundAtHop := by
  intro l
  induction l with
  | nil => exact fun s => ⟨rfl, rfl, rfl, rfl⟩
  | cons p t ih =>
    intro s
    obtain ⟨h1, h2, h3, h4⟩ := ih (batchFinStep hops s p)
    obtain ⟨g1, g2, g3, g4⟩ := batchFinStep_exp_fields hops s p
    exact ⟨h1.trans g1, h2.trans g2, h3.trans g3, h4.trans g4⟩

/-! ### Batch level: target bookkeeping -/

theorem mem_lookupA_isSome {κ ν : Type} [DecidableEq κ] {l : List (κ × ν)} {p : κ × ν}
    (h : p ∈ l) : (lookupA l p.1).isSome := by
  induction l with
  | nil => exact absurd h (List.not_mem_nil p)
  | cons q t ih =>
    rcases List.mem_cons.mp h with he | hm
    · subst he
      show (if p.1 = p.1 then some p.2 else lookupA t p.1).isSome
      rw [if_pos rfl]
      rfl
    · show (if q.1 = p.1 then some q.2 else lookupA t p.1).isSome
      by_cases hq : q.1 = p.1
      · rw [if_pos hq]; rfl
      · rw [if_neg hq]; exact ih hm

/-- Effect of one edge on the bookkeeping fields, `includePaths = false`. -/
theorem batchEdgeStep_bkF (hops c : Nat) (s : BatchSt) (v : Nat) :
    ((lookupA s.targetIds v = none →
      (batchEdgeStep false hops c s v).targetIds = s.targetIds ∧
      (batchEdgeStep false hops c s v).results = s.results) ∧
    (∀ tv, lookupA s.targetIds v = some tv →
      (batchEdgeStep false hops c s v).targetIds = eraseA s.targetIds v ∧
      (batchEdgeStep false hops c s v).results = setA s.results tv (some (hops, none)))) ∧
    (batchEdgeStep false hops c s v).foundAtHop = s.foundAtHop := by
  obtain ⟨h1, h2, h3⟩ := batchEdgeStep_bk false hops c s v
  rw [h1, h2, h3]
  unfold batchBkStep
  cases hv : lookupA s.targetIds v with
  | none => exact ⟨⟨fun _ => ⟨rfl, rfl⟩, fun tv he => Option.noConfusion he⟩, rfl⟩
  | some tv =>
    refine ⟨⟨fun he => Option.noConfusion he, fun tv' he => ?_⟩, rfl⟩
    obtain rfl : tv = tv' := Option.some.injEq _ _ ▸ he
    exact ⟨rfl, rfl⟩

/-- The bookkeeping outcome of an edge-list fold, `includePaths = false`:
targets hit by the list are resolved at this hop level and erased, the
rest (and every unrelated results entry) are untouched; the structural
invariants survive. -/
theorem bkFoldF (hops c : Nat) :
    ∀ (l : List Nat) (s : BatchSt),
      (s.targetIds.map Prod.fst).Nodup →
      (∀ p ∈ s.targetIds, ∀ q ∈ s.targetIds, p.2 = q.2 → p.1 = q.1) →
      (∀ p ∈ s.targetIds, lookupA s.results p.2 = none) →
      (∀ q ∈ (l.foldl (batchEdgeStep false hops c) s).targetIds, q ∈ s.targetIds) ∧
      (((l.foldl (batchEdgeStep false hops c) s).targetIds.map Prod.fst).Nodup) ∧
      (∀ p ∈ (l.foldl (batchEdgeStep false hops c) s).targetIds,
        ∀ q ∈ (l.foldl (batchEdgeStep false hops c) s).targetIds, p.2 = q.2 → p.1 = q.1) ∧
      (∀ p ∈ (l.foldl (batchEdgeStep false hops c) s).targetIds,
        lookupA (l.foldl (batchEdgeStep false hops c) s).results p.2 = none) ∧
      (∀ t', (∀ p ∈ s.targetIds, p.2 ≠ t') →
        lookupA (l.foldl (batchEdgeStep false hops c) s).results t' =
          lookupA s.results t') ∧
      (∀ tid t, lookupA s.targetIds tid = some t →
        (tid ∈ l → lookupA (l.foldl (batchEdgeStep false hops c) s).targetIds tid = none ∧
          lookupA (l.foldl (batchEdgeStep false hops c) s).results t =
            some (some (hops, none))) ∧
        (tid ∉ l → lookupA (l.foldl (batchEdgeStep false hops c) s).targetIds tid = some t ∧
          lookupA (l.foldl (batchEdgeStep false hops c) s).results t =
            lookupA s.results t)) ∧
      (l.foldl (batchEdgeStep false hops c) s).foundAtHop = s.foundAtHop := by
  intro l
  induction l with
  | nil =>
    intro s hK hV hD
    exact ⟨fun q hq => hq, hK, hV, hD, fun t' _ => rfl,
      fun tid t ht => ⟨fun h => absurd h (List.not_mem_nil tid), fun _ => ⟨ht, rfl⟩⟩, rfl⟩
  | cons v rest ih =>
    intro s hK hV hD
    simp only [List.foldl_cons]
    obtain ⟨⟨hnone, hsome⟩, hfah⟩ := batchEdgeStep_bkF hops c s v
    cases hv : lookupA s.targetIds v with
    | none =>
      obtain ⟨ht1, ht2⟩ := hnone hv
      obtain ⟨i1, i2, i3, i4, i5, i6, i7⟩ := ih (batchEdgeStep false hops c s v)
        (ht1 ▸ hK) (ht1 ▸ hV) (ht1 ▸ ht2 ▸ hD)
      rw [ht1] at i1 i5 i6
      rw [ht2] at i5 i6
      refine ⟨i1, i2, i3, i4, i5, ?_, i7.trans hfah⟩
      intro tid t ht
      have htv : tid ≠ v := fun he => by rw [he, hv] at ht; exact Option.noConfusion ht
      refine ⟨fun hm => ?_, fun hm => ?_⟩
      · rcases List.mem_cons.mp hm with he | hm'
        · exact absurd he htv
        · exact (i6 tid t ht).1 hm'
      · simp only [List.mem_cons, not_or] at hm
        exact (i6 tid t ht).2 hm.2
    | some tv =>
      obtain ⟨ht1, ht2⟩ := hsome tv hv
      have hvmem : (v, tv) ∈ s.targetIds := lookupA_mem hv
      have hsub0 : ∀ q ∈ eraseA s.targetIds v, q ∈ s.targetIds :=
        fun q hq => mem_of_mem_eraseA hq
      have hK' : ((eraseA s.targetIds v).map Prod.fst).Nodup :=
        ((eraseA_sublist s.targetIds v).map Prod.fst).nodup hK
      have hV' : ∀ p ∈ eraseA s.targetIds v, ∀ q ∈ eraseA s.targetIds v,
          p.2 = q.2 → p.1 = q.1 :=
        fun p hp q hq => hV p (hsub0 p hp) q (hsub0 q hq)
      have hntv : ∀ p ∈ eraseA s.targetIds v, p.2 ≠ tv := by
        intro p hp he
        have hp1 : p.1 = v := hV p (hsub0 p hp) (v, tv) hvmem he
        have := lookupA_none_not_mem (lookupA_eraseA_self hK) p hp
        exact this hp1
      have hD' : ∀ p ∈ eraseA s.targetIds v,
          lookupA (setA s.results tv (some (hops, none))) p.2 = none := by
        intro p hp
        rw [lookupA_setA_ne _ _ _ _ (hntv p hp)]
        exact hD p (hsub0 p hp)
      obtain ⟨i1, i2, i3, i4, i5, i6, i7⟩ := ih (batchEdgeStep false hops c s v)
        (ht1 ▸ hK') (by rw [ht1]; exact hV') (by rw [ht1, ht2]; exact hD')
      refine ⟨?_, i2, i3, i4, ?_, ?_, i7.trans hfah⟩
      · intro q hq
        exact hsub0 q (ht1 ▸ i1 q hq)
      · intro t' hprot
        have htv' : tv ≠ t' := fun he => hprot (v, tv) hvmem he
        have h5 := i5 t' (by
          rw [ht1]
          exact fun p hp => hprot p (hsub0 p hp))
        rw [ht2] at h5
        rw [h5, lookupA_setA_ne _ _ _ _ (Ne.symm htv')]
      · intro tid t ht
        by_cases htidv : tid = v
        · have htv_eq : tv = t := by
            rw [htidv, hv] at ht
            exact (Option.some.injEq _ _).mp ht
          constructor
          · intro _
            constructor
            · cases hlk : lookupA (List.foldl (batchEdgeStep false hops c)
                  (batchEdgeStep false hops c s v) rest).targetIds tid with
              | none => rfl
              | some t'' =>
                exfalso
                have hmem := i1 _ (lookupA_mem hlk)
                rw [ht1] at hmem
                have hs := mem_lookupA_isSome hmem
                rw [show ((tid, t'') : Nat × String).1 = v from htidv,
                  lookupA_eraseA_self hK] at hs
                simp at hs
            · have h5 := i5 t (by
                rw [ht1]
                intro p hp
                rw [← htv_eq]
                exact hntv p hp)
              rw [ht2] at h5
              rw [h5, ← htv_eq, lookupA_setA_self]
          · intro hm
            rw [htidv] at hm
            exact absurd (List.mem_cons_self _ _) hm
        · have hlk1 : lookupA (batchEdgeStep false hops c s v).targetIds tid = some t := by
            rw [ht1, lookupA_eraseA_ne _ _ _ htidv]
            exact ht
          have htt : t ≠ tv := by
            intro he
            exact htidv (hV (tid, t) (lookupA_mem ht) (v, tv) hvmem (by simpa using he))
          have hres1 : lookupA (batchEdgeStep false hops c s v).results t =
              lookupA s.results t := by
            rw [ht2, lookupA_setA_ne _ _ _ _ htt]
          obtain ⟨j1, j2⟩ := i6 tid t hlk1
          constructor
          · intro hm
            rcases List.mem_cons.mp hm with he | hm'
            · exact absurd he htidv
            · exact j1 hm'
          · intro hm
            simp only [List.mem_cons, not_or] at hm
            obtain ⟨k1, k2⟩ := j2 hm.2
            exact ⟨k1, k2.trans hres1⟩

theorem mem_setA {κ ν : Type} [DecidableEq κ] {l : List (κ × ν)} {k : κ} {v : ν}
    {p : κ × ν} (h : p ∈ setA l k v) : p ∈ l ∨ p = (k, v) := by
  induction l with
  | nil => exact Or.inr (by simpa [setA] using h)
  | cons q t ih =>
    by_cases hq : q.1 = k
    · rw [show setA (q :: t) k v = (k, v) :: t by
        show (if q.1 = k then (k, v) :: t else q :: setA t k v) = (k, v) :: t
        rw [if_pos hq]] at h
      rcases List.mem_cons.mp h with he | hm
      · exact Or.inr he
      · exact Or.inl (List.mem_cons_of_mem _ hm)
    · rw [show setA (q :: t) k v = q :: setA t k v by
        show (if q.1 = k then (k, v) :: t else q :: setA t k v) = q :: setA t k v
        rw [if_neg hq]] at h
      rcases List.mem_cons.mp h with he | hm
      · exact Or.inl (he ▸ List.mem_cons_self _ _)
      · rcases ih hm with h' | h'
        · exact Or.inl (List.mem_cons_of_mem _ h')
        · exact Or.inr h'

/-- Effect of one edge on the bookkeeping fields, `includePaths = true`:
targets and results are untouched; a first sighting of an unresolved
target records the current hop level in `foundAtHop`. -/
theorem batchEdgeStep_bkT (hops c : Nat) (s : BatchSt) (v : Nat) :
    (batchEdgeStep true hops c s v).targetIds = s.targetIds ∧
    (batchEdgeStep true hops c s v).results = s.results ∧
    (batchEdgeStep true hops c s v).foundAtHop =
      (if (lookupA s.targetIds v).isSome ∧ ¬(lookupA s.foundAtHop v).isSome
       then setA s.foundAtHop v hops else s.foundAtHop) := by
  obtain ⟨h1, h2, h3⟩ := batchEdgeStep_bk true hops c s v
  rw [h1, h2, h3]
  unfold batchBkStep
  cases hv : lookupA s.targetIds v with
  | none =>
    refine ⟨rfl, rfl, ?_⟩
    simp only [Option.isSome_none, Bool.false_eq_true, false_and, if_false]
  | some tv =>
    refine ⟨rfl, rfl, ?_⟩
    show (if (lookupA s.foundAtHop v).isSome then s.foundAtHop
      else setA s.foundAtHop v hops) = _
    by_cases hf : (lookupA s.foundAtHop v).isSome
    · rw [if_pos hf, if_neg (by simp [hf])]
    · rw [if_neg hf, if_pos (by simp [hf])]

theorem bkFoldT (hops c : Nat) :
    ∀ (l : List Nat) (s : BatchSt),
      (l.foldl (batchEdgeStep true hops c) s).targetIds = s.targetIds ∧
      (l.foldl (batchEdgeStep true hops c) s).results = s.results ∧
      (∀ tid, lookupA (l.foldl (batchEdgeStep true hops c) s).foundAtHop tid =
        (if (lookupA s.targetIds tid).isSome ∧ tid ∈ l ∧ ¬(lookupA s.foundAtHop tid).isSome
         then some hops else lookupA s.foundAtHop tid)) ∧
      (∀ p ∈ (l.foldl (batchEdgeStep true hops c) s).foundAtHop,
        p ∈ s.foundAtHop ∨ ((lookupA s.targetIds p.1).isSome ∧ p.2 = hops)) := by
  intro l
  induction l with
  | nil =>
    intro s
    refine ⟨rfl, rfl, fun tid => ?_, fun p hp => Or.inl hp⟩
    rw [if_neg (by simp)]
    rfl
  | cons v rest ih =>
    intro s
    simp only [List.foldl_cons]
    obtain ⟨e1, e2, e3⟩ := batchEdgeStep_bkT hops c s v
    obtain ⟨i1, i2, i3, i4⟩ := ih (batchEdgeStep true hops c s v)
    refine ⟨i1.trans e1, i2.trans e2, ?_, ?_⟩
    · intro tid
      rw [i3 tid, e1, e3]
      by_cases hC : (lookupA s.targetIds v).isSome ∧ ¬(lookupA s.foundAtHop v).isSome
      · rw [if_pos hC]
        by_cases htidv : tid = v
        · simp only [htidv, lookupA_setA_self]
          simp [hC.1, hC.2]
        · rw [lookupA_setA_ne s.foundAtHop v tid hops htidv]
          simp [List.mem_cons, htidv]
      · rw [if_neg hC]
        by_cases htidv : tid = v
        · simp only [htidv]
          rcases not_and_or.mp hC with h | h
          · simp [h]
          · rw [not_not] at h
            simp [h]
        · simp [List.mem_cons, htidv]
    · intro p hp
      rcases i4 p hp with hin | ⟨hA, hh⟩
      · rw [e3] at hin
        by_cases hC : (lookupA s.targetIds v).isSome ∧ ¬(lookupA s.foundAtHop v).isSome
        · rw [if_pos hC] at hin
          rcases mem_setA hin with h' | h'
          · exact Or.inl h'
          · exact Or.inr ⟨by rw [h']; exact hC.1, by rw [h']⟩
        · rw [if_neg hC] at hin
          exact Or.inl hin
      · rw [e1] at hA
        exact Or.inr ⟨hA, hh⟩

theorem lookupA_eraseA_of_none {κ ν : Type} [DecidableEq κ] {l : List (κ × ν)} {k x : κ}
    (h : lookupA l x = none) : lookupA (eraseA l k) x = none :=
  lookupA_eq_none fun p hp => lookupA_none_not_mem h p (mem_of_mem_eraseA hp)

/-- The end-of-level finalization resolves exactly the unresolved targets
recorded in `foundAtHop` for the current hop level. -/
theorem finFoldChar (hops : Nat) :
    ∀ (l : List (Nat × Nat)) (s : BatchSt),
      (s.targetIds.map Prod.fst).Nodup →
      (∀ p ∈ s.targetIds, ∀ q ∈ s.targetIds, p.2 = q.2 → p.1 = q.1) →
      (∀ p ∈ s.targetIds, lookupA s.results p.2 = none) →
      (∀ p ∈ l, lookupA s.targetIds p.1 = none ∨ p.2 = hops) →
      (∀ q ∈ (l.foldl (batchFinStep hops) s).targetIds, q ∈ s.targetIds) ∧
      (((l.foldl (batchFinStep hops) s).targetIds.map Prod.fst).Nodup) ∧
      (∀ p ∈ (l.foldl (batchFinStep hops) s).targetIds,
        ∀ q ∈ (l.foldl (batchFinStep hops) s).targetIds, p.2 = q.2 → p.1 = q.1) ∧
      (∀ p ∈ (l.foldl (batchFinStep hops) s).targetIds,
        lookupA (l.foldl (batchFinStep hops) s).results p.2 = none) ∧
      (∀ t', (∀ p ∈ s.targetIds, p.2 ≠ t') →
        lookupA (l.foldl (batchFinStep hops) s).results t' = lookupA s.results t') ∧
      (∀ tid t, lookupA s.targetIds tid = some t →
        (tid ∈ l.map Prod.fst →
          lookupA (l.foldl (batchFinStep hops) s).targetIds tid = none ∧
          ∃ pp, lookupA (l.foldl (batchFinStep hops) s).results t =
            some (some (hops, pp))) ∧
        (tid ∉ l.map Prod.fst →
          lookupA (l.foldl (batchFinStep hops) s).targetIds tid = some t ∧
          lookupA (l.foldl (batchFinStep hops) s).results t = lookupA s.results t)) := by
  intro l
  induction l with
  | nil =>
    intro s hK hV hD _
    exact ⟨fun q hq => hq, hK, hV, hD, fun t' _ => rfl,
      fun tid t ht => ⟨fun h => absurd h (List.not_mem_nil tid), fun _ => ⟨ht, rfl⟩⟩⟩
  | cons p rest ih =>
    intro s hK hV hD hprov
    obtain ⟨tid₀, h₀⟩ := p
    simp only [List.foldl_cons]
    by_cases hh : h₀ = hops
    · cases hv : lookupA s.targetIds tid₀ with
      | none =>
        have hstep : batchFinStep hops s (tid₀, h₀) = s := by
          unfold batchFinStep
          rw [if_pos hh, hv]
        rw [hstep]
        obtain ⟨i1, i2, i3, i4, i5, i6⟩ := ih s hK hV hD
          (fun q hq => hprov q (List.mem_cons_of_mem _ hq))
        refine ⟨i1, i2, i3, i4, i5, ?_⟩
        intro tid t ht
        have htid0 : tid ≠ tid₀ := fun he => by
          rw [he, hv] at ht; exact Option.noConfusion ht
        refine ⟨fun hm => ?_, fun hm => ?_⟩
        · rcases List.mem_cons.mp hm with he | hm'
          · exact absurd he htid0
          · exact (i6 tid t ht).1 hm'
        · simp only [List.map_cons, List.mem_cons, not_or] at hm
          exact (i6 tid t ht).2 hm.2
      | some t₀ =>
        have hstep : batchFinStep hops s (tid₀, h₀) =
            { s with
              results := setA s.results t₀ (some (hops, lookupA s.targetPaths tid₀))
              targetIds := eraseA s.targetIds tid₀ } := by
          unfold batchFinStep
          rw [if_pos hh, hv]
        rw [hstep]
        set s₁ : BatchSt :=
          { s with
            results := setA s.results t₀ (some (hops, lookupA s.targetPaths tid₀))
            targetIds := eraseA s.targetIds tid₀ } with hs₁
        have hvmem : (tid₀, t₀) ∈ s.targetIds := lookupA_mem hv
        have hsub0 : ∀ q ∈ s₁.targetIds, q ∈ s.targetIds :=
          fun q hq => mem_of_mem_eraseA hq
        have hK' : (s₁.targetIds.map Prod.fst).Nodup :=
          ((eraseA_sublist s.targetIds tid₀).map Prod.fst).nodup hK
        have hV' : ∀ p' ∈ s₁.targetIds, ∀ q ∈ s₁.targetIds, p'.2 = q.2 → p'.1 = q.1 :=
          fun p' hp q hq => hV p' (hsub0 p' hp) q (hsub0 q hq)
        have hnt0 : ∀ p' ∈ s₁.targetIds, p'.2 ≠ t₀ := by
          intro p' hp he
          have hp1 : p'.1 = tid₀ := hV p' (hsub0 p' hp) (tid₀, t₀) hvmem he
          exact lookupA_none_not_mem (lookupA_eraseA_self hK) p' hp hp1
        have hD' : ∀ p' ∈ s₁.targetIds, lookupA s₁.results p'.2 = none := by
          intro p' hp
          show lookupA (setA s.results t₀ _) p'.2 = none
          rw [lookupA_setA_ne _ _ _ _ (hnt0 p' hp)]
          exact hD p' (hsub0 p' hp)
        have hprov' : ∀ q ∈ rest, lookupA s₁.targetIds q.1 = none ∨ q.2 = hops := by
          intro q hq
          rcases hprov q (List.mem_cons_of_mem _ hq) with h' | h'
          · exact Or.inl (lookupA_eraseA_of_none h')
          · exact Or.inr h'
        obtain ⟨i1, i2, i3, i4, i5, i6⟩ := ih s₁ hK' hV' hD' hprov'
        refine ⟨fun q hq => hsub0 q (i1 q hq), i2, i3, i4, ?_, ?_⟩
        · intro t' hprot
          have ht0' : t₀ ≠ t' := fun he => hprot (tid₀, t₀) hvmem he
          have h5 := i5 t' (fun p' hp => hprot p' (hsub0 p' hp))
          rw [h5]
          show lookupA (setA s.results t₀ _) t' = _
          rw [lookupA_setA_ne _ _ _ _ (Ne.symm ht0')]
        · intro tid t ht
          by_cases htid0 : tid = tid₀
          · have ht0_eq : t₀ = t := by
              rw [htid0, hv] at ht
              exact (Option.some.injEq _ _).mp ht
            constructor
            · intro _
              constructor
              · cases hlk : lookupA (List.foldl (batchFinStep hops) s₁ rest).targetIds tid with
                | none => rfl
                | some t'' =>
                  exfalso
                  have hmem := i1 _ (lookupA_mem hlk)
                  have hs := mem_lookupA_isSome hmem
                  rw [show ((tid, t'') : Nat × String).1 = tid₀ from htid0,
                    lookupA_eraseA_self hK] at hs
                  simp at hs
              · refine ⟨lookupA s.targetPaths tid₀, ?_⟩
                have h5 := i5 t (by
                  intro p' hp
                  rw [← ht0_eq]
                  exact hnt0 p' hp)
                rw [h5]
                show lookupA (setA s.results t₀ _) t = _
                rw [← ht0_eq, lookupA_setA_self]
            · intro hm
              rw [htid0] at hm
              exact absurd (by simp : tid₀ ∈ ((tid₀, h₀) :: rest).map Prod.fst) hm
          · have hlk1 : lookupA s₁.targetIds tid = some t := by
              show lookupA (eraseA s.targetIds tid₀) tid = some t
              rw [lookupA_eraseA_ne _ _ _ htid0]
              exact ht
            have htt : t ≠ t₀ := fun he =>
              htid0 (hV (tid, t) (lookupA_mem ht) (tid₀, t₀) hvmem (by simpa using he))
            have hres1 : lookupA s₁.results t = lookupA s.results t := by
              show lookupA (setA s.results t₀ _) t = _
              rw [lookupA_setA_ne _ _ _ _ htt]
            obtain ⟨j1, j2⟩ := i6 tid t hlk1
            constructor
            · intro hm
              rcases List.mem_cons.mp hm with he | hm'
              · exact absurd he htid0
              · exact j1 hm'
            · intro hm
              simp only [List.map_cons, List.mem_cons, not_or] at hm
              obtain ⟨k1, k2⟩ := j2 hm.2
              exact ⟨k1, k2.trans hres1⟩
    · have hstep : batchFinStep hops s (tid₀, h₀) = s := by
        unfold batchFinStep
        rw [if_neg hh]
      rw [hstep]
      obtain ⟨i1, i2, i3, i4, i5, i6⟩ := ih s hK hV hD
        (fun q hq => hprov q (List.mem_cons_of_mem _ hq))
      refine ⟨i1, i2, i3, i4, i5, ?_⟩
      intro tid t ht
      have htid0 : tid ≠ tid₀ := by
        intro he
        rcases hprov (tid₀, h₀) (List.mem_cons_self _ _) with h' | h'
        · rw [he, h'] at ht
          exact Option.noConfusion ht
        · exact hh h'
      refine ⟨fun hm => ?_, fun hm => ?_⟩
      · rcases List.mem_cons.mp hm with he | hm'
        · exact absurd he htid0
        · exact (i6 tid t ht).1 hm'
      · simp only [List.map_cons, List.mem_cons, not_or] at hm
        exact (i6 tid t ht).2 hm.2

theorem setA_keys_nodup {κ ν : Type} [DecidableEq κ] {l : List (κ × ν)} (k : κ) (v : ν)
    (h : (l.map Prod.fst).Nodup) : ((setA l k v).map Prod.fst).Nodup := by
  induction l with
  | nil => simp [setA]
  | cons q t ih =>
    simp only [List.map_cons, List.nodup_cons] at h
    by_cases hq : q.1 = k
    · rw [show setA (q :: t) k v = (k, v) :: t by
        show (if q.1 = k then (k, v) :: t else q :: setA t k v) = (k, v) :: t
        rw [if_pos hq]]
      simp only [List.map_cons, List.nodup_cons]
      exact ⟨hq ▸ h.1, h.2⟩
    · rw [show setA (q :: t) k v = q :: setA t k v by
        show (if q.1 = k then (k, v) :: t else q :: setA t k v) = q :: setA t k v
        rw [if_neg hq]]
      simp only [List.map_cons, List.nodup_cons]
      refine ⟨fun hm => ?_, ih h.2⟩
      simp only [List.mem_map] at hm
      obtain ⟨p, hp, hp1⟩ := hm
      rcases mem_setA hp with h' | h'
      · exact h.1 (hp1 ▸ List.mem_map_of_mem Prod.fst h')
      · exact hq (by rw [← hp1, h'])

/-- Bookkeeping outcome of one whole level's frontier fold with
`includePaths = false`: a target is resolved at this hop level exactly
when some frontier node follows it. -/
theorem nodeFoldF (g : Nat → List Nat) (hops : Nat) (pc : List (Nat × Nat)) :
    ∀ (frontier : List Nat) (s : BatchSt),
      (s.targetIds.map Prod.fst).Nodup →
      (∀ p ∈ s.targetIds, ∀ q ∈ s.targetIds, p.2 = q.2 → p.1 = q.1) →
      (∀ p ∈ s.targetIds, lookupA s.results p.2 = none) →
      (∀ q ∈ (frontier.foldl (batchNodeStep g false hops pc) s).targetIds, q ∈ s.targetIds) ∧
      (((frontier.foldl (batchNodeStep g false hops pc) s).targetIds.map Prod.fst).Nodup) ∧
      (∀ p ∈ (frontier.foldl (batchNodeStep g false hops pc) s).targetIds,
        ∀ q ∈ (frontier.foldl (batchNodeStep g false hops pc) s).targetIds,
        p.2 = q.2 → p.1 = q.1) ∧
      (∀ p ∈ (frontier.foldl (batchNodeStep g false hops pc) s).targetIds,
        lookupA (frontier.foldl (batchNodeStep g false hops pc) s).results p.2 = none) ∧
      (∀ t', (∀ p ∈ s.targetIds, p.2 ≠ t') →
        lookupA (frontier.foldl (batchNodeStep g false hops pc) s).results t' =
          lookupA s.results t') ∧
      (∀ tid t, lookupA s.targetIds tid = some t →
        ((∃ u ∈ frontier, tid ∈ g u) →
          lookupA (frontier.foldl (batchNodeStep g false hops pc) s).targetIds tid = none ∧
          lookupA (frontier.foldl (batchNodeStep g false hops pc) s).results t =
            some (some (hops, none))) ∧
        ((¬ ∃ u ∈ frontier, tid ∈ g u) →
          lookupA (frontier.foldl (batchNodeStep g false hops pc) s).targetIds tid = some t ∧
          lookupA (frontier.foldl (batchNodeStep g false hops pc) s).results t =
            lookupA s.results t)) := by
  intro frontier
  induction frontier with
  | nil =>
    intro s hK hV hD
    refine ⟨fun q hq => hq, hK, hV, hD, fun t' _ => rfl, fun tid t ht => ?_⟩
    exact ⟨fun h => absurd h (by simp), fun _ => ⟨ht, rfl⟩⟩
  | cons u rest ih =>
    intro s hK hV hD
    simp only [List.foldl_cons]
    have hstep : batchNodeStep g false hops pc s u =
        (g u).foldl (batchEdgeStep false hops (if false then jsOr1 (lookupA pc u) else 0)) s :=
      rfl
    obtain ⟨j1, j2, j3, j4, j5, j6, -⟩ := bkFoldF hops
      (if false then jsOr1 (lookupA pc u) else 0) (g u) s hK hV hD
    rw [← hstep] at j1 j2 j3 j4 j5 j6
    obtain ⟨i1, i2, i3, i4, i5, i6⟩ := ih (batchNodeStep g false hops pc s u) j2 j3 j4
    refine ⟨fun q hq => j1 q (i1 q hq), i2, i3, i4, ?_, ?_⟩
    · intro t' hprot
      have h5 := i5 t' (fun p hp => hprot p (j1 p hp))
      rw [h5, j5 t' hprot]
    · intro tid t ht
      have hmemt : (tid, t) ∈ s.targetIds := lookupA_mem ht
      by_cases hu : tid ∈ g u
      · obtain ⟨k1, k2⟩ := (j6 tid t ht).1 hu
        have hnot : ∀ p ∈ (batchNodeStep g false hops pc s u).targetIds, p.2 ≠ t := by
          intro p hp he
          have hp1 : p.1 = tid := hV p (j1 p hp) (tid, t) hmemt he
          have hs := mem_lookupA_isSome hp
          rw [hp1, k1] at hs
          simp at hs
        refine ⟨fun _ => ⟨?_, ?_⟩, fun hn => absurd ⟨u, List.mem_cons_self u rest, hu⟩ hn⟩
        · refine lookupA_eq_none fun q hq he => ?_
          have hs := mem_lookupA_isSome (i1 q hq)
          rw [he, k1] at hs
          simp at hs
        · exact (i5 t hnot).trans k2
      · obtain ⟨k1, k2⟩ := (j6 tid t ht).2 hu
        obtain ⟨m1, m2⟩ := i6 tid t k1
        constructor
        · rintro ⟨u', hu', hgu'⟩
          rcases List.mem_cons.mp hu' with he | hm
          · exact absurd (he ▸ hgu') hu
          · obtain ⟨n1, n2⟩ := m1 ⟨u', hm, hgu'⟩
            exact ⟨n1, n2⟩
        · intro hn
          have hn' : ¬ ∃ u' ∈ rest, tid ∈ g u' := by
            rintro ⟨u', hu', hgu'⟩
            exact hn ⟨u', List.mem_cons_of_mem _ hu', hgu'⟩
          obtain ⟨n1, n2⟩ := m2 hn'
          exact ⟨n1, n2.trans k2⟩

theorem batchLoop_succ (g : Nat → List Nat) (ip : Bool) (fuel : Nat)
    (pc : List (Nat × Nat)) (visited frontier : List Nat) (tIds : List (Nat × String))
    (results : List (String × Option (Nat × Option Nat))) (tps fah : List (Nat × Nat))
    (hops : Nat) :
    batchLoop g ip (fuel + 1) pc visited frontier tIds results tps fah hops =
      if frontier.isEmpty ∨ tIds.isEmpty then (results, tIds)
      else
        let s1 := frontier.foldl (batchNodeStep g ip (hops + 1) pc)
          ⟨visited, [], [], tIds, results, tps, fah⟩
        let s2 := if ip then batchFinalize (hops + 1) s1 else s1
        batchLoop g ip fuel (mergeCounts pc s2.nextPathCount)
          s2.visited s2.nextFrontier s2.targetIds s2.results s2.targetPaths s2.foundAtHop
          (hops + 1) := rfl

theorem batchLoopF_succ (g : Nat → List Nat) (fuel : Nat) (pc : List (Nat × Nat))
    (visited frontier : List Nat) (tIds : List (Nat × String))
    (results : List (String × Option (Nat × Option Nat))) (tps fah : List (Nat × Nat))
    (hops : Nat) :
    batchLoop g false (fuel + 1) pc visited frontier tIds results tps fah hops =
      if frontier.isEmpty ∨ tIds.isEmpty then (results, tIds)
      else
        batchLoop g false fuel
          (mergeCounts pc (frontier.foldl (batchNodeStep g false (hops + 1) pc)
            ⟨visited, [], [], tIds, results, tps, fah⟩).nextPathCount)
          (frontier.foldl (batchNodeStep g false (hops + 1) pc)
            ⟨visited, [], [], tIds, results, tps, fah⟩).visited
          (frontier.foldl (batchNodeStep g false (hops + 1) pc)
            ⟨visited, [], [], tIds, results, tps, fah⟩).nextFrontier
          (frontier.foldl (batchNodeStep g false (hops + 1) pc)
            ⟨visited, [], [], tIds, results, tps, fah⟩).targetIds
          (frontier.foldl (batchNodeStep g false (hops + 1) pc)
            ⟨visited, [], [], tIds, results, tps, fah⟩).results
          (frontier.foldl (batchNodeStep g false (hops + 1) pc)
            ⟨visited, [], [], tIds, results, tps, fah⟩).targetPaths
          (frontier.foldl (batchNodeStep g false (hops + 1) pc)
            ⟨visited, [], [], tIds, results, tps, fah⟩).foundAtHop
          (hops + 1) := rfl

/-- Correctness of the batch BFS loop without path counting: resolved
targets get their exact bounded shortest distance, unresolved targets are
outside the explored horizon, and results entries for strings that are not
pending target values are untouched. -/
theorem batchLoopF_correct (g : Nat → List Nat) (a : Nat) :
    ∀ (fuel hops : Nat) (pc : List (Nat × Nat)) (visited frontier : List Nat)
      (tIds : List (Nat × String)) (results : List (String × Option (Nat × Option Nat)))
      (tps fah : List (Nat × Nat)),
      (∀ v, v ∈ visited ↔ v ∈ ball g a hops) →
      (∀ v, v ∈ frontier ↔ sphereMem g a hops v) →
      (tIds.map Prod.fst).Nodup →
      (∀ p ∈ tIds, ∀ q ∈ tIds, p.2 = q.2 → p.1 = q.1) →
      (∀ p ∈ tIds, lookupA results p.2 = none) →
      (∀ p ∈ tIds, p.1 ∉ ball g a hops) →
      (∀ q ∈ (batchLoop g false fuel pc visited frontier tIds results tps fah hops).2,
        q ∈ tIds) ∧
      (∀ t', (∀ p ∈ tIds, p.2 ≠ t') →
        lookupA (batchLoop g false fuel pc visited frontier tIds results tps fah hops).1 t' =
          lookupA results t') ∧
      (∀ tid t, lookupA tIds tid = some t →
        (∃ d, hops < d ∧ d ≤ hops + fuel ∧ tid ∈ ball g a d ∧ (∀ j < d, tid ∉ ball g a j) ∧
          lookupA (batchLoop g false fuel pc visited frontier tIds results tps fah hops).2
            tid = none ∧
          lookupA (batchLoop g false fuel pc visited frontier tIds results tps fah hops).1
            t = some (some (d, none))) ∨
        ((∀ j, j ≤ hops + fuel → tid ∉ ball g a j) ∧
          lookupA (batchLoop g false fuel pc visited frontier tIds results tps fah hops).2
            tid = some t ∧
          lookupA (batchLoop g false fuel pc visited frontier tIds results tps fah hops).1
            t = lookupA results t)) := by
  intro fuel
  induction fuel with
  | zero =>
    intro hops pc visited frontier tIds results tps fah _ _ _ _ _ hT
    refine ⟨fun q hq => hq, fun t' _ => rfl, fun tid t ht => Or.inr ⟨?_, ht, rfl⟩⟩
    intro j hj hb
    exact hT (tid, t) (lookupA_mem ht) (ball_mono (Nat.add_zero hops ▸ hj) hb)
  | succ fuel ih =>
    intro hops pc visited frontier tIds results tps fah hv hf hK hV hD hT
    rw [batchLoopF_succ]
    by_cases hguard : frontier.isEmpty ∨ tIds.isEmpty
    · rw [if_pos hguard]
      refine ⟨fun q hq => hq, fun t' _ => rfl, fun tid t ht => Or.inr ⟨?_, ht, rfl⟩⟩
      intro j hj hb
      rcases hguard with hemp | hemp
      · have hfr : frontier = [] := List.isEmpty_iff.mp hemp
        have hsph : ∀ v, ¬ sphereMem g a hops v := by
          intro v hs
          exact absurd ((hf v).mpr hs) (by simp [hfr])
        exact hT (tid, t) (lookupA_mem ht) (ball_stabilizes hsph j tid hb)
      · have : tIds = [] := List.isEmpty_iff.mp hemp
        rw [this] at ht
        exact Option.noConfusion ht
    · rw [if_neg hguard]
      set s0 : BatchSt := ⟨visited, [], [], tIds, results, tps, fah⟩ with hs0
      set s1 : BatchSt := frontier.foldl (batchNodeStep g false (hops + 1) pc) s0 with hs1
      obtain ⟨n1, n2, n3, n4, n5, n6⟩ := nodeFoldF g (hops + 1) pc frontier s0 hK hV hD
      rw [← hs1] at n1 n2 n3 n4 n5 n6
      obtain ⟨hvis, hnext⟩ := @batchNodeFold_visited g false (hops + 1) pc frontier s0
      rw [← hs1] at hvis hnext
      have hexiff : ∀ v, (∃ u ∈ frontier, v ∈ g u) ↔
          ∃ u, sphereMem g a hops u ∧ v ∈ g u := by
        intro v
        constructor
        · rintro ⟨u, hu, hvg⟩
          exact ⟨u, (hf u).mp hu, hvg⟩
        · rintro ⟨u, hu, hvg⟩
          exact ⟨u, (hf u).mpr hu, hvg⟩
      have hv1 : ∀ v, v ∈ s1.visited ↔ v ∈ ball g a (hops + 1) := by
        intro v
        rw [hvis v, ball_succ_eq_sphere_step]
        show v ∈ visited ∨ _ ↔ _
        rw [hv v, hexiff v]
      have hf1 : ∀ v, v ∈ s1.nextFrontier ↔ sphereMem g a (hops + 1) v := by
        intro v
        rw [hnext v, sphereMem_succ]
        show v ∈ ([] : List Nat) ∨ ((∃ u ∈ frontier, v ∈ g u) ∧ v ∉ visited) ↔ _
        simp only [List.not_mem_nil, false_or]
        constructor
        · rintro ⟨hex, hnv⟩
          have hnb : v ∉ ball g a hops := fun hb => hnv ((hv v).mpr hb)
          exact ⟨ball_succ_eq_sphere_step.mpr (Or.inr ((hexiff v).mp hex)), hnb⟩
        · rintro ⟨hb1, hnb⟩
          rcases ball_succ_eq_sphere_step.mp hb1 with hb | hex
          · exact absurd hb hnb
          · exact ⟨(hexiff v).mpr hex, fun hvv => hnb ((hv v).mp hvv)⟩
      have hT1 : ∀ p ∈ s1.targetIds, p.1 ∉ ball g a (hops + 1) := by
        intro p hp hb
        have hsome := mem_lookupA_isSome hp
        rcases ball_succ_eq_sphere_step.mp hb with hb' | hex
        · exact hT p (n1 p hp) hb'
        · cases hx : lookupA (tIds) p.1 with
          | none =>
            have := mem_lookupA_isSome (n1 p hp)
            rw [show (s0.targetIds = tIds) from rfl, hx] at this
            simp at this
          | some x =>
            have hres := (n6 p.1 x (by exact hx)).1 ((hexiff p.1).mpr hex)
            rw [hres.1] at hsome
            simp at hsome
      obtain ⟨r1, r2, r3⟩ := ih (hops + 1) (mergeCounts pc s1.nextPathCount)
        s1.visited s1.nextFrontier s1.targetIds s1.results s1.targetPaths s1.foundAtHop
        hv1 hf1 n2 n3 n4 hT1
      refine ⟨fun q hq => n1 q (r1 q hq), ?_, ?_⟩
      · intro t' hprot
        have h2 := r2 t' (fun p hp => hprot p (n1 p hp))
        rw [h2, n5 t' hprot]
      · intro tid t ht
        have hmemt : (tid, t) ∈ tIds := lookupA_mem ht
        by_cases hhit : ∃ u ∈ frontier, tid ∈ g u
        · obtain ⟨k1, k2⟩ := (n6 tid t ht).1 hhit
          have hnot : ∀ p ∈ s1.targetIds, p.2 ≠ t := by
            intro p hp he
            have hp1 : p.1 = tid := hV p (n1 p hp) (tid, t) hmemt he
            have hs := mem_lookupA_isSome hp
            rw [hp1, k1] at hs
            simp at hs
          refine Or.inl ⟨hops + 1, by omega, by omega, ?_, ?_, ?_, ?_⟩
          · obtain ⟨u, hu, hgu⟩ := hhit
            exact mem_g_ball ((hf u).mp hu).1 hgu
          · intro j hj
            exact fun hb => hT (tid, t) hmemt (ball_mono (by omega) hb)
          · refine lookupA_eq_none fun q hq he => ?_
            have hs := mem_lookupA_isSome (r1 q hq)
            rw [he, k1] at hs
            simp at hs
          · exact (r2 t hnot).trans k2
        · obtain ⟨k1, k2⟩ := (n6 tid t ht).2 hhit
          rcases r3 tid t k1 with ⟨d, hd1, hd2, hmem, hmin, ho2, ho1⟩ | ⟨hall, ho2, ho1⟩
          · exact Or.inl ⟨d, by omega, by omega, hmem, hmin, ho2, ho1⟩
          · refine Or.inr ⟨fun j hj => hall j (by omega), ho2, ho1.trans k2⟩

def batchInitStep (st : Store) (f : String) (ip : Bool)
    (acc : List (Nat × String) × List (String × Option (Nat × Option Nat))) (t : String) :
    List (Nat × String) × List (String × Option (Nat × Option Nat)) :=
  if f = t then (acc.1, setA acc.2 t (some (0, if ip then some 1 else none)))
  else match getId st t with
    | some tid => (setA acc.1 tid t, acc.2)
    | none => (acc.1, setA acc.2 t none)

theorem batchInit_eq (st : Store) (f : String) (ip : Bool) (targets : List String) :
    batchInit st f ip targets = targets.foldl (batchInitStep st f ip) ([], []) := rfl

/-- Characterization of the batch prologue: self targets resolve to hop 0,
unknown targets to null, known non-self targets enter `targetIds` keyed by
their numeric id; the id/results bookkeeping invariants hold throughout. -/
theorem batchInitFold_char (st : Store) (f : String) (ip : Bool)
    (hginj : ∀ x y i, getId st x = some i → getId st y = some i → x = y) :
    ∀ (l : List String) (acc : List (Nat × String) × List (String × Option (Nat × Option Nat))),
      (∀ p ∈ acc.1, getId st p.2 = some p.1 ∧ f ≠ p.2) →
      ((acc.1.map Prod.fst).Nodup) →
      (∀ k, (lookupA acc.2 k).isSome = true → f = k ∨ getId st k = none) →
      (∀ p ∈ (l.foldl (batchInitStep st f ip) acc).1, getId st p.2 = some p.1 ∧ f ≠ p.2) ∧
      (((l.foldl (batchInitStep st f ip) acc).1.map Prod.fst).Nodup) ∧
      (∀ k, (lookupA (l.foldl (batchInitStep st f ip) acc).2 k).isSome = true →
        f = k ∨ getId st k = none) ∧
      (∀ k, k ∉ l → lookupA (l.foldl (batchInitStep st f ip) acc).2 k = lookupA acc.2 k) ∧
      (∀ i, (∀ t ∈ l, getId st t ≠ some i) →
        lookupA (l.foldl (batchInitStep st f ip) acc).1 i = lookupA acc.1 i) ∧
      (∀ t ∈ l,
        (f = t → lookupA (l.foldl (batchInitStep st f ip) acc).2 t =
          some (some (0, if ip then some 1 else none))) ∧
        (f ≠ t → getId st t = none →
          lookupA (l.foldl (batchInitStep st f ip) acc).2 t = some none) ∧
        (∀ tid, f ≠ t → getId st t = some tid →
          lookupA (l.foldl (batchInitStep st f ip) acc).1 tid = some t)) := by
  intro l
  induction l with
  | nil =>
    intro acc h1 h2 h3
    exact ⟨h1, h2, h3, fun k _ => rfl, fun i _ => rfl,
      fun t ht => absurd ht (List.not_mem_nil t)⟩
  | cons t₀ rest ih =>
    intro acc h1 h2 h3
    simp only [List.foldl_cons]
    by_cases hft : f = t₀
    · have hstep : batchInitStep st f ip acc t₀ =
          (acc.1, setA acc.2 t₀ (some (0, if ip then some 1 else none))) := by
        unfold batchInitStep
        rw [if_pos hft]
      rw [hstep]
      have h3' : ∀ k, (lookupA (setA acc.2 t₀ (some (0, if ip then some 1 else none))) k).isSome
          = true → f = k ∨ getId st k = none := by
        intro k hk
        by_cases hkt : k = t₀
        · exact Or.inl (hkt ▸ hft)
        · rw [lookupA_setA_ne _ _ _ _ hkt] at hk
          exact h3 k hk
      obtain ⟨i1, i2, i3, i4, i5, i6⟩ :=
        ih (acc.1, setA acc.2 t₀ (some (0, if ip then some 1 else none))) h1 h2 h3'
      refine ⟨i1, i2, i3, ?_, ?_, ?_⟩
      · intro k hk
        simp only [List.mem_cons, not_or] at hk
        rw [i4 k hk.2]
        exact lookupA_setA_ne _ _ _ _ hk.1
      · intro i hi
        exact i5 i (fun t ht => hi t (List.mem_cons_of_mem _ ht))
      · intro t ht
        by_cases htr : t ∈ rest
        · exact i6 t htr
        · have htt : t = t₀ := by
            rcases List.mem_cons.mp ht with he | hm
            · exact he
            · exact absurd hm htr
          subst htt
          refine ⟨fun _ => ?_, fun hft' _ => absurd hft hft',
            fun tid hft' _ => absurd hft hft'⟩
          rw [i4 t htr]
          exact lookupA_setA_self acc.2 t _
    · cases hgid : getId st t₀ with
      | none =>
        have hstep : batchInitStep st f ip acc t₀ = (acc.1, setA acc.2 t₀ none) := by
          unfold batchInitStep
          rw [if_neg hft, hgid]
        rw [hstep]
        have h3' : ∀ k, (lookupA (setA acc.2 t₀ none) k).isSome = true →
            f = k ∨ getId st k = none := by
          intro k hk
          by_cases hkt : k = t₀
          · exact Or.inr (hkt ▸ hgid)
          · rw [lookupA_setA_ne _ _ _ _ hkt] at hk
            exact h3 k hk
        obtain ⟨i1, i2, i3, i4, i5, i6⟩ := ih (acc.1, setA acc.2 t₀ none) h1 h2 h3'
        refine ⟨i1, i2, i3, ?_, ?_, ?_⟩
        · intro k hk
          simp only [List.mem_cons, not_or] at hk
          rw [i4 k hk.2]
          exact lookupA_setA_ne _ _ _ _ hk.1
        · intro i hi
          exact i5 i (fun t ht => hi t (List.mem_cons_of_mem _ ht))
        · intro t ht
          by_cases htr : t ∈ rest
          · exact i6 t htr
          · have htt : t = t₀ := by
              rcases List.mem_cons.mp ht with he | hm
              · exact he
              · exact absurd hm htr
            subst htt
            refine ⟨fun he => absurd he hft, fun _ _ => ?_, fun tid _ hg => ?_⟩
            · rw [i4 t htr]
              exact lookupA_setA_self acc.2 t none
            · rw [hgid] at hg
              exact Option.noConfusion hg
      | some tid₀ =>
        have hstep : batchInitStep st f ip acc t₀ = (setA acc.1 tid₀ t₀, acc.2) := by
          unfold batchInitStep
          rw [if_neg hft, hgid]
        rw [hstep]
        have h1' : ∀ p ∈ setA acc.1 tid₀ t₀, getId st p.2 = some p.1 ∧ f ≠ p.2 := by
          intro p hp
          rcases mem_setA hp with h' | h'
          · exact h1 p h'
          · rw [h']
            exact ⟨hgid, hft⟩
        have h2' : ((setA acc.1 tid₀ t₀).map Prod.fst).Nodup := setA_keys_nodup _ _ h2
        obtain ⟨i1, i2, i3, i4, i5, i6⟩ := ih (setA acc.1 tid₀ t₀, acc.2) h1' h2' h3
        refine ⟨i1, i2, i3, ?_, ?_, ?_⟩
        · intro k hk
          simp only [List.mem_cons, not_or] at hk
          exact i4 k hk.2
        · intro i hi
          have hne : tid₀ ≠ i := by
            intro he
            exact hi t₀ (List.mem_cons_self _ _) (he ▸ hgid)
          rw [i5 i (fun t ht => hi t (List.mem_cons_of_mem _ ht))]
          exact lookupA_setA_ne _ _ _ _ (Ne.symm hne)
        · intro t ht
          by_cases htr : t ∈ rest
          · exact i6 t htr
          · have htt : t = t₀ := by
              rcases List.mem_cons.mp ht with he | hm
              · exact he
              · exact absurd hm htr
            subst htt
            refine ⟨fun he => absurd he hft, fun _ hg => ?_, fun tid _ hg => ?_⟩
            · rw [hgid] at hg
              exact Option.noConfusion hg
            · have htid : tid₀ = tid := by
                rw [hgid] at hg
                exact (Option.some.injEq _ _).mp hg
              have h5 := i5 tid (by
                intro t' ht' he
                exact htr ((hginj t' t tid he (htid ▸ hgid)) ▸ ht'))
              rw [h5, htid]
              exact lookupA_setA_self acc.1 tid t

theorem lookupA_foldl_setA_const {α κ ν : Type} [DecidableEq κ] (f : α → κ) (v : ν) :
    ∀ (l : List α) (m : List (κ × ν)) (k : κ),
      lookupA (l.foldl (fun acc p => setA acc (f p) v) m) k =
        if k ∈ l.map f then some v else lookupA m k := by
  intro l
  induction l with
  | nil =>
    intro m k
    rw [if_neg (by simp)]
    rfl
  | cons p rest ih =>
    intro m k
    simp only [List.foldl_cons, List.map_cons, List.mem_cons]
    rw [ih]
    by_cases hk : k ∈ rest.map f
    · rw [if_pos hk, if_pos (Or.inr hk)]
    · rw [if_neg hk]
      by_cases hkp : k = f p
      · rw [if_pos (Or.inl hkp), hkp, lookupA_setA_self]
      · rw [if_neg (by tauto), lookupA_setA_ne _ _ _ _ hkp]

theorem getDistancesBatch_known (st : Store) (f : String) (targets : List String)
    (maxHops : Nat) (ip : Bool) (fid : Nat) (h : getId st f = some fid) :
    getDistancesBatch st f targets maxHops ip =
      (if (batchInit st f ip targets).1.isEmpty then (batchInit st f ip targets).2
       else
         ((batchLoop (storeG st) ip maxHops (if ip then [(fid, 1)] else []) [fid] [fid]
            (batchInit st f ip targets).1 (batchInit st f ip targets).2 [] [] 0).2).foldl
           (fun acc p => setA acc p.2 none)
           (batchLoop (storeG st) ip maxHops (if ip then [(fid, 1)] else []) [fid] [fid]
            (batchInit st f ip targets).1 (batchInit st f ip targets).2 [] [] 0).1) := by
  unfold getDistancesBatch
  rw [h]

theorem getDistancesBatch_unknown (st : Store) (f : String) (targets : List String)
    (maxHops : Nat) (ip : Bool) (h : getId st f = none) :
    getDistancesBatch st f targets maxHops ip =
      targets.foldl (fun acc t => setA acc t none) [] := by
  unfold getDistancesBatch
  rw [h]

/-- C2 (amended): without path counting and with a known `from` identity,
the batch resolver agrees with the individual `getDistance` calls on every
listed target — self targets resolve to hop 0, unknown and unreached
targets to null, reachable ones to their bounded shortest distance.  (With
an unknown `from`, every target resolves to null even a self target that
`getDistance` maps to 0; with `includePaths`, the paths entry can differ
from `getDistanceInfo` — both refuted separately.) -/
theorem getDistancesBatch_amended (st : Store) (f : String) (targets : List String)
    (maxHops : Nat) (hinv : StoreInv st) :
    (∀ fid, getId st f = some fid → ∀ t ∈ targets,
      lookupA (getDistancesBatch st f targets maxHops false) t =
        some ((getDistance st f t maxHops).map fun d => (d, none))) ∧
    (getId st f = none → ∀ t ∈ targets,
      lookupA (getDistancesBatch st f targets maxHops false) t = some none ∧
      (f ≠ t → getDistance st f t maxHops = none)) := by
  constructor
  · intro fid hfid t ht
    have hginj : ∀ x y i, getId st x = some i → getId st y = some i → x = y :=
      fun x y i hx hy => getId_injective hinv hx hy
    obtain ⟨I1, I2, I3, I4, I5, I6⟩ := batchInitFold_char st f false hginj targets ([], [])
      (by intro p hp; exact absurd hp (List.not_mem_nil p))
      (by simp)
      (by intro k hk; simp [lookupA] at hk)
    rw [← batchInit_eq] at I1 I2 I3 I4 I5 I6
    have hV : ∀ p ∈ (batchInit st f false targets).1,
        ∀ q ∈ (batchInit st f false targets).1, p.2 = q.2 → p.1 = q.1 := by
      intro p hp q hq he
      have h1 := (I1 p hp).1
      have h2 := (I1 q hq).1
      rw [he] at h1
      exact (Option.some.injEq _ _).mp (h1.symm.trans h2)
    have hD : ∀ p ∈ (batchInit st f false targets).1,
        lookupA (batchInit st f false targets).2 p.2 = none := by
      intro p hp
      cases hlk : lookupA (batchInit st f false targets).2 p.2 with
      | none => rfl
      | some x =>
        exfalso
        rcases I3 p.2 (by rw [hlk]; rfl) with h | h
        · exact (I1 p hp).2 h
        · rw [(I1 p hp).1] at h
          exact Option.noConfusion h
    have hT : ∀ p ∈ (batchInit st f false targets).1,
        p.1 ∉ ball (storeG st) fid 0 := by
      intro p hp hb
      simp [ball] at hb
      have hgid := (I1 p hp).1
      have heq : p.2 = f := getId_injective hinv (hb ▸ hgid) hfid
      exact (I1 p hp).2 heq.symm
    rw [getDistancesBatch_known st f targets maxHops false fid hfid]
    by_cases hemp : (batchInit st f false targets).1.isEmpty
    · rw [if_pos hemp]
      have hnil : (batchInit st f false targets).1 = [] := List.isEmpty_iff.mp hemp
      by_cases hft : f = t
      · have hlk := (I6 t ht).1 hft
        have hgd : getDistance st f t maxHops = some 0 := by
          unfold getDistance getDistanceInfo
          rw [if_pos hft]
          rfl
        rw [hlk, hgd]
        rfl
      · cases hgt : getId st t with
        | none =>
          have hlk := (I6 t ht).2.1 hft hgt
          have hgd : getDistance st f t maxHops = none := by
            unfold getDistance getDistanceInfo
            rw [if_neg hft, hfid, hgt]
            rfl
          rw [hlk, hgd]
          rfl
        | some tid =>
          exfalso
          have hlk := (I6 t ht).2.2 tid hft hgt
          rw [hnil] at hlk
          exact Option.noConfusion hlk
    · rw [if_neg hemp]
      obtain ⟨b1, b2, b3⟩ := batchLoopF_correct (storeG st) fid maxHops 0
        (if false then [(fid, 1)] else []) [fid] [fid]
        (batchInit st f false targets).1 (batchInit st f false targets).2 [] []
        (by intro v; simp [ball]) (by intro v; simp [sphereMem_zero]) I2 hV hD hT
      rw [lookupA_foldl_setA_const Prod.snd (none : Option (Nat × Option Nat))]
      by_cases hft : f = t
      · have hnm : t ∉ (batchLoop (storeG st) false maxHops
            (if false then [(fid, 1)] else []) [fid] [fid]
            (batchInit st f false targets).1 (batchInit st f false targets).2
            [] [] 0).2.map Prod.snd := by
          intro hm
          obtain ⟨p, hp, hpt⟩ := List.mem_map.mp hm
          exact (I1 p (b1 p hp)).2 (hft.trans hpt.symm)
        rw [if_neg hnm]
        have hpres := b2 t (fun p hp he => (I1 p hp).2 (hft.trans he.symm))
        have hlk := (I6 t ht).1 hft
        have hgd : getDistance st f t maxHops = some 0 := by
          unfold getDistance getDistanceInfo
          rw [if_pos hft]
          rfl
        rw [hpres, hlk, hgd]
        rfl
      · cases hgt : getId st t with
        | none =>
          have hnm : t ∉ (batchLoop (storeG st) false maxHops
              (if false then [(fid, 1)] else []) [fid] [fid]
              (batchInit st f false targets).1 (batchInit st f false targets).2
              [] [] 0).2.map Prod.snd := by
            intro hm
            obtain ⟨p, hp, hpt⟩ := List.mem_map.mp hm
            have hgid := (I1 p (b1 p hp)).1
            rw [hpt, hgt] at hgid
            exact Option.noConfusion hgid
          rw [if_neg hnm]
          have hpres := b2 t (by
            intro p hp he
            have hgid := (I1 p hp).1
            rw [he, hgt] at hgid
            exact Option.noConfusion hgid)
          have hlk := (I6 t ht).2.1 hft hgt
          have hgd : getDistance st f t maxHops = none := by
            unfold getDistance getDistanceInfo
            rw [if_neg hft, hfid, hgt]
            rfl
          rw [hpres, hlk, hgd]
          rfl
        | some tid =>
          have hlkinit := (I6 t ht).2.2 tid hft hgt
          have hgds := getDistance_eq_specMinDist st f t maxHops hinv fid tid hft hfid hgt
          rcases b3 tid t hlkinit with ⟨d, hd0, hdm, hmem, hmin, ho2, ho1⟩ |
            ⟨hall, ho2, ho1⟩
          · have hnm : t ∉ (batchLoop (storeG st) false maxHops
                (if false then [(fid, 1)] else []) [fid] [fid]
                (batchInit st f false targets).1 (batchInit st f false targets).2
                [] [] 0).2.map Prod.snd := by
              intro hm
              obtain ⟨p, hp, hpt⟩ := List.mem_map.mp hm
              have hp1 : p.1 = tid := hV p (b1 p hp) (tid, t) (lookupA_mem hlkinit) hpt
              have hs := mem_lookupA_isSome hp
              rw [hp1, ho2] at hs
              simp at hs
            rw [if_neg hnm, ho1]
            have hspec : specMinDist (storeG st) fid tid maxHops = some d :=
              specMinDist_eq_some.mpr ⟨by omega, hmem, hmin⟩
            rw [hgds.trans hspec]
            rfl
          · have hm : t ∈ (batchLoop (storeG st) false maxHops
                (if false then [(fid, 1)] else []) [fid] [fid]
                (batchInit st f false targets).1 (batchInit st f false targets).2
                [] [] 0).2.map Prod.snd :=
              List.mem_map_of_mem Prod.snd (lookupA_mem ho2)
            rw [if_pos hm]
            have hspec : specMinDist (storeG st) fid tid maxHops = none :=
              specMinDist_eq_none.mpr (fun j hj => hall j (by omega))
            rw [hgds.trans hspec]
            rfl
  · intro hnone t ht
    rw [getDistancesBatch_unknown st f targets maxHops false hnone]
    constructor
    · have hres := lookupA_foldl_setA_const (fun x : String => x)
        (none : Option (Nat × Option Nat)) targets [] t
      rw [if_pos (by simpa using ht)] at hres
      exact hres
    · intro hft
      unfold getDistance getDistanceInfo
      rw [if_neg hft, hnone]
      cases getId st t <;> rfl

/-- Witness for the amended C2 on the spec's example store. -/
theorem getDistancesBatch_amended_witness :
    (∀ fid, getId exampleStore "R" = some fid → ∀ t ∈ ["A", "B", "T", "R", "Z"],
      lookupA (getDistancesBatch exampleStore "R" ["A", "B", "T", "R", "Z"] 3 false) t =
        some ((getDistance exampleStore "R" t 3).map fun d => (d, none))) ∧
    (getId exampleStore "R" = none → ∀ t ∈ ["A", "B", "T", "R", "Z"],
      lookupA (getDistancesBatch exampleStore "R" ["A", "B", "T", "R", "Z"] 3 false) t =
        some none ∧
      ("R" ≠ t → getDistance exampleStore "R" t 3 = none)) :=
  getDistancesBatch_amended exampleStore "R" ["A", "B", "T", "R", "Z"] 3 (by decide)

/-- C2 counterexample: with `includePaths`, the batch paths entry (2 on the
diamond graph) differs from `getDistanceInfo`'s paths (1); and with an
unknown `from`, a self target resolves to null although `getDistance`
returns 0 for it. -/
theorem getDistancesBatch_cex :
    (lookupA (getDistancesBatch diamondStore "R" ["T"] 6 true) "T" =
        some (some (3, some 2)) ∧
      getDistanceInfo diamondStore "R" "T" 6 = some (3, 1)) ∧
    (lookupA (getDistancesBatch exampleStore "X" ["X"] 3 false) "X" = some none ∧
      getDistance exampleStore "X" "X" 3 = some 0) :=
  ⟨⟨rfl, rfl⟩, ⟨rfl, rfl⟩⟩

/-! ## `getPath` (`LocalGraph`, `src/unnamed/part_003` lines 223-282)

BFS with parent tracking; the mid-level `break` on discovery is modelled
by a `found` guard that turns the remaining steps of the level into
no-ops.  Reconstruction walks the parent chain from `toId` back to the
root (`null` parent), with fuel standing in for the JS unbounded loop. -/

structure PathSt where
  visited : List Nat
  nextFrontier : List Nat
  parent : List (Nat × Option Nat)
  found : Bool
  deriving Repr, DecidableEq

def pathEdgeStep (toId u : Nat) (s : PathSt) (v : Nat) : PathSt :=
  if s.found then s
  else if v ∉ s.visited then
    if v = toId then
      { s with
        visited := s.visited ++ [v]
        parent := setA s.parent v (some u)
        found := true }
    else
      { s with
        visited := s.visited ++ [v]
        parent := setA s.parent v (some u)
        nextFrontier := s.nextFrontier ++ [v] }
  else s

def pathNodeStep (g : Nat → List Nat) (toId : Nat) (s : PathSt) (u : Nat) : PathSt :=
  if s.found then s else (g u).foldl (pathEdgeStep toId u) s

def pathLevel (g : Nat → List Nat) (toId : Nat) (parent : List (Nat × Option Nat))
    (visited frontier : List Nat) : PathSt :=
  frontier.foldl (pathNodeStep g toId) ⟨visited, [], parent, false⟩

def pathLoop (g : Nat → List Nat) (toId : Nat) :
    Nat → List (Nat × Option Nat) → List Nat → List Nat →
    Option (List (Nat × Option Nat))
  | 0, _, _, _ => none
  | fuel + 1, parent, visited, frontier =>
    if frontier.isEmpty then none
    else
      let s := pathLevel g toId parent visited frontier
      if s.found then some s.parent
      else pathLoop g toId fuel s.parent s.visited s.nextFrontier

/-- `while (current !== null) { pathIds.unshift(current); current =
parent.get(current); }`, with fuel for the walk length. -/
def walkParent (parent : List (Nat × Option Nat)) : Nat → Nat → List Nat
  | 0, cur => [cur]
  | fuel + 1, cur =>
    match lookupA parent cur with
    | some (some p) => walkParent parent fuel p ++ [cur]
    | _ => [cur]

/-- `getPath(from, to, maxHops)`: a pubkey list (entries looked up through
the id-to-pubkey map, hence `Option`) or null. -/
def getPath (st : Store) (f t : String) (maxHops : Nat) : Option (List (Option String)) :=
  if f = t then some [some f]
  else
    match getId st f, getId st t with
    | some fromId, some toId =>
      (pathLoop (storeG st) toId maxHops [(fromId, none)] [fromId] [fromId]).map
        (fun parent => (walkParent parent maxHops toId).map (getPubkey st))
    | _, _ => none

/-- A follow edge of the stored graph between two identities. -/
def followsEdgeP (st : Store) (x y : String) : Prop :=
  ∃ i j, getId st x = some i ∧ getId st y = some j ∧ j ∈ storeG st i

/-- The parent map built by the path BFS: the root maps to `null`, every
other entry points to a node one sphere closer to the root along a follow
edge, and parents themselves carry entries. -/
def ParentInv (g : Nat → List Nat) (a : Nat) (parent : List (Nat × Option Nat)) : Prop :=
  lookupA parent a = some none ∧
  (∀ v, lookupA parent v = some none → v = a) ∧
  (∀ v u, lookupA parent v = some (some u) → v ∈ g u ∧
    ∃ d, sphereMem g a d u ∧ sphereMem g a (d + 1) v) ∧
  (∀ v u, lookupA parent v = some (some u) → (lookupA parent u).isSome)

theorem pathEdgeStep_found {toId u : Nat} {s : PathSt} (h : s.found = true) (v : Nat) :
    pathEdgeStep toId u s v = s := by
  unfold pathEdgeStep
  rw [if_pos h]

theorem pathEdgeStep_target {toId u : Nat} {s : PathSt} (hnf : s.found = false) {v : Nat}
    (hnv : v ∉ s.visited) (hv : v = toId) :
    pathEdgeStep toId u s v =
      { s with
        visited := s.visited ++ [v]
        parent := setA s.parent v (some u)
        found := true } := by
  unfold pathEdgeStep
  rw [if_neg (by rw [hnf]; exact Bool.false_ne_true), if_pos hnv, if_pos hv]

theorem pathEdgeStep_expand {toId u : Nat} {s : PathSt} (hnf : s.found = false) {v : Nat}
    (hnv : v ∉ s.visited) (hv : v ≠ toId) :
    pathEdgeStep toId u s v =
      { s with
        visited := s.visited ++ [v]
        parent := setA s.parent v (some u)
        nextFrontier := s.nextFrontier ++ [v] } := by
  unfold pathEdgeStep
  rw [if_neg (by rw [hnf]; exact Bool.false_ne_true), if_pos hnv, if_neg hv]

theorem pathEdgeStep_skip {toId u : Nat} {s : PathSt} (hnf : s.found = false) {v : Nat}
    (hnv : ¬ v ∉ s.visited) : pathEdgeStep toId u s v = s := by
  unfold pathEdgeStep
  rw [if_neg (by rw [hnf]; exact Bool.false_ne_true), if_neg hnv]

theorem pathEdgeStep_found_mono {toId u : Nat} {s : PathSt} {v : Nat}
    (h : s.found = true) : (pathEdgeStep toId u s v).found = true := by
  rw [pathEdgeStep_found h v]
  exact h

theorem pathEdgeFold_of_found {toId u : Nat} :
    ∀ (l : List Nat) {s : PathSt}, s.found = true →
      l.foldl (pathEdgeStep toId u) s = s := by
  intro l
  induction l with
  | nil => exact fun _ => rfl
  | cons v rest ih =>
    intro s h
    simp only [List.foldl_cons, pathEdgeStep_found h]
    exact ih h

theorem pathEdgeFold_found_mono {toId u : Nat} {l : List Nat} {s : PathSt}
    (h : s.found = true) : (l.foldl (pathEdgeStep toId u) s).found = true := by
  rw [pathEdgeFold_of_found l h]
  exact h

/-- Master bookkeeping lemma for one follow list in the path BFS: parent
entries are only ever added (for newly visited nodes, pointing at the
current frontier node), never overwritten, and discovery of the target
leaves it a parent entry. -/
theorem pathEdgeFold (toId u : Nat) :
    ∀ (l : List Nat) (s : PathSt),
      (∀ v, (lookupA s.parent v).isSome = true → v ∈ s.visited) →
      (∀ w ∈ s.visited, (lookupA s.parent w).isSome = true) →
      (∀ w ∈ s.visited, w ∈ (l.foldl (pathEdgeStep toId u) s).visited) ∧
      (∀ v, (lookupA s.parent v).isSome = true →
        lookupA (l.foldl (pathEdgeStep toId u) s).parent v = lookupA s.parent v) ∧
      (∀ v pv, lookupA (l.foldl (pathEdgeStep toId u) s).parent v = some pv →
        lookupA s.parent v = some pv ∨ (pv = some u ∧ v ∈ l ∧ v ∉ s.visited)) ∧
      (∀ v, (lookupA (l.foldl (pathEdgeStep toId u) s).parent v).isSome = true →
        v ∈ (l.foldl (pathEdgeStep toId u) s).visited) ∧
      (∀ w ∈ (l.foldl (pathEdgeStep toId u) s).visited,
        (lookupA (l.foldl (pathEdgeStep toId u) s).parent w).isSome = true) ∧
      ((l.foldl (pathEdgeStep toId u) s).found = true → s.found = true ∨
        ((lookupA (l.foldl (pathEdgeStep toId u) s).parent toId).isSome = true ∧
          toId ∉ s.visited)) := by
  intro l
  induction l with
  | nil =>
    intro s hkeys hcov
    exact ⟨fun w hw => hw, fun v _ => rfl, fun v pv h => Or.inl h, hkeys, hcov,
      fun h => Or.inl h⟩
  | cons v rest ih =>
    intro s hkeys hcov
    simp only [List.foldl_cons]
    by_cases hsf : s.found = true
    · rw [pathEdgeStep_found hsf]
      obtain ⟨i1, i2, i3, i4, i5, i6⟩ := ih s hkeys hcov
      refine ⟨i1, i2, ?_, i4, i5, fun _ => Or.inl hsf⟩
      intro v' pv h
      rcases i3 v' pv h with h' | h'
      · exact Or.inl h'
      · exact Or.inr ⟨h'.1, List.mem_cons_of_mem _ h'.2.1, h'.2.2⟩
    · have hnf : s.found = false := Bool.not_eq_true _ ▸ hsf
      by_cases hvv : v ∉ s.visited
      · have hkeys' : ∀ x, (lookupA (setA s.parent v (some u)) x).isSome = true →
            x ∈ s.visited ++ [v] := by
          intro x hx
          by_cases hxv : x = v
          · simp [hxv]
          · rw [lookupA_setA_ne _ _ _ _ hxv] at hx
            exact List.mem_append_left _ (hkeys x hx)
        have hcov' : ∀ w ∈ s.visited ++ [v],
            (lookupA (setA s.parent v (some u)) w).isSome = true := by
          intro w hw
          rcases List.mem_append.mp hw with h' | h'
          · have hwv : w ≠ v := fun he => hvv (he ▸ h')
            rw [lookupA_setA_ne _ _ _ _ hwv]
            exact hcov w h'
          · have hwv : w = v := List.mem_singleton.mp h'
            rw [hwv, lookupA_setA_self]
            rfl
        have hpres : ∀ (s' : PathSt), s'.parent = setA s.parent v (some u) →
            s'.visited = s.visited ++ [v] →
            (∀ x, (lookupA s'.parent x).isSome = true → x ∈ s'.visited) ∧
            (∀ w ∈ s'.visited, (lookupA s'.parent w).isSome = true) := by
          intro s' hp hv'
          rw [hp, hv']
          exact ⟨hkeys', hcov'⟩
        by_cases hvt : v = toId
        · rw [pathEdgeStep_target hnf hvv hvt]
          set s' : PathSt :=
            { s with
              visited := s.visited ++ [v]
              parent := setA s.parent v (some u)
              found := true } with hs'
          obtain ⟨hk', hc'⟩ := hpres s' rfl rfl
          obtain ⟨i1, i2, i3, i4, i5, i6⟩ := ih s' hk' hc'
          refine ⟨?_, ?_, ?_, i4, i5, fun _ => Or.inr ⟨?_, hvt ▸ hvv⟩⟩
          · intro w hw
            exact i1 w (List.mem_append_left _ hw)
          · intro x hx
            have hxv : x ≠ v := fun he => hvv (he ▸ hkeys x hx)
            have hx' : (lookupA s'.parent x).isSome = true := by
              show (lookupA (setA s.parent v (some u)) x).isSome = true
              rw [lookupA_setA_ne _ _ _ _ hxv]
              exact hx
            rw [i2 x hx']
            show lookupA (setA s.parent v (some u)) x = _
            rw [lookupA_setA_ne _ _ _ _ hxv]
          · intro x pv h
            rcases i3 x pv h with h' | h'
            · show _ ∨ _
              by_cases hxv : x = v
              · subst hxv
                have : pv = some u := by
                  have := h'
                  rw [show s'.parent = setA s.parent x (some u) from rfl,
                    lookupA_setA_self] at this
                  exact ((Option.some.injEq _ _).mp this).symm
                exact Or.inr ⟨this, List.mem_cons_self _ _, hvv⟩
              · left
                rw [show s'.parent = setA s.parent v (some u) from rfl,
                  lookupA_setA_ne _ _ _ _ hxv] at h'
                exact h'
            · exact Or.inr ⟨h'.1, List.mem_cons_of_mem _ h'.2.1,
                fun hx => h'.2.2 (List.mem_append_left _ hx)⟩
          · have hsome' : (lookupA s'.parent toId).isSome = true := by
              show (lookupA (setA s.parent v (some u)) toId).isSome = true
              rw [← hvt, lookupA_setA_self]
              rfl
            rw [i2 toId hsome']
            exact hsome'
        · rw [pathEdgeStep_expand hnf hvv hvt]
          set s' : PathSt :=
            { s with
              visited := s.visited ++ [v]
              parent := setA s.parent v (some u)
              nextFrontier := s.nextFrontier ++ [v] } with hs'
          obtain ⟨hk', hc'⟩ := hpres s' rfl rfl
          obtain ⟨i1, i2, i3, i4, i5, i6⟩ := ih s' hk' hc'
          refine ⟨?_, ?_, ?_, i4, i5, ?_⟩
          · intro w hw
            exact i1 w (List.mem_append_left _ hw)
          · intro x hx
            have hxv : x ≠ v := fun he => hvv (he ▸ hkeys x hx)
            have hx' : (lookupA s'.parent x).isSome = true := by
              show (lookupA (setA s.parent v (some u)) x).isSome = true
              rw [lookupA_setA_ne _ _ _ _ hxv]
              exact hx
            rw [i2 x hx']
            show lookupA (setA s.parent v (some u)) x = _
            rw [lookupA_setA_ne _ _ _ _ hxv]
          · intro x pv h
            rcases i3 x pv h with h' | h'
            · show _ ∨ _
              by_cases hxv : x = v
              · subst hxv
                have : pv = some u := by
                  have := h'
                  rw [show s'.parent = setA s.parent x (some u) from rfl,
                    lookupA_setA_self] at this
                  exact ((Option.some.injEq _ _).mp this).symm
                exact Or.inr ⟨this, List.mem_cons_self _ _, hvv⟩
              · left
                rw [show s'.parent = setA s.parent v (some u) from rfl,
                  lookupA_setA_ne _ _ _ _ hxv] at h'
                exact h'
            · exact Or.inr ⟨h'.1, List.mem_cons_of_mem _ h'.2.1,
                fun hx => h'.2.2 (List.mem_append_left _ hx)⟩
          · intro hfnd
            rcases i6 hfnd with h' | h'
            · exact absurd h' (by
                show ¬ (s.found = true)
                rw [hnf]
                exact Bool.false_ne_true)
            · refine Or.inr ⟨h'.1, fun hx => h'.2 (List.mem_append_left _ hx)⟩
      · rw [pathEdgeStep_skip hnf hvv]
        obtain ⟨i1, i2, i3, i4, i5, i6⟩ := ih s hkeys hcov
        refine ⟨i1, i2, ?_, i4, i5, ?_⟩
        · intro v' pv h
          rcases i3 v' pv h with h' | h'
          · exact Or.inl h'
          · exact Or.inr ⟨h'.1, List.mem_cons_of_mem _ h'.2.1, h'.2.2⟩
        · intro hfnd
          rcases i6 hfnd with h' | h'
          · exact Or.inl h'
          · exact Or.inr h'

/-- A follow list fold that does not find the target expands visited and
next frontier exactly like plain BFS, and the target is not among the
follows of this node (unless it was already visited). -/
theorem pathEdgeFold_nf {toId u : Nat} :
    ∀ (l : List Nat) (s : PathSt),
      (l.foldl (pathEdgeStep toId u) s).found = false →
      s.found = false ∧
      (toId ∉ s.visited → toId ∉ l) ∧
      (∀ w, w ∈ (l.foldl (pathEdgeStep toId u) s).visited ↔ w ∈ s.visited ∨ w ∈ l) ∧
      (∀ w, w ∈ (l.foldl (pathEdgeStep toId u) s).nextFrontier ↔
        w ∈ s.nextFrontier ∨ (w ∈ l ∧ w ∉ s.visited)) := by
  intro l
  induction l with
  | nil => exact fun s h => ⟨h, fun _ => by simp, by simp, by simp⟩
  | cons v rest ih =>
    intro s hFnf
    simp only [List.foldl_cons] at hFnf ⊢
    have hsf : s.found = false := by
      by_contra hc
      rw [pathEdgeFold_found_mono (pathEdgeStep_found_mono (Bool.not_eq_false _ |>.mp hc))]
        at hFnf
      exact Bool.noConfusion hFnf
    have hnotboth : ¬ (v ∉ s.visited ∧ v = toId) := by
      rintro ⟨h1, h2⟩
      have : (pathEdgeStep toId u s v).found = true := by
        rw [pathEdgeStep_target hsf h1 h2]
      rw [pathEdgeFold_found_mono this] at hFnf
      exact Bool.noConfusion hFnf
    by_cases hvv : v ∉ s.visited
    · have hvt : v ≠ toId := fun he => hnotboth ⟨hvv, he⟩
      rw [pathEdgeStep_expand hsf hvv hvt] at hFnf ⊢
      obtain ⟨-, htoid, hvis, hnext⟩ := ih _ hFnf
      refine ⟨hsf, ?_, ?_, ?_⟩
      · intro hto
        have hto' : toId ∉ s.visited ++ [v] := by
          intro hm
          rcases List.mem_append.mp hm with h' | h'
          · exact hto h'
          · exact hvt (List.mem_singleton.mp h').symm
        have := htoid hto'
        simp only [List.mem_cons, not_or]
        exact ⟨fun he => hvt he.symm, this⟩
      · intro w
        rw [hvis w]
        show w ∈ s.visited ++ [v] ∨ _ ↔ _
        simp only [List.mem_append, List.mem_singleton, List.mem_cons]
        tauto
      · intro w
        rw [hnext w]
        show w ∈ s.nextFrontier ++ [v] ∨ (w ∈ rest ∧ w ∉ s.visited ++ [v]) ↔ _
        simp only [List.mem_append, List.mem_singleton, List.mem_cons, List.not_mem_nil,
          or_false, not_or]
        constructor
        · rintro ((h | h) | ⟨h1, h2, h3⟩)
          · exact Or.inl h
          · exact Or.inr ⟨Or.inl h, h ▸ hvv⟩
          · exact Or.inr ⟨Or.inr h1, h2⟩
        · rintro (h | ⟨h1 | h1, h2⟩)
          · exact Or.inl (Or.inl h)
          · exact Or.inl (Or.inr h1)
          · by_cases hwv : w = v
            · exact Or.inl (Or.inr hwv)
            · exact Or.inr ⟨h1, h2, hwv⟩
    · rw [pathEdgeStep_skip hsf hvv] at hFnf ⊢
      obtain ⟨-, htoid, hvis, hnext⟩ := ih _ hFnf
      have hvvis : v ∈ s.visited := not_not.mp hvv
      refine ⟨hsf, ?_, ?_, ?_⟩
      · intro hto
        have := htoid hto
        simp only [List.mem_cons, not_or]
        exact ⟨fun he => hto (he ▸ hvvis), this⟩
      · intro w
        rw [hvis w]
        simp only [List.mem_cons]
        constructor
        · rintro (h | h)
          · exact Or.inl h
          · exact Or.inr (Or.inr h)
        · rintro (h | h | h)
          · exact Or.inl h
          · exact Or.inl (h ▸ hvvis)
          · exact Or.inr h
      · intro w
        rw [hnext w]
        simp only [List.mem_cons]
        constructor
        · rintro (h | ⟨h1, h2⟩)
          · exact Or.inl h
          · exact Or.inr ⟨Or.inr h1, h2⟩
        · rintro (h | ⟨h1 | h1, h2⟩)
          · exact Or.inl h
          · exact absurd (h1 ▸ hvvis) h2
          · exact Or.inr ⟨h1, h2⟩

theorem pathNodeFold_of_found {g : Nat → List Nat} {toId : Nat} :
    ∀ (frontier : List Nat) {s : PathSt}, s.found = true →
      frontier.foldl (pathNodeStep g toId) s = s := by
  intro frontier
  induction frontier with
  | nil => exact fun _ => rfl
  | cons u rest ih =>
    intro s h
    have hstep : pathNodeStep g toId s u = s := by
      unfold pathNodeStep
      rw [if_pos h]
    simp only [List.foldl_cons, hstep]
    exact ih h

theorem pathNodeStep_notFound {g : Nat → List Nat} {toId : Nat} {s : PathSt} {u : Nat}
    (h : s.found = false) :
    pathNodeStep g toId s u = (g u).foldl (pathEdgeStep toId u) s := by
  unfold pathNodeStep
  rw [if_neg (by rw [h]; exact Bool.false_ne_true)]

/-- Master bookkeeping lemma for one whole path BFS level. -/
theorem pathNodeFold (g : Nat → List Nat) (toId : Nat) :
    ∀ (frontier : List Nat) (s : PathSt),
      (∀ v, (lookupA s.parent v).isSome = true → v ∈ s.visited) →
      (∀ w ∈ s.visited, (lookupA s.parent w).isSome = true) →
      (∀ w ∈ s.visited, w ∈ (frontier.foldl (pathNodeStep g toId) s).visited) ∧
      (∀ v, (lookupA s.parent v).isSome = true →
        lookupA (frontier.foldl (pathNodeStep g toId) s).parent v = lookupA s.parent v) ∧
      (∀ v pv, lookupA (frontier.foldl (pathNodeStep g toId) s).parent v = some pv →
        lookupA s.parent v = some pv ∨
          (∃ u ∈ frontier, pv = some u ∧ v ∈ g u ∧ v ∉ s.visited)) ∧
      (∀ v, (lookupA (frontier.foldl (pathNodeStep g toId) s).parent v).isSome = true →
        v ∈ (frontier.foldl (pathNodeStep g toId) s).visited) ∧
      (∀ w ∈ (frontier.foldl (pathNodeStep g toId) s).visited,
        (lookupA (frontier.foldl (pathNodeStep g toId) s).parent w).isSome = true) ∧
      ((frontier.foldl (pathNodeStep g toId) s).found = true → s.found = true ∨
        ((lookupA (frontier.foldl (pathNodeStep g toId) s).parent toId).isSome = true ∧
          toId ∉ s.visited)) := by
  intro frontier
  induction frontier with
  | nil =>
    intro s hkeys hcov
    exact ⟨fun w hw => hw, fun v _ => rfl, fun v pv h => Or.inl h, hkeys, hcov,
      fun h => Or.inl h⟩
  | cons u rest ih =>
    intro s hkeys hcov
    simp only [List.foldl_cons]
    by_cases hsf : s.found = true
    · have hstep : pathNodeStep g toId s u = s := by
        unfold pathNodeStep
        rw [if_pos hsf]
      rw [hstep]
      obtain ⟨i1, i2, i3, i4, i5, i6⟩ := ih s hkeys hcov
      refine ⟨i1, i2, ?_, i4, i5, fun _ => Or.inl hsf⟩
      intro v pv h
      rcases i3 v pv h with h' | h'
      · exact Or.inl h'
      · obtain ⟨u', hu', rest'⟩ := h'
        exact Or.inr ⟨u', List.mem_cons_of_mem _ hu', rest'⟩
    · have hnf : s.found = false := Bool.not_eq_true _ ▸ hsf
      rw [pathNodeStep_notFound hnf]
      obtain ⟨e1, e2, e3, e4, e5, e6⟩ := pathEdgeFold toId u (g u) s hkeys hcov
      obtain ⟨i1, i2, i3, i4, i5, i6⟩ := ih ((g u).foldl (pathEdgeStep toId u) s) e4 e5
      refine ⟨?_, ?_, ?_, i4, i5, ?_⟩
      · intro w hw
        exact i1 w (e1 w hw)
      · intro v hv
        rw [i2 v (by rw [e2 v hv]; exact hv), e2 v hv]
      · intro v pv h
        rcases i3 v pv h with h' | h'
        · rcases e3 v pv h' with h'' | h''
          · exact Or.inl h''
          · exact Or.inr ⟨u, List.mem_cons_self _ _, h''⟩
        · obtain ⟨u', hu', hpv, hvg, hnv⟩ := h'
          exact Or.inr ⟨u', List.mem_cons_of_mem _ hu', hpv, hvg,
            fun hx => hnv (e1 v hx)⟩
      · intro hfnd
        rcases i6 hfnd with h' | h'
        · rcases e6 h' with h'' | h''
          · exact Or.inl h''
          · refine Or.inr ⟨?_, h''.2⟩
            rw [i2 toId h''.1]
            exact h''.1
        · refine Or.inr ⟨h'.1, fun hx => h'.2 (e1 toId hx)⟩

theorem pathNodeFold_found_mono {g : Nat → List Nat} {toId : Nat} {frontier : List Nat}
    {s : PathSt} (h : s.found = true) :
    (frontier.foldl (pathNodeStep g toId) s).found = true := by
  rw [pathNodeFold_of_found frontier h]
  exact h

/-- A path BFS level that does not find the target expands exactly like
plain BFS, and the target is not followed by any frontier node. -/
theorem pathNodeFold_nf {g : Nat → List Nat} {toId : Nat} :
    ∀ (frontier : List Nat) (s : PathSt),
      (frontier.foldl (pathNodeStep g toId) s).found = false →
      s.found = false ∧
      (toId ∉ s.visited → ∀ u ∈ frontier, toId ∉ g u) ∧
      (∀ w, w ∈ (frontier.foldl (pathNodeStep g toId) s).visited ↔
        w ∈ s.visited ∨ ∃ u ∈ frontier, w ∈ g u) ∧
      (∀ w, w ∈ (frontier.foldl (pathNodeStep g toId) s).nextFrontier ↔
        w ∈ s.nextFrontier ∨ ((∃ u ∈ frontier, w ∈ g u) ∧ w ∉ s.visited)) := by
  intro frontier
  induction frontier with
  | nil => exact fun s h => ⟨h, fun _ u hu => absurd hu (List.not_mem_nil u), by simp, by simp⟩
  | cons u rest ih =>
    intro s hFnf
    simp only [List.foldl_cons] at hFnf ⊢
    have hsf : s.found = false := by
      by_contra hc
      have h1 : (pathNodeStep g toId s u).found = true := by
        unfold pathNodeStep
        rw [if_pos (Bool.not_eq_false _ |>.mp hc)]
        exact Bool.not_eq_false _ |>.mp hc
      rw [pathNodeFold_found_mono h1] at hFnf
      exact Bool.noConfusion hFnf
    rw [pathNodeStep_notFound hsf] at hFnf ⊢
    have hstepnf : ((g u).foldl (pathEdgeStep toId u) s).found = false := by
      by_contra hc
      rw [pathNodeFold_found_mono (Bool.not_eq_false _ |>.mp hc)] at hFnf
      exact Bool.noConfusion hFnf
    obtain ⟨-, etoid, evis, enext⟩ := pathEdgeFold_nf (g u) s hstepnf
    obtain ⟨-, itoid, ivis, inext⟩ := ih _ hFnf
    refine ⟨hsf, ?_, ?_, ?_⟩
    · intro hto
      intro u' hu'
      rcases List.mem_cons.mp hu' with he | hm
      · exact he ▸ etoid hto
      · have hto' : toId ∉ ((g u).foldl (pathEdgeStep toId u) s).visited := by
          rw [evis toId]
          rintro (h | h)
          · exact hto h
          · exact etoid hto h
        exact itoid hto' u' hm
    · intro w
      rw [ivis w]
      simp only [evis w, List.exists_mem_cons_iff]
      tauto
    · intro w
      rw [inext w]
      simp only [enext w, evis w, List.exists_mem_cons_iff, not_or]
      tauto

theorem pathLoop_succ (g : Nat → List Nat) (toId fuel : Nat)
    (parent : List (Nat × Option Nat)) (visited frontier : List Nat) :
    pathLoop g toId (fuel + 1) parent visited frontier =
      if frontier.isEmpty then none
      else
        if (pathLevel g toId parent visited frontier).found then
          some (pathLevel g toId parent visited frontier).parent
        else pathLoop g toId fuel (pathLevel g toId parent visited frontier).parent
          (pathLevel g toId parent visited frontier).visited
          (pathLevel g toId parent visited frontier).nextFrontier := rfl

/-- Correctness of the path BFS loop: on success the returned parent map
satisfies the parent invariant, covers the target, and the target sits at
the exact bounded shortest distance; on failure the target is outside the
explored horizon. -/
theorem pathLoop_correct (g : Nat → List Nat) (a toId : Nat) :
    ∀ (fuel hops : Nat) (parent : List (Nat × Option Nat)) (visited frontier : List Nat),
      (∀ v, v ∈ visited ↔ v ∈ ball g a hops) →
      (∀ v, v ∈ frontier ↔ sphereMem g a hops v) →
      toId ∉ ball g a hops →
      lookupA parent a = some none →
      (∀ v, lookupA parent v = some none → v = a) →
      (∀ v u, lookupA parent v = some (some u) → v ∈ g u ∧
        ∃ d, sphereMem g a d u ∧ sphereMem g a (d + 1) v) →
      (∀ v u, lookupA parent v = some (some u) → (lookupA parent u).isSome = true) →
      (∀ v, (lookupA parent v).isSome = true → v ∈ visited) →
      (∀ w ∈ visited, (lookupA parent w).isSome = true) →
      (∀ pF, pathLoop g toId fuel parent visited frontier = some pF →
        ParentInv g a pF ∧ (lookupA pF toId).isSome = true ∧
        ∃ h', hops < h' ∧ h' ≤ hops + fuel ∧ sphereMem g a h' toId) ∧
      (pathLoop g toId fuel parent visited frontier = none →
        ∀ j, j ≤ hops + fuel → toId ∉ ball g a j) := by
  intro fuel
  induction fuel with
  | zero =>
    intro hops parent visited frontier _ _ hto _ _ _ _ _ _
    refine ⟨fun pF hEq => Option.noConfusion hEq, fun _ j hj hb => ?_⟩
    exact hto (ball_mono (Nat.add_zero hops ▸ hj) hb)
  | succ fuel ih =>
    intro hops parent visited frontier hv hf hto hpa hnone hprov hulink hkeys hcov
    rw [pathLoop_succ]
    by_cases hemp : frontier.isEmpty
    · rw [if_pos hemp]
      have hfr : frontier = [] := List.isEmpty_iff.mp hemp
      have hsph : ∀ v, ¬ sphereMem g a hops v := by
        intro v hs
        exact absurd ((hf v).mpr hs) (by simp [hfr])
      refine ⟨fun pF hEq => Option.noConfusion hEq, fun _ j _ hb => ?_⟩
      exact hto (ball_stabilizes hsph j toId hb)
    · rw [if_neg hemp]
      obtain ⟨m1, m2, m3, m4, m5, m6⟩ :=
        pathNodeFold g toId frontier ⟨visited, [], parent, false⟩ hkeys hcov
      rw [show frontier.foldl (pathNodeStep g toId) ⟨visited, [], parent, false⟩ =
        pathLevel g toId parent visited frontier from rfl] at m1 m2 m3 m4 m5 m6
      have htov : toId ∉ visited := fun hx => hto ((hv toId).mp hx)
      have hs0pa : (lookupA (⟨visited, [], parent, false⟩ : PathSt).parent a).isSome
          = true := by
        show (lookupA parent a).isSome = true
        rw [hpa]
        rfl
      have hIpa : lookupA (pathLevel g toId parent visited frontier).parent a =
          some none := by
        rw [m2 a hs0pa]
        exact hpa
      have hInone : ∀ v, lookupA (pathLevel g toId parent visited frontier).parent v =
          some none → v = a := by
        intro v hlk
        rcases m3 v none hlk with h' | h'
        · exact hnone v h'
        · obtain ⟨u', -, hpv, -⟩ := h'
          exact Option.noConfusion hpv
      have hIprov : ∀ v u, lookupA (pathLevel g toId parent visited frontier).parent v =
          some (some u) → v ∈ g u ∧ ∃ d, sphereMem g a d u ∧ sphereMem g a (d + 1) v := by
        intro v u hlk
        rcases m3 v (some u) hlk with h' | h'
        · exact hprov v u h'
        · obtain ⟨u', hu', hpv, hvg, hnv⟩ := h'
          obtain rfl : u = u' := (Option.some.injEq _ _).mp hpv
          have hus : sphereMem g a hops u := (hf u).mp hu'
          refine ⟨hvg, hops, hus, sphereMem_succ.mpr ⟨mem_g_ball hus.1 hvg, ?_⟩⟩
          exact fun hb => hnv ((hv v).mpr hb)
      have hIulink : ∀ v u, lookupA (pathLevel g toId parent visited frontier).parent v =
          some (some u) →
          (lookupA (pathLevel g toId parent visited frontier).parent u).isSome = true := by
        intro v u hlk
        rcases m3 v (some u) hlk with h' | h'
        · have hus := hulink v u h'
          rw [m2 u hus]
          exact hus
        · obtain ⟨u', hu', hpv, -, -⟩ := h'
          obtain rfl : u = u' := (Option.some.injEq _ _).mp hpv
          have huvis : u ∈ visited := (hv u).mpr ((hf u).mp hu').1
          have hus := hcov u huvis
          rw [m2 u hus]
          exact hus
      by_cases hfound : (pathLevel g toId parent visited frontier).found = true
      · rw [if_pos hfound]
        refine ⟨fun pF hEq => ?_, fun hEq => Option.noConfusion hEq⟩
        obtain rfl : (pathLevel g toId parent visited frontier).parent = pF :=
          (Option.some.injEq _ _).mp hEq
        have hsome : (lookupA (pathLevel g toId parent visited frontier).parent
            toId).isSome = true := by
          rcases m6 hfound with h' | h'
          · exact Bool.noConfusion h'
          · exact h'.1
        have hsph : sphereMem g a (hops + 1) toId := by
          cases hlk : lookupA (pathLevel g toId parent visited frontier).parent toId with
          | none => rw [hlk] at hsome; exact Bool.noConfusion hsome
          | some pv =>
            rcases m3 toId pv hlk with h' | h'
            · exact absurd (hkeys toId (by rw [h']; rfl)) htov
            · obtain ⟨u', hu', -, hvg, -⟩ := h'
              have hus : sphereMem g a hops u' := (hf u').mp hu'
              exact sphereMem_succ.mpr ⟨mem_g_ball hus.1 hvg, hto⟩
        exact ⟨⟨hIpa, hInone, hIprov, hIulink⟩, hsome,
          hops + 1, by omega, by omega, hsph⟩
      · rw [if_neg hfound]
        have hsnf : (pathLevel g toId parent visited frontier).found = false :=
          Bool.not_eq_true _ ▸ hfound
        obtain ⟨-, ntoid, nvis, nnext⟩ := pathNodeFold_nf frontier
          ⟨visited, [], parent, false⟩ hsnf
        have hexiff : ∀ v, (∃ u ∈ frontier, v ∈ g u) ↔
            ∃ u, sphereMem g a hops u ∧ v ∈ g u := by
          intro v
          constructor
          · rintro ⟨u, hu, hvg⟩
            exact ⟨u, (hf u).mp hu, hvg⟩
          · rintro ⟨u, hu, hvg⟩
            exact ⟨u, (hf u).mpr hu, hvg⟩
        have hv' : ∀ v, v ∈ (pathLevel g toId parent visited frontier).visited ↔
            v ∈ ball g a (hops + 1) := by
          intro v
          rw [show pathLevel g toId parent visited frontier =
            frontier.foldl (pathNodeStep g toId) ⟨visited, [], parent, false⟩ from rfl,
            nvis v, ball_succ_eq_sphere_step]
          show v ∈ visited ∨ _ ↔ _
          rw [hv v, hexiff v]
        have hf' : ∀ v, v ∈ (pathLevel g toId parent visited frontier).nextFrontier ↔
            sphereMem g a (hops + 1) v := by
          intro v
          rw [show pathLevel g toId parent visited frontier =
            frontier.foldl (pathNodeStep g toId) ⟨visited, [], parent, false⟩ from rfl,
            nnext v, sphereMem_succ]
          show v ∈ ([] : List Nat) ∨ ((∃ u ∈ frontier, v ∈ g u) ∧ v ∉ visited) ↔ _
          simp only [List.not_mem_nil, false_or]
          constructor
          · rintro ⟨hex, hnv⟩
            have hnb : v ∉ ball g a hops := fun hb => hnv ((hv v).mpr hb)
            exact ⟨ball_succ_eq_sphere_step.mpr (Or.inr ((hexiff v).mp hex)), hnb⟩
          · rintro ⟨hb1, hnb⟩
            rcases ball_succ_eq_sphere_step.mp hb1 with hb | hex
            · exact absurd hb hnb
            · exact ⟨(hexiff v).mpr hex, fun hvv => hnb ((hv v).mp hvv)⟩
        have hto' : toId ∉ ball g a (hops + 1) := by
          intro hb
          rcases ball_succ_eq_sphere_step.mp hb with hb' | ⟨u, hu, hug⟩
          · exact hto hb'
          · exact ntoid htov u ((hf u).mpr hu) hug
        obtain ⟨ihs, ihn⟩ := ih (hops + 1)
          (pathLevel g toId parent visited frontier).parent
          (pathLevel g toId parent visited frontier).visited
          (pathLevel g toId parent visited frontier).nextFrontier
          hv' hf' hto' hIpa hInone hIprov hIulink m4 m5
        refine ⟨fun pF hEq => ?_, fun hEq j hj => ?_⟩
        · obtain ⟨hInv, hsome, h', hh1, hh2, hh3⟩ := ihs pF hEq
          exact ⟨hInv, hsome, h', by omega, by omega, hh3⟩
        · exact ihn hEq j (by omega)

theorem sphereMem_unique {g : Nat → List Nat} {a v : Nat} {m n : Nat}
    (hm : sphereMem g a m v) (hn : sphereMem g a n v) : m = n := by
  rcases Nat.lt_trichotomy m n with h | h | h
  · exfalso
    obtain ⟨k, hk⟩ : ∃ k, n = k + 1 := ⟨n - 1, by omega⟩
    subst hk
    exact hn.2 k rfl (ball_mono (by omega) hm.1)
  · exact h
  · exfalso
    obtain ⟨k, hk⟩ : ∃ k, m = k + 1 := ⟨m - 1, by omega⟩
    subst hk
    exact hm.2 k rfl (ball_mono (by omega) hn.1)

/-- Walking the parent chain from a node at sphere level `e` yields a
path of `e` follow edges from the root to that node. -/
theorem walkParent_correct (g : Nat → List Nat) (a : Nat)
    (parent : List (Nat × Option Nat)) (hinvp : ParentInv g a parent) :
    ∀ (e : Nat) (v : Nat), sphereMem g a e v → (lookupA parent v).isSome = true →
      ∀ fuel, e ≤ fuel →
      (walkParent parent fuel v).length = e + 1 ∧
      (walkParent parent fuel v).head? = some a ∧
      (walkParent parent fuel v).getLast? = some v ∧
      List.Chain' (fun x y => y ∈ g x) (walkParent parent fuel v) ∧
      (∀ i ∈ walkParent parent fuel v, i = a ∨ ∃ u, i ∈ g u) := by
  obtain ⟨hpa, hnone, hprov, hulink⟩ := hinvp
  intro e
  induction e with
  | zero =>
    intro v hs _ fuel _
    obtain rfl : v = a := sphereMem_zero.mp hs
    have hwalk : walkParent parent fuel v = [v] := by
      cases fuel with
      | zero => rfl
      | succ fuel' =>
        show (match lookupA parent v with
          | some (some p) => walkParent parent fuel' p ++ [v]
          | _ => [v]) = [v]
        rw [hpa]
    rw [hwalk]
    exact ⟨rfl, rfl, rfl, List.chain'_singleton _, fun i hi => Or.inl
      (List.mem_singleton.mp hi)⟩
  | succ e ihe =>
    intro v hs hsome fuel hfuel
    cases hlk : lookupA parent v with
    | none => rw [hlk] at hsome; exact Bool.noConfusion hsome
    | some pv =>
      cases pv with
      | none =>
        exfalso
        obtain rfl : v = a := hnone v hlk
        exact hs.2 e rfl (ball_mono (Nat.zero_le e) (mem_ball_self g v 0))
      | some u =>
        obtain ⟨hvg, d, hdu, hdv⟩ := hprov v u hlk
        have hde : d = e := Nat.succ_injective (sphereMem_unique hdv hs)
        subst hde
        have husome := hulink v u hlk
        obtain ⟨fuel', rfl⟩ : ∃ k, fuel = k + 1 := ⟨fuel - 1, by omega⟩
        have hwalk : walkParent parent (fuel' + 1) v =
            walkParent parent fuel' u ++ [v] := by
          show (match lookupA parent v with
            | some (some p) => walkParent parent fuel' p ++ [v]
            | _ => [v]) = _
          rw [hlk]
        rw [hwalk]
        obtain ⟨jlen, jhead, jlast, jchain, jmem⟩ :=
          ihe u hdu husome fuel' (by omega)
        refine ⟨?_, ?_, List.getLast?_concat _, ?_, ?_⟩
        · rw [List.length_append, jlen]
          rfl
        · cases hids : walkParent parent fuel' u with
          | nil => rw [hids] at jhead; exact Option.noConfusion jhead
          | cons x xs =>
            rw [hids] at jhead
            rw [List.head?_cons] at jhead
            rw [List.cons_append, List.head?_cons]
            exact jhead
        · rw [List.chain'_append]
          refine ⟨jchain, List.chain'_singleton _, ?_⟩
          intro x hx y hy
          rw [jlast] at hx
          rw [List.head?_cons] at hy
          simp only [Option.mem_def, Option.some.injEq] at hx hy
          subst hx
          subst hy
          exact hvg
        · intro i hi
          rcases List.mem_append.mp hi with h' | h'
          · exact jmem i h'
          · exact Or.inr ⟨u, (List.mem_singleton.mp h') ▸ hvg⟩

theorem getId_getPubkey (st : Store)
    (hinv2 : ∀ q ∈ st.idToPubkey, lookupA st.pubkeyToId q.2 = some q.1) {i : Nat}
    (h : (getPubkey st i).isSome = true) :
    getId st ((getPubkey st i).getD "") = some i := by
  cases hp : getPubkey st i with
  | none => rw [hp] at h; exact Bool.noConfusion h
  | some s =>
    have hmem : (i, s) ∈ st.idToPubkey := lookupA_mem hp
    have hid := hinv2 (i, s) hmem
    exact hid

/-- An id-level follow chain whose nodes are all mapped lifts to an
identity-level follow chain through the id maps. -/
theorem chainLift (st : Store)
    (hinv2 : ∀ q ∈ st.idToPubkey, lookupA st.pubkeyToId q.2 = some q.1) :
    ∀ (ids : List Nat),
      List.Chain' (fun x y => y ∈ storeG st x) ids →
      (∀ i ∈ ids, (getPubkey st i).isSome = true) →
      List.Chain' (followsEdgeP st) (ids.map (fun i => (getPubkey st i).getD "")) := by
  intro ids
  induction ids with
  | nil => intro _ _; exact List.chain'_nil
  | cons i rest ih =>
    intro hch hmap
    cases rest with
    | nil => exact List.chain'_singleton _
    | cons j rest' =>
      rw [List.chain'_cons] at hch
      rw [List.map_cons, List.map_cons, List.chain'_cons]
      constructor
      · exact ⟨i, j,
          getId_getPubkey st hinv2 (hmap i (List.mem_cons_self _ _)),
          getId_getPubkey st hinv2 (hmap j (List.mem_cons_of_mem _
            (List.mem_cons_self _ _))),
          hch.1⟩
      · have := ih hch.2 (fun x hx => hmap x (List.mem_cons_of_mem _ hx))
        rw [List.map_cons] at this
        exact this

theorem getPath_known (st : Store) (f t : String) (maxHops : Nat) (a b : Nat)
    (hft : f ≠ t) (hA : getId st f = some a) (hB : getId st t = some b) :
    getPath st f t maxHops =
      (pathLoop (storeG st) b maxHops [(a, none)] [a] [a]).map
        (fun parent => (walkParent parent maxHops b).map (getPubkey st)) := by
  unfold getPath
  rw [if_neg hft, hA, hB]

/-- C8: `getPath(X, X)` is the single-element list `[X]`; for distinct
identities mapped to ids `a`, `b`, when `b` is reachable within `maxHops`
(`specMinDist = some d`) the result is a pubkey list starting at `A`,
ending at `B`, of length `d + 1`, whose consecutive entries are follow
edges of the stored graph; when unreachable within `maxHops` or when
either identity is unknown, the result is null. -/
theorem getPath_correct (st : Store) (A B : String) (maxHops : Nat)
    (hinv : StoreInv st)
    (hg : ∀ e ∈ st.graphCache, ∀ v ∈ e.2, (lookupA st.idToPubkey v).isSome = true) :
    (A = B → getPath st A B maxHops = some [some A]) ∧
    (∀ a b, A ≠ B → getId st A = some a → getId st B = some b →
      (∀ d, specMinDist (storeG st) a b maxHops = some d →
        ∃ p : List String, getPath st A B maxHops = some (p.map some) ∧
          p.head? = some A ∧ p.getLast? = some B ∧ p.length = d + 1 ∧
          List.Chain' (followsEdgeP st) p) ∧
      (specMinDist (storeG st) a b maxHops = none →
        getPath st A B maxHops = none)) ∧
    ((getId st A = none ∨ getId st B = none) → A ≠ B →
      getPath st A B maxHops = none) := by
  refine ⟨?_, ?_, ?_⟩
  · intro hAB
    unfold getPath
    rw [if_pos hAB]
  · intro a b hAB hA hB
    have hab : a ≠ b := fun he => hAB (getId_injective hinv hA (he ▸ hB))
    have hpkA : getPubkey st a = some A := hinv.1 (A, a) (lookupA_mem hA)
    have hpkB : getPubkey st b = some B := hinv.1 (B, b) (lookupA_mem hB)
    rw [getPath_known st A B maxHops a b hAB hA hB]
    have hv0 : ∀ v, v ∈ [a] ↔ v ∈ ball (storeG st) a 0 := by
      intro v; simp [ball]
    have hf0 : ∀ v, v ∈ [a] ↔ sphereMem (storeG st) a 0 v := by
      intro v; simp [sphereMem_zero]
    have hto0 : b ∉ ball (storeG st) a 0 := by
      simp [ball]
      exact fun he => hab he.symm
    have hpa0 : lookupA [(a, (none : Option Nat))] a = some none := by
      simp [lookupA]
    have hnone0 : ∀ v, lookupA [(a, (none : Option Nat))] v = some none → v = a := by
      intro v h
      by_cases hva : a = v
      · exact hva.symm
      · rw [show lookupA [(a, (none : Option Nat))] v = none from by
          simp [lookupA, hva]] at h
        exact Option.noConfusion h
    have hval0 : ∀ v pv, lookupA [(a, (none : Option Nat))] v = some pv → pv = none := by
      intro v pv h
      by_cases hva : a = v
      · rw [show lookupA [(a, (none : Option Nat))] v = some none from by
          simp [lookupA, hva]] at h
        exact ((Option.some.injEq _ _).mp h).symm
      · rw [show lookupA [(a, (none : Option Nat))] v = none from by
          simp [lookupA, hva]] at h
        exact Option.noConfusion h
    have hprov0 : ∀ v u, lookupA [(a, (none : Option Nat))] v = some (some u) →
        v ∈ storeG st u ∧ ∃ d, sphereMem (storeG st) a d u ∧
          sphereMem (storeG st) a (d + 1) v := by
      intro v u h
      exact absurd (hval0 v (some u) h) (by simp)
    have hulink0 : ∀ v u, lookupA [(a, (none : Option Nat))] v = some (some u) →
        (lookupA [(a, (none : Option Nat))] u).isSome = true := by
      intro v u h
      exact absurd (hval0 v (some u) h) (by simp)
    have hkeys0 : ∀ v, (lookupA [(a, (none : Option Nat))] v).isSome = true →
        v ∈ [a] := by
      intro v h
      by_cases hva : a = v
      · simp [hva]
      · rw [show lookupA [(a, (none : Option Nat))] v = none from by
          simp [lookupA, hva]] at h
        exact Bool.noConfusion h
    have hcov0 : ∀ w ∈ [a], (lookupA [(a, (none : Option Nat))] w).isSome = true := by
      intro w hw
      rw [List.mem_singleton.mp hw, hpa0]
      rfl
    obtain ⟨ls, ln⟩ := pathLoop_correct (storeG st) a b maxHops 0 [(a, none)] [a] [a]
      hv0 hf0 hto0 hpa0 hnone0 hprov0 hulink0 hkeys0 hcov0
    constructor
    · intro d hspec
      obtain ⟨hdm, hbmem, hbmin⟩ := specMinDist_eq_some.mp hspec
      cases hres : pathLoop (storeG st) b maxHops [(a, none)] [a] [a] with
      | none => exact absurd hbmem (ln hres d (by omega))
      | some pF =>
        obtain ⟨hInv, hsome, h', hh0, hhm, hhs⟩ := ls pF hres
        have hd0 : 0 < d := by
          rcases Nat.eq_zero_or_pos d with h0 | h0
          · exfalso
            rw [h0] at hbmem
            simp [ball] at hbmem
            exact hab hbmem.symm
          · exact h0
        have hsphd : sphereMem (storeG st) a d b :=
          ⟨hbmem, fun j hj => hbmin j (by omega)⟩
        have hhd : h' = d := sphereMem_unique hhs hsphd
        subst hhd
        obtain ⟨wlen, whead, wlast, wchain, wmem⟩ :=
          walkParent_correct (storeG st) a pF hInv h' b hhs hsome maxHops (by omega)
        have hmapped : ∀ i ∈ walkParent pF maxHops b,
            (getPubkey st i).isSome = true := by
          intro i hi
          rcases wmem i hi with h' | ⟨u, hiu⟩
          · rw [h', hpkA]
            rfl
          · show (lookupA st.idToPubkey i).isSome = true
            cases hgc : lookupA st.graphCache u with
            | none =>
              exfalso
              rw [show storeG st u = [] from by
                show (lookupA st.graphCache u).getD [] = []
                rw [hgc]
                rfl] at hiu
              exact absurd hiu (List.not_mem_nil i)
            | some l =>
              have hmem : (u, l) ∈ st.graphCache := lookupA_mem hgc
              have hil : i ∈ l := by
                rw [show storeG st u = l from by
                  show (lookupA st.graphCache u).getD [] = l
                  rw [hgc]
                  rfl] at hiu
                exact hiu
              exact hg (u, l) hmem i hil
        have hpk_eq : ∀ i ∈ walkParent pF maxHops b,
            getPubkey st i = some ((getPubkey st i).getD "") := by
          intro i hi
          cases hp : getPubkey st i with
          | none =>
            have := hmapped i hi
            rw [hp] at this
            exact Bool.noConfusion this
          | some s => rfl
        refine ⟨(walkParent pF maxHops b).map (fun i => (getPubkey st i).getD ""),
          ?_, ?_, ?_, ?_, ?_⟩
        · show some ((walkParent pF maxHops b).map (getPubkey st)) = _
          rw [List.map_map]
          exact congrArg some (List.map_congr_left hpk_eq)
        · rw [List.head?_map, whead]
          show some ((getPubkey st a).getD "") = some A
          rw [hpkA]
          rfl
        · rw [List.getLast?_map, wlast]
          show some ((getPubkey st b).getD "") = some B
          rw [hpkB]
          rfl
        · rw [List.length_map, wlen]
        · exact chainLift st hinv.2.1 _ wchain hmapped
    · intro hspec
      cases hres : pathLoop (storeG st) b maxHops [(a, none)] [a] [a] with
      | none => rfl
      | some pF =>
        exfalso
        obtain ⟨-, -, h', -, hhm, hhs⟩ := ls pF hres
        exact specMinDist_eq_none.mp hspec h' (by omega) hhs.1
  · intro hnone hAB
    unfold getPath
    rw [if_neg hAB]
    rcases hnone with h | h
    · rw [h]
    · rw [h]
      cases getId st A <;> rfl

/-- Witness for C8 on the spec's example store with `R`, `T`, `maxHops = 3`. -/
theorem getPath_correct_witness :
    (("R" : String) = "T" → getPath exampleStore "R" "T" 3 = some [some "R"]) ∧
    (∀ a b, ("R" : String) ≠ "T" → getId exampleStore "R" = some a →
      getId exampleStore "T" = some b →
      (∀ d, specMinDist (storeG exampleStore) a b 3 = some d →
        ∃ p : List String, getPath exampleStore "R" "T" 3 = some (p.map some) ∧
          p.head? = some "R" ∧ p.getLast? = some "T" ∧ p.length = d + 1 ∧
          List.Chain' (followsEdgeP exampleStore) p) ∧
      (specMinDist (storeG exampleStore) a b 3 = none →
        getPath exampleStore "R" "T" 3 = none)) ∧
    ((getId exampleStore "R" = none ∨ getId exampleStore "T" = none) →
      ("R" : String) ≠ "T" → getPath exampleStore "R" "T" 3 = none) :=
  getPath_correct exampleStore "R" "T" 3 (by decide) (by decide)

end NostrWot
